import Mathlib

/-!
# gemmbitserial: bit-serial matrix multiplication

A shallow embedding of `src/gemmbitserial.hpp` and `src/arch-generic.hpp`.

Modelling conventions.

* `uint64_t` sizes and indices are `Nat`.  `alignTo` keeps the 64-bit
  wrap-around of its sum explicitly; index arithmetic into a buffer is exact
  (an allocated buffer has fewer than `2^64` words).
* A buffer (`uint64_t *`, `int32_t *`, `T *`) is a function from the element
  index to the element stored there; a pointer into a buffer is the buffer
  shifted by the offset.  Freshly allocated memory has arbitrary content, so
  allocation takes the content as an argument.
* `int32_t` arithmetic is integer arithmetic followed by `toInt32`
  (two's-complement wrap-around to 32 bits).
* A failed `assert` and a division by zero end the program: such functions
  return `Option`, and `none` stands for the abort.
* A counted `for` loop is `loop`, a strided one is `loopFrom`.
-/

namespace gemmbitserial

/-! ## Loops and buffers -/

/-- The loop `for (i = 0; i < n; i++) s = body i s`. -/
def loop {σ : Type} (n : Nat) (body : Nat → σ → σ) (s : σ) : σ :=
  match n with
  | 0 => s
  | k + 1 => body k (loop k body s)

/-- The loop `for (i = start; i < stop; i += step) s = body i s` for a positive
`step`: the body runs at `i = start + k * step` for every `k` below the trip
count `⌈(stop - start) / step⌉`. -/
def loopFrom {σ : Type} (start stop step : Nat) (body : Nat → σ → σ) (s : σ) : σ :=
  loop ((stop - start + step - 1) / step) (fun k => body (start + k * step)) s

/-- The store `buf[i] = v`. -/
def upd {α : Type} (buf : Nat → α) (i : Nat) (v : α) : Nat → α :=
  fun k => if k = i then v else buf k

/-- Conversion of an integer to `int32_t`: reduction modulo `2^32` into
`[-2^31, 2^31)`. -/
def toInt32 (x : Int) : Int := (x + 2147483648) % 4294967296 - 2147483648

/-- Conversion of an integer to `uint8_t`: reduction modulo `256`. -/
def toUInt8 (x : Int) : Nat := (x % 256).toNat

/-- The builtin `__builtin_popcountll`: the number of set bits among the 64 bits
of a word. -/
def popcountll (w : Nat) : Nat :=
  loop 64 (fun p n => if w.testBit p then n + 1 else n) 0

/-! ## alignTo -/

/-- The function `alignTo(in, af)`: `in` rounded up to a multiple of `af`, the sum
taken in 64-bit unsigned arithmetic.  `in % af` divides by zero when `af = 0`. -/
def alignTo (i af : Nat) : Option Nat :=
  if af = 0 then none
  else if i % af ≠ 0 then some ((i + (af - i % af)) % 2 ^ 64)
  else some i

/-! ## BitSerialMatrix -/

/-- The class `BitSerialMatrix`; `data` has the layout
`[nbits][nrows_a][ncols_a/64]`. -/
structure BitSerialMatrix where
  issigned : Bool
  nbits : Nat
  nrows : Nat
  ncols : Nat
  nrows_a : Nat
  ncols_a : Nat
  data : Nat → Nat

namespace BitSerialMatrix

/-- The static member `alloc`; `data` is the content of the fresh buffer. -/
def alloc (nbits nrows ncols : Nat) (issigned : Bool) (rowalign colalign : Nat)
    (data : Nat → Nat) : Option BitSerialMatrix :=
  match alignTo nrows rowalign, alignTo ncols colalign with
  | some nrows_a, some ncols_a =>
    some ⟨issigned, nbits, nrows, ncols, nrows_a, ncols_a, data⟩
  | _, _ => none

/-- Number of storage words for each row. -/
def wordsPerRow (m : BitSerialMatrix) : Nat := m.ncols_a / 64

/-- Number of storage words for each bitplane. -/
def wordsPerBitplane (m : BitSerialMatrix) : Nat := m.nrows_a * m.wordsPerRow

/-- The member `bitpos`: `col & ((1 << 6) - 1)`. -/
def bitpos (col : Nat) : Nat := col &&& ((1 <<< 6) - 1)

/-- The index into `data` of the word that `word(bit, row, col)` refers to. -/
def wordIndex (m : BitSerialMatrix) (bit row col : Nat) : Nat :=
  bit * m.wordsPerBitplane + row * m.wordsPerRow + (col >>> 6)

/-- The member `word`, read. -/
def word (m : BitSerialMatrix) (bit row col : Nat) : Nat :=
  m.data (m.wordIndex bit row col)

/-- The member `get`. -/
def get (m : BitSerialMatrix) (bit row col : Nat) : Bool :=
  ((m.word bit row col >>> bitpos col) &&& 1) == 1

/-- The member `clearAll`: `memset` of the `nbits * wordsPerBitplane()` words. -/
def clearAll (m : BitSerialMatrix) : BitSerialMatrix :=
  ⟨m.issigned, m.nbits, m.nrows, m.ncols, m.nrows_a, m.ncols_a,
    fun i => if i < m.nbits * m.wordsPerBitplane then 0 else m.data i⟩

/-- The member `set`. -/
def set (m : BitSerialMatrix) (bit row col : Nat) : BitSerialMatrix :=
  ⟨m.issigned, m.nbits, m.nrows, m.ncols, m.nrows_a, m.ncols_a,
    upd m.data (m.wordIndex bit row col) (m.word bit row col ||| (1 <<< bitpos col))⟩

/-- The member `unset`; `~` is the complement on 64 bits. -/
def unset (m : BitSerialMatrix) (bit row col : Nat) : BitSerialMatrix :=
  ⟨m.issigned, m.nbits, m.nrows, m.ncols, m.nrows_a, m.ncols_a,
    upd m.data (m.wordIndex bit row col)
      (m.word bit row col &&& (2 ^ 64 - 1 - (1 <<< bitpos col)))⟩

/-- The member `rowptr`: the buffer from the first word of a row on. -/
def rowptr (m : BitSerialMatrix) (bit row : Nat) : Nat → Nat :=
  fun i => m.data (bit * m.wordsPerBitplane + row * m.wordsPerRow + i)

/-- The member `bitplaneptr`: the buffer from the first word of a bitplane on. -/
def bitplaneptr (m : BitSerialMatrix) (bit : Nat) : Nat → Nat :=
  fun i => m.data (bit * m.wordsPerBitplane + i)

/-- The member `importRegular`.  Every element is read through `uint8_t`; the test
`currentElem & (1 << b)` shifts exactly (the language defines the `int` shift
for `b ≤ 30`). -/
def importRegular (m : BitSerialMatrix) (matrix : Nat → Int) (readColMajor : Bool) :
    BitSerialMatrix :=
  loop m.nrows (fun r m1 =>
    loop m.ncols (fun c m2 =>
      let currentElem : Nat :=
        if !readColMajor then toUInt8 (matrix (r * m.ncols + c))
        else toUInt8 (matrix (c * m.nrows + r))
      loop m.nbits (fun b m3 =>
        if currentElem &&& (1 <<< b) ≠ 0 then m3.set b r c else m3) m2) m1) m.clearAll

/-- The member `exportRegular`; `currentElem` is a `uint8_t`, stored into the
target type (wide enough for `0..255`) unchanged. -/
def exportRegular (m : BitSerialMatrix) (matrix : Nat → Int) : Nat → Int :=
  loop m.nrows (fun r out1 =>
    loop m.ncols (fun c out2 =>
      let currentElem : Nat :=
        loop m.nbits (fun b cur =>
          if m.get b r c then (cur ||| (1 <<< b)) % 256 else cur) 0
      upd out2 (r * m.ncols + c) (currentElem : Int)) out1) matrix

end BitSerialMatrix

/-! ## Block planner -/

/-- The difference `a - b` of two `uint64_t` values. -/
def sub64 (a b : Nat) : Nat := (a + 2 ^ 64 - b) % 2 ^ 64

/-- The loop `for (i = start; i > stop; i -= step) s = body i s` for a positive
`step`: the body runs at `i = start - k * step` for every `k` below the trip
count `⌈(start - stop) / step⌉`. -/
def loopDown {σ : Type} (start stop step : Nat) (body : Nat → σ → σ) (s : σ) : σ :=
  loop ((start - stop + step - 1) / step) (fun k => body (start - k * step)) s

/-- The function `computeBlockSize` for an arbitrary value of its lines 161-168;
the pair is what it stores through its reference parameters `lhsBlock` and
`rhsBlock`.  Lines 161-168 compute `x` in single-precision floating point:
`fpRoot lhsMult rhsMult cacheBits dBits` stands for the value they leave in `x`,
whatever it is, and `computeBlockSizeF32` below evaluates them.  The products
`lhsMult * x` are exact for `x` below `2^23`. -/
def computeBlockSize (fpRoot : Nat → Nat → Nat → Nat → Int)
    (lhsMult rhsMult cacheBits dBits : Nat) : Option (Nat × Nat) :=
  let x : Int := fpRoot lhsMult rhsMult cacheBits dBits
  if 0 < x then some (lhsMult * x.toNat, rhsMult * x.toNat) else none

/-- The root that lines 161-168 of `computeBlockSize` approximate, in exact real
arithmetic: `floor ((-b ± sqrt D) / (2 a))` with `a`, `b`, `c` as the source
computes them (`sizeof(int32_t)` is 4); `none` where `D` or `a` is zero.  This is
the mathematical value, not the run of the code, which rounds every operation
to single precision (`computeBlockSizeF32`) and can leave another `x`. -/
def rootExact (lhsMult rhsMult cacheBits dBits : Nat) : Option Int :=
  let a : Int := 4 * lhsMult * rhsMult
  let b : Int := dBits * (lhsMult + rhsMult)
  let c : Int := -(cacheBits : Int)
  let D : Nat := (b * b - 4 * a * c).toNat
  let lo : Int := Nat.sqrt D
  let hi : Int := if Nat.sqrt D * Nat.sqrt D = D then Nat.sqrt D else Nat.sqrt D + 1
  if D = 0 ∨ a = 0 then none
  else
    let x0 : Int := Int.fdiv (-b + lo) (2 * a)
    let x1 : Int := Int.fdiv (-b - hi) (2 * a)
    some (if x0 > x1 then x0 else x1)

/-- The function `finetuneBlockSize`. -/
def finetuneBlockSize (rows bs_max bs_div : Nat) : Option Nat :=
  if bs_div = 0 then none
  else
    match alignTo rows bs_max with
    | none => none
    | some a0 =>
      (loopDown bs_max bs_div bs_div (fun ccand st =>
        match st with
        | none => none
        | some (best_cand, min_penalty) =>
          if ccand % bs_div = 0 then
            match alignTo rows ccand with
            | none => none
            | some a =>
              if sub64 a rows < min_penalty then some (ccand, sub64 a rows)
              else some (best_cand, min_penalty)
          else some (best_cand, min_penalty))
        (some (bs_max, sub64 a0 rows))).map Prod.fst

/-- The class `GEMMContext`; `res` has `lhs.nrows * rhs.nrows` cells. -/
structure GEMMContext where
  lhs : BitSerialMatrix
  rhs : BitSerialMatrix
  lhsBlock : Nat
  rhsBlock : Nat
  res : Nat → Int

/-- The block sizes that `allocGEMMContext_base` settles on (lines 224-240).  The
comparisons with `0.1 * rows` are taken exactly (`10 * penalty > rows`), as
double precision decides them for row counts below `2^50`. -/
def planBlocks (fpRoot : Nat → Nat → Nat → Nat → Int)
    (lhsRows rhsRows regblock_lhs regblock_rhs cacheBits depth_al : Nat) :
    Option (Nat × Nat) :=
  match computeBlockSize fpRoot regblock_lhs regblock_rhs cacheBits depth_al with
  | none => none
  | some (lhsBlock, rhsBlock) =>
    if lhsBlock > lhsRows ∨ rhsBlock > rhsRows then
      match alignTo lhsRows regblock_lhs, alignTo rhsRows regblock_rhs with
      | some lb, some rb => some (lb, rb)
      | _, _ => none
    else
      match alignTo lhsRows lhsBlock, alignTo rhsRows rhsBlock with
      | some al, some ar =>
        match (if 10 * sub64 al lhsRows > lhsRows
                then finetuneBlockSize lhsRows lhsBlock regblock_lhs else some lhsBlock),
              (if 10 * sub64 ar rhsRows > rhsRows
                then finetuneBlockSize rhsRows rhsBlock regblock_rhs else some rhsBlock) with
        | some lb, some rb => some (lb, rb)
        | _, _ => none
      | _, _ => none

/-- The function `allocGEMMContext_base`.  The three buffers come from `new`;
`lhsData`, `rhsData` and `res` are their content. -/
def allocGEMMContext_base (fpRoot : Nat → Nat → Nat → Nat → Int)
    (lhsRows depth rhsRows lhsBits rhsBits : Nat) (lhsSigned rhsSigned : Bool)
    (regblock_lhs regblock_d regblock_rhs cacheBits : Nat)
    (lhsData rhsData : Nat → Nat) (res : Nat → Int) : Option GEMMContext :=
  match alignTo depth (regblock_d * 64) with
  | none => none
  | some depth_al =>
    match planBlocks fpRoot lhsRows rhsRows regblock_lhs regblock_rhs cacheBits depth_al with
    | none => none
    | some (lhsBlock, rhsBlock) =>
      match BitSerialMatrix.alloc lhsBits lhsRows depth lhsSigned lhsBlock
              (regblock_d * 64) lhsData,
            BitSerialMatrix.alloc rhsBits rhsRows depth rhsSigned rhsBlock
              (regblock_d * 64) rhsData with
      | some lhs, some rhs => some ⟨lhs, rhs, lhsBlock, rhsBlock, res⟩
      | _, _ => none

/-- The function `allocGEMMContext_generic`. -/
def allocGEMMContext_generic (fpRoot : Nat → Nat → Nat → Nat → Int)
    (lhsRows depth rhsRows lhsBits rhsBits : Nat) (lhsSigned rhsSigned : Bool)
    (lhsData rhsData : Nat → Nat) (res : Nat → Int) : Option GEMMContext :=
  allocGEMMContext_base fpRoot lhsRows depth rhsRows lhsBits rhsBits lhsSigned rhsSigned
    2 1 2 (32 * 1024 * 8) lhsData rhsData res

/-- The function `prepareAccumulators`; the result is the accumulator buffer
after the call. -/
def prepareAccumulators (ctx : GEMMContext) : Nat → Int :=
  let lhsBipolar : Bool := (ctx.lhs.nbits == 1) && ctx.lhs.issigned
  let rhsBipolar : Bool := (ctx.rhs.nbits == 1) && ctx.rhs.issigned
  if xor lhsBipolar rhsBipolar then ctx.res
  else fun i => if i < ctx.lhs.nrows * ctx.rhs.nrows then 0 else ctx.res i

/-! ## Generic kernels -/

/-- The function `gemmBinary_generic_chunk_tile2x1x2`; the result is `CT` after
the call. -/
def gemmBinary_generic_chunk_tile2x1x2 (A BT : Nat → Nat) (CT : Nat → Int) (alpha : Int)
    (rowsA depth_words rowsBT bA bBT lhs_block rhs_block rowsA_orig rowsBT_orig : Nat) :
    Nat → Int :=
  let Atile := 2
  let BTtile := 2
  loopFrom bBT (bBT + rhs_block) BTtile (fun rBT CT1 =>
    loopFrom bA (bA + lhs_block) Atile (fun rA CT2 =>
      let acc : Nat → Int :=
        loop depth_words (fun d acc =>
          let a0 := A (rA * depth_words + d)
          let a1 := A (rA * depth_words + (d + depth_words))
          let b0 := BT (rBT * depth_words + d)
          let b1 := BT (rBT * depth_words + (d + depth_words))
          let acc := upd acc 0 (toInt32 (acc 0 + popcountll (a0 &&& b0)))
          let acc := upd acc 1 (toInt32 (acc 1 + popcountll (a0 &&& b1)))
          let acc := upd acc 2 (toInt32 (acc 2 + popcountll (a1 &&& b0)))
          upd acc 3 (toInt32 (acc 3 + popcountll (a1 &&& b1)))) (fun _ => 0)
      loop Atile (fun ta CT3 =>
        loop BTtile (fun tb CT4 =>
          if rBT + tb < rowsBT_orig ∧ rA + ta < rowsA_orig then
            upd CT4 ((rBT + tb) * rowsA_orig + (rA + ta))
              (toInt32 (CT4 ((rBT + tb) * rowsA_orig + (rA + ta))
                + toInt32 (acc (ta * BTtile + tb) * alpha)))
          else CT4) CT3) CT2) CT1) CT

/-- The function `gemmBinary_generic_L1_tile2x1x2`; `none` when one of its four
assertions fails (or divides by zero). -/
def gemmBinary_generic_L1_tile2x1x2 (A BT : Nat → Nat) (CT : Nat → Int) (alpha : Int)
    (rowsA depth_words rowsBT rowsA_orig rowsBT_orig lhsBlock rhsBlock : Nat) :
    Option (Nat → Int) :=
  if rhsBlock = 0 ∨ lhsBlock = 0 then none
  else if rowsBT % rhsBlock ≠ 0 then none
  else if rowsA % lhsBlock ≠ 0 then none
  else if lhsBlock % 2 ≠ 0 then none
  else if rhsBlock % 2 ≠ 0 then none
  else
    some (loopFrom 0 rowsBT rhsBlock (fun bBT CT1 =>
      loopFrom 0 rowsA lhsBlock (fun bA CT2 =>
        gemmBinary_generic_chunk_tile2x1x2 A BT CT2 alpha rowsA depth_words rowsBT bA bBT
          lhsBlock rhsBlock rowsA_orig rowsBT_orig) CT1) CT)

/-- The `int` expression `x << s`, as an `int32_t`.  The language defines it for
`s ≤ 30` and a result that fits; beyond that the embedding follows the 32-bit
shift instruction of the target (`shl` on x86-64, `lsl` on AArch64), which takes
the count modulo 32 and keeps the low 32 bits of the result. -/
def shl32 (x : Int) (s : Nat) : Int := toInt32 (x * 2 ^ (s % 32))

/-- The function `gemmBitSerial_generic_usingBinary`; the result is the accumulator
`ctx.res` after the call, `none` when an assertion fails. -/
def gemmBitSerial_generic_usingBinary (ctx : GEMMContext) : Option (Nat → Int) :=
  if ctx.lhs.ncols ≠ ctx.rhs.ncols then none
  else
    let lhsbits := ctx.lhs.nbits
    let rhsbits := ctx.rhs.nbits
    loop lhsbits (fun lbit st1 =>
      let neg_lhs : Bool := ctx.lhs.issigned && (lbit == lhsbits - 1)
      loop rhsbits (fun rbit st2 =>
        match st2 with
        | none => none
        | some res =>
          let neg_rhs : Bool := ctx.rhs.issigned && (rbit == rhsbits - 1)
          let neg : Bool := xor neg_rhs neg_lhs
          let alpha : Int :=
            if neg then toInt32 (-(shl32 1 (lbit + rbit))) else shl32 1 (lbit + rbit)
          gemmBinary_generic_L1_tile2x1x2 (ctx.lhs.bitplaneptr lbit)
            (ctx.rhs.bitplaneptr rbit) res alpha ctx.lhs.nrows_a ctx.lhs.wordsPerRow
            ctx.rhs.nrows_a ctx.lhs.nrows ctx.rhs.nrows ctx.lhsBlock ctx.rhsBlock) st1)
      (some (prepareAccumulators ctx))

/-- The function `gemmBitSerial_generic_naive`; `andcard` is a `uint64_t`, and its
sum with `rowres` is converted back to `int32_t`. -/
def gemmBitSerial_generic_naive (ctx : GEMMContext) : Option (Nat → Int) :=
  if ctx.lhs.ncols ≠ ctx.rhs.ncols then none
  else
    let lhsbits := ctx.lhs.nbits
    let rhsbits := ctx.rhs.nbits
    let out_rows := ctx.lhs.nrows
    let out_cols := ctx.rhs.nrows
    let depth := ctx.lhs.wordsPerRow
    some (loop out_cols (fun i res1 =>
      loop out_rows (fun j res2 =>
        let rowres : Int :=
          loop lhsbits (fun lbit rr1 =>
            let neg_lhs : Bool := ctx.lhs.issigned && (lbit == lhsbits - 1)
            loop rhsbits (fun rbit rr2 =>
              let neg_rhs : Bool := ctx.rhs.issigned && (rbit == rhsbits - 1)
              let ldata := ctx.lhs.rowptr lbit j
              let rdata := ctx.rhs.rowptr rbit i
              let andcard : Nat :=
                loop depth (fun k ac => (ac + popcountll (ldata k &&& rdata k)) % 2 ^ 64) 0
              let andcard : Nat := (andcard <<< (lbit + rbit)) % 2 ^ 64
              toInt32 (rr2 + (if xor neg_lhs neg_rhs then ((2 ^ 64 - andcard) % 2 ^ 64 : Nat)
                              else andcard))) rr1) 0
        upd res2 (i * ctx.lhs.nrows + j) rowres) res1) ctx.res)

/-- The function `sumRows_generic_naive`; the result is `row_sums` after the
call. -/
def sumRows_generic_naive (m : BitSerialMatrix) (row_sums : Nat → Int) : Nat → Int :=
  let nc := m.wordsPerRow
  loop m.nrows (fun r sums =>
    let row_acc : Int :=
      loop m.nbits (fun b row_acc =>
        let rowptr := m.rowptr b r
        let bit_acc : Int := loop nc (fun c ba => toInt32 (ba + popcountll (rowptr c))) 0
        let bit_acc : Int := shl32 bit_acc b
        let bit_acc : Int :=
          if m.issigned && (b == m.nbits - 1) then toInt32 (-bit_acc) else bit_acc
        toInt32 (row_acc + bit_acc)) 0
    upd sums r row_acc) row_sums


/-! ## Single-precision arithmetic

A finite `float` is an integer number of units of `2^-149`: every finite
single-precision value is such a multiple.  An operation rounds its exact
result to the nearest value with a 24-bit significand, ties to even; a result
from `2^128` on is infinite, and is `none` here.  Every operator of the source
is one operation: the expressions are evaluated in `float`, and no product is
fused with a sum. -/

/-- The position of the highest set bit of `n`, `⌊log2 n⌋` (0 for `n = 0`), with
`fuel` halvings allowed. -/
def ilog2Aux : Nat → Nat → Nat
  | 0, _ => 0
  | fuel + 1, n => if n < 2 then 0 else ilog2Aux fuel (n / 2) + 1

/-- The position of the highest set bit of `n`. -/
def ilog2 (n : Nat) : Nat := ilog2Aux n n

/-- The integer square root of `n < 4^k`, two bits of `n` per step. -/
def isqrtAux : Nat → Nat → Nat
  | 0, _ => 0
  | k + 1, n =>
    let r := 2 * isqrtAux k (n / 4)
    if (r + 1) * (r + 1) ≤ n then r + 1 else r

/-- The integer square root `⌊√n⌋`. -/
def isqrt (n : Nat) : Nat := isqrtAux (ilog2 n / 2 + 1) n

/-- The single-precision value nearest to the rational `num / den` (a number of
units), ties to even: the spacing `q` of the values is `2^(e - 23)` for a
number with highest bit `e ≥ 23`, and one unit below. -/
def f32Round (num den : Nat) : Nat :=
  let q := 2 ^ (ilog2 (num / den) - 23)
  let m := num / (den * q)
  let r := num % (den * q)
  if 2 * r < den * q then m * q
  else if 2 * r = den * q ∧ m % 2 = 0 then m * q
  else (m + 1) * q

/-- The single-precision value nearest to `√X` (a number of units), ties to even. -/
def f32RoundSqrt (X : Nat) : Nat :=
  let s := isqrt X
  let q := 2 ^ (ilog2 s - 23)
  let m := s / q
  if 4 * X < ((2 * m + 1) * q) * ((2 * m + 1) * q) then m * q
  else if 4 * X = ((2 * m + 1) * q) * ((2 * m + 1) * q) ∧ m % 2 = 0 then m * q
  else (m + 1) * q

/-- A rounded magnitude with its sign, as a finite `float`; `none` from `2^128`
on. -/
def f32Fin (neg : Bool) (n : Nat) : Option Int :=
  if n < 2 ^ 128 * 2 ^ 149 then some (if neg then -(n : Int) else n) else none

/-- The conversion of a `uint64_t` to `float`. -/
def f32OfNat (n : Nat) : Option Int := f32Fin false (f32Round (n * 2 ^ 149) 1)

/-- The conversion of an `int64_t` to `float`. -/
def f32OfInt (z : Int) : Option Int :=
  f32Fin (decide (z < 0)) (f32Round (z.natAbs * 2 ^ 149) 1)

/-- The `float` product. -/
def f32Mul (x y : Int) : Option Int :=
  f32Fin (xor (decide (x < 0)) (decide (y < 0))) (f32Round (x.natAbs * y.natAbs) (2 ^ 149))

/-- The `float` sum. -/
def f32Add (x y : Int) : Option Int :=
  f32Fin (decide (x + y < 0)) (f32Round (x + y).natAbs 1)

/-- The `float` difference. -/
def f32Sub (x y : Int) : Option Int := f32Add x (-y)

/-- The `float` quotient; a division by zero gives an infinity or a NaN, `none`
here. -/
def f32Div (x y : Int) : Option Int :=
  if y = 0 then none
  else f32Fin (xor (decide (x < 0)) (decide (y < 0))) (f32Round (x.natAbs * 2 ^ 149) y.natAbs)

/-- The `float` square root; the root of a negative number is a NaN, `none`
here. -/
def f32Sqrt (x : Int) : Option Int :=
  if x < 0 then none else some (f32RoundSqrt (x.natAbs * 2 ^ 149))

/-- The function `floor` on a `float`, as the integer it returns. -/
def f32Floor (x : Int) : Int := x / 2 ^ 149

/-- The conversion of an integral `float` to `int64_t`, undefined (`none`) out of
range. -/
def toInt64 (z : Int) : Option Int :=
  if -2 ^ 63 ≤ z ∧ z < 2 ^ 63 then some z else none

/-- The conversion of a `float` to `uint64_t`: truncation, undefined (`none`) out
of range. -/
def f32ToUInt64 (x : Int) : Option Nat :=
  if 0 ≤ Int.tdiv x (2 ^ 149) ∧ Int.tdiv x (2 ^ 149) < 2 ^ 64
  then some (Int.tdiv x (2 ^ 149)).toNat else none

/-- Line 161 to 163 of `computeBlockSize` in single precision: the `float`
arguments `lhsMult` and `rhsMult` (converted from the `uint64_t` values that
`allocGEMMContext_base` passes) and `a`, `b` and the converted `cacheBits`. -/
def planCoefficientsF32 (lhsMult rhsMult cacheBits dBits : Nat) :
    Option (Int × Int × Int × Int × Int) :=
  (f32OfNat lhsMult).bind fun lm =>
  (f32OfNat rhsMult).bind fun rm =>
  (f32OfNat cacheBits).bind fun cb =>
  (f32OfNat dBits).bind fun db =>
  (f32OfNat 4).bind fun four =>
  (f32Mul four lm).bind fun a4 =>
  (f32Mul a4 rm).bind fun a =>
  (f32Add lm rm).bind fun lr =>
  (f32Mul db lr).bind fun b =>
  some (lm, rm, a, b, cb)

/-- Line 164 and 165 of `computeBlockSize` in single precision:
`discr = sqrt(b*b - 4 * a * c)` for `c = -cacheBits`, and the assertion
`discr > 0`. -/
def discrF32 (a b cb : Int) : Option Int :=
  (f32OfNat 4).bind fun four =>
  (f32Mul b b).bind fun bb =>
  (f32Mul four a).bind fun fa =>
  (f32Mul fa (-cb)).bind fun fac =>
  (f32Sub bb fac).bind fun d =>
  (f32Sqrt d).bind fun discr =>
  if 0 < discr then some discr else none

/-- Line 166 to 169 of `computeBlockSize` in single precision: the two floored
quotients, converted to `int64_t`, the larger of them, and the assertion
`x > 0`. -/
def rootF32 (a b discr : Int) : Option Int :=
  (f32OfNat 2).bind fun two =>
  (f32Mul two a).bind fun a2 =>
  (f32Add (-b) discr).bind fun y0 =>
  (f32Div y0 a2).bind fun q0 =>
  (toInt64 (f32Floor q0)).bind fun x0 =>
  (f32Sub (-b) discr).bind fun y1 =>
  (f32Div y1 a2).bind fun q1 =>
  (toInt64 (f32Floor q1)).bind fun x1 =>
  if 0 < (if x0 > x1 then x0 else x1) then some (if x0 > x1 then x0 else x1) else none

/-- Line 170 or 171 of `computeBlockSize` in single precision: the product of a
`float` multiple and the `int64_t` root, converted to `uint64_t`. -/
def blockF32 (mult x : Int) : Option Nat :=
  (f32OfInt x).bind fun xf =>
  (f32Mul mult xf).bind fun p =>
  f32ToUInt64 p

/-- The function `computeBlockSize` with its single-precision arithmetic: the
arguments are the `uint64_t` values that `allocGEMMContext_base` passes, and
the pair is what the function stores through `lhsBlock` and `rhsBlock`.  It is
`none` when an assertion fails, and when a value leaves the finite range: then
`discr` or a quotient is infinite or a NaN, so that either `discr > 0` fails or
a conversion to an integer is undefined. -/
def computeBlockSizeF32 (lhsMult rhsMult cacheBits dBits : Nat) : Option (Nat × Nat) :=
  (planCoefficientsF32 lhsMult rhsMult cacheBits dBits).bind fun co =>
  (discrF32 co.2.2.1 co.2.2.2.1 co.2.2.2.2).bind fun discr =>
  (rootF32 co.2.2.1 co.2.2.2.1 discr).bind fun x =>
  (blockF32 co.1 x).bind fun lhsBlock =>
  (blockF32 co.2.1 x).bind fun rhsBlock =>
  some (lhsBlock, rhsBlock)

/-! ## Vocabulary of the statements -/

/-- The data-model invariants of a `BitSerialMatrix`: the allocated row length is
a whole number of words, and the allocated dimensions cover the logical ones. -/
def BitSerialMatrix.WF (m : BitSerialMatrix) : Prop :=
  m.ncols_a % 64 = 0 ∧ m.nrows ≤ m.nrows_a ∧ m.ncols ≤ m.ncols_a

instance (m : BitSerialMatrix) : Decidable m.WF := by
  unfold BitSerialMatrix.WF; infer_instance

/-- Two matrices of the same shape, precision and signedness (their buffers may
differ). -/
def BitSerialMatrix.SameShape (m t : BitSerialMatrix) : Prop :=
  t.issigned = m.issigned ∧ t.nbits = m.nbits ∧ t.nrows = m.nrows ∧ t.ncols = m.ncols
    ∧ t.nrows_a = m.nrows_a ∧ t.ncols_a = m.ncols_a

/-- The element that `importRegular` reads for position `(r, c)`, as a
`uint8_t`. -/
def BitSerialMatrix.sourceElem (m : BitSerialMatrix) (matrix : Nat → Int)
    (readColMajor : Bool) (r c : Nat) : Nat :=
  if !readColMajor then toUInt8 (matrix (r * m.ncols + c))
  else toUInt8 (matrix (c * m.nrows + r))

/-- The `uint8_t` that `exportRegular` assembles for position `(r, c)`. -/
def BitSerialMatrix.exportElem (m : BitSerialMatrix) (r c : Nat) : Nat :=
  loop m.nbits (fun b cur => if m.get b r c then (cur ||| (1 <<< b)) % 256 else cur) 0

/-- The binary dot product of row `j` of `A` and row `i` of `BT`, both
`depth_words` words long: the number of positions where both have a set bit. -/
def dotWords (A BT : Nat → Nat) (depth_words j i : Nat) : Int :=
  ∑ d ∈ Finset.range depth_words,
    (popcountll (A (j * depth_words + d) &&& BT (i * depth_words + d)) : Int)

/-- The accumulator after `alpha` times the binary dot product has been added, in
`int32_t` arithmetic, to every cell `i * rowsA_orig + j` with `i0 ≤ i < i1`,
`i < rowsBT_orig`, `j0 ≤ j < j1` and `j < rowsA_orig`; the other cells are
untouched. -/
def addRect (A BT : Nat → Nat) (depth_words : Nat) (alpha : Int)
    (rowsA_orig rowsBT_orig i0 i1 j0 j1 : Nat) (CT : Nat → Int) : Nat → Int :=
  fun c =>
    if 0 < rowsA_orig ∧ i0 ≤ c / rowsA_orig ∧ c / rowsA_orig < i1 ∧ c / rowsA_orig < rowsBT_orig
        ∧ j0 ≤ c % rowsA_orig ∧ c % rowsA_orig < j1 then
      toInt32 (CT c + dotWords A BT depth_words (c % rowsA_orig) (c / rowsA_orig) * alpha)
    else CT c

/-- The weight that bitplane `b` carries in an `nbits`-wide operand: `2^b`,
negated for the top bitplane of a signed operand. -/
def planeWeight (issigned : Bool) (nbits b : Nat) : Int :=
  if issigned && (b == nbits - 1) then -(2 ^ b) else 2 ^ b

/-- The integer that the low `nbits` bits of a stored byte stand for. -/
def planeValue (issigned : Bool) (nbits e : Nat) : Int :=
  ∑ b ∈ Finset.range nbits, (if e.testBit b then planeWeight issigned nbits b else 0)

/-- The values an element may take: two's complement of width `nbits` for a
signed operand, `[0, 2^nbits)` for an unsigned one. -/
def inRange (issigned : Bool) (nbits : Nat) (x : Int) : Prop :=
  if issigned then -(2 ^ (nbits - 1)) ≤ x ∧ x < 2 ^ (nbits - 1) else 0 ≤ x ∧ x < 2 ^ nbits

instance (issigned : Bool) (nbits : Nat) (x : Int) : Decidable (inRange issigned nbits x) := by
  unfold inRange; infer_instance

/-- The context invariants: both operands satisfy the data model, agree on the
inner dimension and its alignment, and the row blocks are positive, even, and
divide the allocated row counts. -/
def GEMMContext.Invariants (ctx : GEMMContext) : Prop :=
  ctx.lhs.WF ∧ ctx.rhs.WF ∧ ctx.lhs.ncols = ctx.rhs.ncols ∧ ctx.lhs.ncols_a = ctx.rhs.ncols_a
    ∧ 0 < ctx.lhsBlock ∧ 0 < ctx.rhsBlock
    ∧ ctx.lhs.nrows_a % ctx.lhsBlock = 0 ∧ ctx.rhs.nrows_a % ctx.rhsBlock = 0
    ∧ ctx.lhsBlock % 2 = 0 ∧ ctx.rhsBlock % 2 = 0

instance (ctx : GEMMContext) : Decidable ctx.Invariants := by
  unfold GEMMContext.Invariants; infer_instance

/-- Exactly one operand is bipolar (1 bit and signed), as `prepareAccumulators`
tests it. -/
def GEMMContext.mixedBipolar (ctx : GEMMContext) : Bool :=
  xor ((ctx.lhs.nbits == 1) && ctx.lhs.issigned) ((ctx.rhs.nbits == 1) && ctx.rhs.issigned)

/-- The context with both operands loaded by `importRegular` (row-major) and the
accumulator holding `acc0`. -/
def GEMMContext.load (ctx : GEMMContext) (L R : Nat → Int) (acc0 : Nat → Int) : GEMMContext :=
  ⟨ctx.lhs.importRegular L false, ctx.rhs.importRegular R false, ctx.lhsBlock, ctx.rhsBlock,
    acc0⟩

/-- Scenario S1: the context for two 2-bit unsigned operands of 2 rows and depth 3
(row blocks 2 and 2, one word per row), with arbitrary buffer content. -/
def scenarioS1 : GEMMContext :=
  ⟨⟨false, 2, 2, 3, 2, 64, fun _ => 2 ^ 64 - 1⟩, ⟨false, 2, 2, 3, 2, 64, fun i => i⟩, 2, 2,
    fun _ => 99⟩

/-- A signed scenario: a 3-bit signed LHS of 3 rows and a 2-bit unsigned RHS of
2 rows, depth 2, with the LHS padded to 4 rows. -/
def scenarioSigned : GEMMContext :=
  ⟨⟨true, 3, 3, 2, 4, 64, fun i => i + 5⟩, ⟨false, 2, 2, 2, 2, 64, fun _ => 1⟩, 4, 2,
    fun i => -7 - i⟩

/-- A fine-tuned scenario: the context that `allocGEMMContext_generic` returns for
250 LHS rows, 480 RHS rows and depth 64, where the planner root is 120: the LHS
block 240 is fine-tuned down to 50, the RHS block stays 240. -/
def scenarioTuned : GEMMContext :=
  ⟨⟨true, 4, 250, 64, 250, 64, fun _ => 0⟩, ⟨false, 4, 480, 64, 480, 64, fun _ => 0⟩, 50, 240,
    fun _ => 0⟩


/-- The value of the expression `alignTo(rows, ccand) - rows` that
`finetuneBlockSize` computes in `uint64_t` for a candidate block. -/
def penalty (rows ccand : Nat) : Option Nat :=
  (alignTo rows ccand).map (fun a => sub64 a rows)


/-! ### The kernels with every array access checked -/

/-- The read `buf[i]` from an array of `size` elements; `none` out of range. -/
def readAt {α : Type} (size : Nat) (buf : Nat → α) (i : Nat) : Option α :=
  if i < size then some (buf i) else none

/-- The store `buf[i] = v` into an array of `size` elements; `none` out of range. -/
def writeAt {α : Type} (size : Nat) (buf : Nat → α) (i : Nat) (v : α) : Option (Nat → α) :=
  if i < size then some (upd buf i v) else none

/-- The loop `for (i = 0; i < n; i++)` with a body that can fail. -/
def loopM {σ : Type} (n : Nat) (body : Nat → σ → Option σ) (s : σ) : Option σ :=
  loop n (fun k st => st.bind (body k)) (some s)

/-- The loop `for (i = start; i < stop; i += step)` with a body that can fail. -/
def loopFromM {σ : Type} (start stop step : Nat) (body : Nat → σ → Option σ) (s : σ) :
    Option σ :=
  loopM ((stop - start + step - 1) / step) (fun k => body (start + k * step)) s

/-- The function `gemmBinary_generic_chunk_tile2x1x2` over arrays of `sizeA`,
`sizeBT` and `sizeCT` elements: every read of `Aptr`, `BTptr` and every read
and store of `CT` is checked against the array it goes to. -/
def gemmBinary_generic_chunk_tile2x1x2_checked (sizeA sizeBT sizeCT : Nat)
    (A BT : Nat → Nat) (CT : Nat → Int) (alpha : Int)
    (rowsA depth_words rowsBT bA bBT lhs_block rhs_block rowsA_orig rowsBT_orig : Nat) :
    Option (Nat → Int) :=
  let Atile := 2
  let BTtile := 2
  loopFromM bBT (bBT + rhs_block) BTtile (fun rBT CT1 =>
    loopFromM bA (bA + lhs_block) Atile (fun rA CT2 =>
      (loopM depth_words (fun d acc =>
        (readAt sizeA A (rA * depth_words + d)).bind fun a0 =>
        (readAt sizeA A (rA * depth_words + (d + depth_words))).bind fun a1 =>
        (readAt sizeBT BT (rBT * depth_words + d)).bind fun b0 =>
        (readAt sizeBT BT (rBT * depth_words + (d + depth_words))).bind fun b1 =>
          let acc := upd acc 0 (toInt32 (acc 0 + popcountll (a0 &&& b0)))
          let acc := upd acc 1 (toInt32 (acc 1 + popcountll (a0 &&& b1)))
          let acc := upd acc 2 (toInt32 (acc 2 + popcountll (a1 &&& b0)))
          some (upd acc 3 (toInt32 (acc 3 + popcountll (a1 &&& b1))))) (fun _ => 0)).bind
      fun acc =>
        loopM Atile (fun ta CT3 =>
          loopM BTtile (fun tb CT4 =>
            if rBT + tb < rowsBT_orig ∧ rA + ta < rowsA_orig then
              (readAt sizeCT CT4 ((rBT + tb) * rowsA_orig + (rA + ta))).bind fun old =>
                writeAt sizeCT CT4 ((rBT + tb) * rowsA_orig + (rA + ta))
                  (toInt32 (old + toInt32 (acc (ta * BTtile + tb) * alpha)))
            else some CT4) CT3) CT2) CT1) CT

/-- The function `gemmBinary_generic_L1_tile2x1x2` over arrays of `sizeA`, `sizeBT`
and `sizeCT` elements; `none` when an assertion fails or an access is out of
range. -/
def gemmBinary_generic_L1_tile2x1x2_checked (sizeA sizeBT sizeCT : Nat)
    (A BT : Nat → Nat) (CT : Nat → Int) (alpha : Int)
    (rowsA depth_words rowsBT rowsA_orig rowsBT_orig lhsBlock rhsBlock : Nat) :
    Option (Nat → Int) :=
  if rhsBlock = 0 ∨ lhsBlock = 0 then none
  else if rowsBT % rhsBlock ≠ 0 then none
  else if rowsA % lhsBlock ≠ 0 then none
  else if lhsBlock % 2 ≠ 0 then none
  else if rhsBlock % 2 ≠ 0 then none
  else
    loopFromM 0 rowsBT rhsBlock (fun bBT CT1 =>
      loopFromM 0 rowsA lhsBlock (fun bA CT2 =>
        gemmBinary_generic_chunk_tile2x1x2_checked sizeA sizeBT sizeCT A BT CT2 alpha rowsA
          depth_words rowsBT bA bBT lhsBlock rhsBlock rowsA_orig rowsBT_orig) CT1) CT


/-! ### Bit-planes of the driver -/

/-- The matrix with the words of bit-plane `b` set to zero. -/
def BitSerialMatrix.zeroPlane (m : BitSerialMatrix) (b : Nat) : BitSerialMatrix :=
  ⟨m.issigned, m.nbits, m.nrows, m.ncols, m.nrows_a, m.ncols_a,
    fun i => if b * m.wordsPerBitplane ≤ i ∧ i < (b + 1) * m.wordsPerBitplane then 0
      else m.data i⟩

/-- The context with bit-plane `b` of the left-hand side zeroed. -/
def GEMMContext.zeroLhsPlane (ctx : GEMMContext) (b : Nat) : GEMMContext :=
  ⟨ctx.lhs.zeroPlane b, ctx.rhs, ctx.lhsBlock, ctx.rhsBlock, ctx.res⟩

/-- The context with bit-plane `b` of the right-hand side zeroed. -/
def GEMMContext.zeroRhsPlane (ctx : GEMMContext) (b : Nat) : GEMMContext :=
  ⟨ctx.lhs, ctx.rhs.zeroPlane b, ctx.lhsBlock, ctx.rhsBlock, ctx.res⟩

/-- The scale `alpha` that `gemmBitSerial_generic_usingBinary` computes for the
pair of bit-planes `(lbit, rbit)`. -/
def planeAlpha (ctx : GEMMContext) (lbit rbit : Nat) : Int :=
  let neg_lhs : Bool := ctx.lhs.issigned && (lbit == ctx.lhs.nbits - 1)
  let neg_rhs : Bool := ctx.rhs.issigned && (rbit == ctx.rhs.nbits - 1)
  let neg : Bool := xor neg_rhs neg_lhs
  if neg then toInt32 (-(shl32 1 (lbit + rbit))) else shl32 1 (lbit + rbit)

/-- The call of the binary kernel that `gemmBitSerial_generic_usingBinary` makes
for the pair of bit-planes `(lbit, rbit)`, on the accumulator `res`. -/
def planeStep (ctx : GEMMContext) (lbit rbit : Nat) (res : Nat → Int) : Option (Nat → Int) :=
  gemmBinary_generic_L1_tile2x1x2 (ctx.lhs.bitplaneptr lbit) (ctx.rhs.bitplaneptr rbit) res
    (planeAlpha ctx lbit rbit) ctx.lhs.nrows_a ctx.lhs.wordsPerRow ctx.rhs.nrows_a
    ctx.lhs.nrows ctx.rhs.nrows ctx.lhsBlock ctx.rhsBlock

/-- The pairs `(lbit, rbit)` in the order in which the two loops of
`gemmBitSerial_generic_usingBinary` visit them. -/
def planePairs (lhsbits rhsbits : Nat) : List (Nat × Nat) :=
  loop lhsbits (fun lbit acc => loop rhsbits (fun rbit acc2 => acc2 ++ [(lbit, rbit)]) acc) []

/-- The body of the inner loop of `gemmBitSerial_generic_usingBinary` for the pair
`p = (lbit, rbit)`: a failed assertion stays failed. -/
def planeStepM (ctx : GEMMContext) (st : Option (Nat → Int)) (p : Nat × Nat) :
    Option (Nat → Int) :=
  match st with
  | none => none
  | some res => planeStep ctx p.1 p.2 res

/-- The driver `gemmBitSerial_generic_usingBinary` with its two loops replaced by a
walk through a list of pairs `(lbit, rbit)`. -/
def gemmBitSerial_usingBinary_inOrder (ctx : GEMMContext) (order : List (Nat × Nat)) :
    Option (Nat → Int) :=
  if ctx.lhs.ncols ≠ ctx.rhs.ncols then none
  else order.foldl (planeStepM ctx) (some (prepareAccumulators ctx))

/-- A wide scenario: a 33-bit unsigned LHS and a 1-bit unsigned RHS of one row and
one column each (padded to 2 rows, one word per row, blocks 2 and 2); only bit
32 of the LHS element and bit 0 of the RHS element are set. -/
def scenarioWide : GEMMContext :=
  ⟨⟨false, 33, 1, 1, 2, 64, fun i => if i = 64 then 1 else 0⟩,
    ⟨false, 1, 1, 1, 2, 64, fun i => if i = 0 then 1 else 0⟩, 2, 2, fun _ => 0⟩

/-! ## Arithmetic of `int32_t` -/

theorem toInt32_modEq (a : Int) : toInt32 a ≡ a [ZMOD 4294967296] := by
  unfold toInt32 Int.ModEq; omega

theorem toInt32_congr {a b : Int} (h : a ≡ b [ZMOD 4294967296]) : toInt32 a = toInt32 b := by
  unfold Int.ModEq at h; unfold toInt32; omega

theorem toInt32_of_fits {x : Int} (h1 : -2147483648 ≤ x) (h2 : x < 2147483648) :
    toInt32 x = x := by
  unfold toInt32; omega

theorem toInt32_zero : toInt32 0 = 0 := by decide

theorem toInt32_toInt32 (a : Int) : toInt32 (toInt32 a) = toInt32 a :=
  toInt32_congr (toInt32_modEq a)

theorem toInt32_add_right (a b : Int) : toInt32 (a + toInt32 b) = toInt32 (a + b) :=
  toInt32_congr (Int.ModEq.add_left a (toInt32_modEq b))

theorem toInt32_add_left (a b : Int) : toInt32 (toInt32 a + b) = toInt32 (a + b) :=
  toInt32_congr (Int.ModEq.add_right b (toInt32_modEq a))

theorem toInt32_mul_left (a b : Int) : toInt32 (toInt32 a * b) = toInt32 (a * b) :=
  toInt32_congr (Int.ModEq.mul_right b (toInt32_modEq a))

theorem toInt32_mul_right (a b : Int) : toInt32 (a * toInt32 b) = toInt32 (a * b) :=
  toInt32_congr (Int.ModEq.mul_left a (toInt32_modEq b))

theorem toInt32_neg (a : Int) : toInt32 (-toInt32 a) = toInt32 (-a) :=
  toInt32_congr (Int.ModEq.neg (toInt32_modEq a))

/-! ## Buffers -/

theorem upd_same {α : Type} (buf : Nat → α) (i : Nat) (v : α) : upd buf i v i = v := by
  unfold upd; rw [if_pos rfl]

theorem upd_other {α : Type} (buf : Nat → α) (i : Nat) (v : α) (k : Nat) (h : k ≠ i) :
    upd buf i v k = buf k := by
  unfold upd; rw [if_neg h]

/-! ## Loops -/

theorem loop_zero {σ : Type} (body : Nat → σ → σ) (s : σ) : loop 0 body s = s := rfl

theorem loop_succ {σ : Type} (n : Nat) (body : Nat → σ → σ) (s : σ) :
    loop (n + 1) body s = body n (loop n body s) := rfl

/-- Invariant rule for a counted loop. -/
theorem loop_invariant {σ : Type} (P : Nat → σ → Prop) (n : Nat) (body : Nat → σ → σ) (s : σ)
    (h0 : P 0 s) (hstep : ∀ k, k < n → ∀ t, P k t → P (k + 1) (body k t)) :
    P n (loop n body s) := by
  induction n with
  | zero => exact h0
  | succ m ih =>
    rw [loop_succ]
    exact hstep m (Nat.lt_succ_self m) _
      (ih (fun k hk t ht => hstep k (Nat.lt_succ_of_lt hk) t ht))

theorem loop_congr {σ : Type} (n : Nat) (f g : Nat → σ → σ) (s : σ)
    (h : ∀ k, k < n → ∀ t, f k t = g k t) : loop n f s = loop n g s := by
  induction n with
  | zero => rfl
  | succ m ih =>
    rw [loop_succ, loop_succ, h m (Nat.lt_succ_self m),
      ih (fun k hk t => h k (Nat.lt_succ_of_lt hk) t)]

/-- A loop whose body never aborts. -/
theorem loop_some {σ : Type} (n : Nat) (f : Nat → Option σ → Option σ) (g : Nat → σ → σ)
    (s : σ) (h : ∀ k, k < n → ∀ t, f k (some t) = some (g k t)) :
    loop n f (some s) = some (loop n g s) := by
  induction n with
  | zero => rfl
  | succ m ih =>
    rw [loop_succ, loop_succ, ih (fun k hk t => h k (Nat.lt_succ_of_lt hk) t),
      h m (Nat.lt_succ_self m)]

/-- A loop that adds `v k` to an `int32_t` in its `k`-th round. -/
theorem loop_accumulate (n : Nat) (v : Nat → Int) (s : Int) :
    toInt32 (loop n (fun k acc => toInt32 (acc + v k)) s)
      = toInt32 (s + ∑ k ∈ Finset.range n, v k) := by
  induction n with
  | zero => simp [loop_zero]
  | succ m ih =>
    rw [loop_succ, Finset.sum_range_succ, toInt32_toInt32, ← toInt32_add_left, ih,
      toInt32_add_left, add_assoc]

theorem loop_accumulate_zero (n : Nat) (v : Nat → Int) :
    loop n (fun k acc => toInt32 (acc + v k)) 0 = toInt32 (∑ k ∈ Finset.range n, v k) := by
  cases n with
  | zero => simp [loop_zero, toInt32_zero]
  | succ m =>
    have h := loop_accumulate (m + 1) v 0
    rw [loop_succ, toInt32_toInt32] at h
    rw [loop_succ, h, zero_add]

/-- A loop that counts the rounds in which `f` holds. -/
theorem loop_count (n : Nat) (f : Nat → Bool) :
    loop n (fun p c => if f p then c + 1 else c) 0
      = ∑ p ∈ Finset.range n, (if f p then 1 else 0) := by
  induction n with
  | zero => rfl
  | succ m ih =>
    rw [loop_succ, Finset.sum_range_succ, ih]
    split <;> simp

theorem popcountll_eq_sum (w : Nat) :
    popcountll w = ∑ p ∈ Finset.range 64, (if w.testBit p then 1 else 0) :=
  loop_count 64 (fun p => w.testBit p)

/-! ## Bit addressing -/

theorem bitpos_eq (col : Nat) : BitSerialMatrix.bitpos col = col % 64 := by
  unfold BitSerialMatrix.bitpos
  exact Nat.and_pow_two_sub_one_eq_mod col 6

theorem get_eq_testBit (m : BitSerialMatrix) (b r c : Nat) :
    m.get b r c = (m.data (m.wordIndex b r c)).testBit (c % 64) := by
  unfold BitSerialMatrix.get BitSerialMatrix.word
  rw [bitpos_eq, Nat.and_one_is_mod, Nat.testBit_to_div_mod, Nat.shiftRight_eq_div_pow]
  by_cases h : m.data (m.wordIndex b r c) / 2 ^ (c % 64) % 2 = 1 <;> simp [h]

/-- Mixed-radix decomposition is unique. -/
theorem radix_unique {w q t q2 t2 : Nat} (ht : t < w) (ht2 : t2 < w)
    (h : q * w + t = q2 * w + t2) : q = q2 ∧ t = t2 := by
  have hw : 0 < w := by omega
  have h1 : (q * w + t) / w = q := by
    rw [Nat.mul_comm, Nat.mul_add_div hw, Nat.div_eq_of_lt ht]; rfl
  have h2 : (q2 * w + t2) / w = q2 := by
    rw [Nat.mul_comm, Nat.mul_add_div hw, Nat.div_eq_of_lt ht2]; rfl
  have hq : q = q2 := by rw [← h1, ← h2, h]
  subst hq
  exact ⟨rfl, by omega⟩

theorem wordIndex_lt (m : BitSerialMatrix) {b r c : Nat} (h64 : m.ncols_a % 64 = 0)
    (hb : b < m.nbits) (hr : r < m.nrows_a) (hc : c < m.ncols_a) :
    m.wordIndex b r c < m.nbits * m.wordsPerBitplane := by
  unfold BitSerialMatrix.wordIndex BitSerialMatrix.wordsPerBitplane
    BitSerialMatrix.wordsPerRow
  rw [Nat.shiftRight_eq_div_pow]
  have hcw : c / 2 ^ 6 < m.ncols_a / 64 := by
    have : (2 : Nat) ^ 6 = 64 := by norm_num
    rw [this]; omega
  have h1 : r * (m.ncols_a / 64) + c / 2 ^ 6 < m.nrows_a * (m.ncols_a / 64) := by
    calc r * (m.ncols_a / 64) + c / 2 ^ 6 < r * (m.ncols_a / 64) + m.ncols_a / 64 := by omega
      _ = (r + 1) * (m.ncols_a / 64) := by ring
      _ ≤ m.nrows_a * (m.ncols_a / 64) := Nat.mul_le_mul_right _ hr
  calc b * (m.nrows_a * (m.ncols_a / 64)) + r * (m.ncols_a / 64) + c / 2 ^ 6
      < b * (m.nrows_a * (m.ncols_a / 64)) + m.nrows_a * (m.ncols_a / 64) := by omega
    _ = (b + 1) * (m.nrows_a * (m.ncols_a / 64)) := by ring
    _ ≤ m.nbits * (m.nrows_a * (m.ncols_a / 64)) := Nat.mul_le_mul_right _ hb

/-- Distinct in-range coordinates never share a word and a bit position. -/
theorem wordIndex_inj (m : BitSerialMatrix) {b r c b2 r2 c2 : Nat}
    (h64 : m.ncols_a % 64 = 0)
    (hr : r < m.nrows_a) (hc : c < m.ncols_a) (hr2 : r2 < m.nrows_a) (hc2 : c2 < m.ncols_a)
    (hw : m.wordIndex b r c = m.wordIndex b2 r2 c2) (hp : c % 64 = c2 % 64) :
    b = b2 ∧ r = r2 ∧ c = c2 := by
  unfold BitSerialMatrix.wordIndex BitSerialMatrix.wordsPerBitplane
    BitSerialMatrix.wordsPerRow at hw
  rw [Nat.shiftRight_eq_div_pow, Nat.shiftRight_eq_div_pow] at hw
  have h6 : (2 : Nat) ^ 6 = 64 := by norm_num
  rw [h6] at hw
  have hcw : c / 64 < m.ncols_a / 64 := by omega
  have hcw2 : c2 / 64 < m.ncols_a / 64 := by omega
  have e1 : (b * m.nrows_a + r) * (m.ncols_a / 64) + c / 64
      = (b2 * m.nrows_a + r2) * (m.ncols_a / 64) + c2 / 64 := by
    have l1 : (b * m.nrows_a + r) * (m.ncols_a / 64)
        = b * (m.nrows_a * (m.ncols_a / 64)) + r * (m.ncols_a / 64) := by ring
    have l2 : (b2 * m.nrows_a + r2) * (m.ncols_a / 64)
        = b2 * (m.nrows_a * (m.ncols_a / 64)) + r2 * (m.ncols_a / 64) := by ring
    rw [l1, l2]; exact hw
  obtain ⟨e2, e3⟩ := radix_unique hcw hcw2 e1
  obtain ⟨e4, e5⟩ := radix_unique hr hr2 e2
  exact ⟨e4, e5, by omega⟩

/-! ## Shape is kept by the bit operations -/

theorem sameShape_refl (m : BitSerialMatrix) : m.SameShape m :=
  ⟨rfl, rfl, rfl, rfl, rfl, rfl⟩

theorem sameShape_set {m t : BitSerialMatrix} (h : m.SameShape t) (b r c : Nat) :
    m.SameShape (t.set b r c) := h

theorem sameShape_clearAll (m : BitSerialMatrix) : m.SameShape m.clearAll :=
  ⟨rfl, rfl, rfl, rfl, rfl, rfl⟩

theorem wordIndex_sameShape {m t : BitSerialMatrix} (h : m.SameShape t) (b r c : Nat) :
    t.wordIndex b r c = m.wordIndex b r c := by
  obtain ⟨_, _, _, _, h5, h6⟩ := h
  unfold BitSerialMatrix.wordIndex BitSerialMatrix.wordsPerBitplane
    BitSerialMatrix.wordsPerRow
  rw [h5, h6]

/-- The member `set` turns on its own bit and leaves every other in-range bit as it
was. -/
theorem get_set (t : BitSerialMatrix) {b r c b2 r2 c2 : Nat} (h64 : t.ncols_a % 64 = 0)
    (hr : r < t.nrows_a) (hc : c < t.ncols_a) (hr2 : r2 < t.nrows_a) (hc2 : c2 < t.ncols_a) :
    ((t.set b2 r2 c2).get b r c = true)
      ↔ (t.get b r c = true ∨ (b = b2 ∧ r = r2 ∧ c = c2)) := by
  have hidx : (t.set b2 r2 c2).wordIndex b r c = t.wordIndex b r c :=
    wordIndex_sameShape (sameShape_set (sameShape_refl t) b2 r2 c2) b r c
  rw [get_eq_testBit, get_eq_testBit, hidx]
  show (upd t.data (t.wordIndex b2 r2 c2)
      (t.word b2 r2 c2 ||| (1 <<< BitSerialMatrix.bitpos c2)) (t.wordIndex b r c)).testBit
        (c % 64) = true ↔ _
  unfold upd
  by_cases hw : t.wordIndex b r c = t.wordIndex b2 r2 c2
  · rw [if_pos hw, Nat.testBit_or, bitpos_eq, Nat.one_shiftLeft, Nat.testBit_two_pow]
    unfold BitSerialMatrix.word
    rw [← hw]
    by_cases hp : c % 64 = c2 % 64
    · obtain ⟨e1, e2, e3⟩ := wordIndex_inj t h64 hr hc hr2 hc2 hw hp
      simp [e1, e2, e3]
    · have hp2 : ¬ (c2 % 64 = c % 64) := fun h => hp h.symm
      have hne : ¬ (b = b2 ∧ r = r2 ∧ c = c2) := fun h => hp (by rw [h.2.2])
      simp [hp2, hne]
  · rw [if_neg hw]
    have hne : ¬ (b = b2 ∧ r = r2 ∧ c = c2) := fun h => hw (by rw [h.1, h.2.1, h.2.2])
    simp [hne]

theorem get_clearAll (m : BitSerialMatrix) {b r c : Nat} (h64 : m.ncols_a % 64 = 0)
    (hb : b < m.nbits) (hr : r < m.nrows_a) (hc : c < m.ncols_a) :
    m.clearAll.get b r c = false := by
  have hidx : m.clearAll.wordIndex b r c = m.wordIndex b r c :=
    wordIndex_sameShape (sameShape_clearAll m) b r c
  rw [get_eq_testBit, hidx]
  show (if m.wordIndex b r c < m.nbits * m.wordsPerBitplane then 0
      else m.data (m.wordIndex b r c)).testBit (c % 64) = false
  rw [if_pos (wordIndex_lt m h64 hb hr hc)]
  exact Nat.zero_testBit _

theorem and_shift_ne_zero (e b : Nat) : (e &&& (1 <<< b) ≠ 0) ↔ e.testBit b = true := by
  rw [Nat.one_shiftLeft]
  constructor
  · intro h
    by_contra hb
    apply h
    apply Nat.eq_of_testBit_eq
    intro i
    rw [Nat.testBit_and, Nat.testBit_two_pow, Nat.zero_testBit]
    by_cases hi : b = i
    · subst hi; simp at hb; simp [hb]
    · simp [hi]
  · intro h h0
    have := congrArg (fun x => Nat.testBit x b) h0
    simp [Nat.testBit_two_pow, h] at this

/-! ## importRegular -/

/-- The innermost loop of `importRegular`: the bits of one element. -/
theorem import_bits_loop (m t : BitSerialMatrix) (hs : m.SameShape t)
    (h64 : m.ncols_a % 64 = 0) (e nb r2 c2 : Nat) (hr2 : r2 < m.nrows_a)
    (hc2 : c2 < m.ncols_a) :
    m.SameShape (loop nb (fun b m3 => if e &&& (1 <<< b) ≠ 0 then m3.set b r2 c2 else m3) t)
    ∧ ∀ b r c, r < m.nrows_a → c < m.ncols_a →
      ((loop nb (fun b m3 => if e &&& (1 <<< b) ≠ 0 then m3.set b r2 c2 else m3) t).get b r c
          = true
        ↔ (t.get b r c = true ∨ (b < nb ∧ r = r2 ∧ c = c2 ∧ e.testBit b = true))) := by
  refine loop_invariant
    (fun k s => m.SameShape s ∧ ∀ b r c, r < m.nrows_a → c < m.ncols_a →
      (s.get b r c = true
        ↔ (t.get b r c = true ∨ (b < k ∧ r = r2 ∧ c = c2 ∧ e.testBit b = true))))
    nb _ t ⟨hs, ?_⟩ ?_
  · intro b r c _ _
    constructor
    · intro h; exact Or.inl h
    · rintro (h | ⟨h, _⟩)
      · exact h
      · omega
  · rintro k _ s ⟨hss, hget⟩
    by_cases hbit : e &&& (1 <<< k) ≠ 0
    · rw [if_pos hbit]
      refine ⟨sameShape_set hss k r2 c2, ?_⟩
      intro b r c hr hc
      have h5 := hss.2.2.2.2.1
      have h6 := hss.2.2.2.2.2
      rw [get_set s (by rw [h6]; exact h64) (by rw [h5]; exact hr) (by rw [h6]; exact hc)
        (by rw [h5]; exact hr2) (by rw [h6]; exact hc2), hget b r c hr hc]
      have hk := (and_shift_ne_zero e k).1 hbit
      constructor
      · rintro ((h | ⟨h1, h2, h3, h4⟩) | ⟨h1, h2, h3⟩)
        · exact Or.inl h
        · exact Or.inr ⟨by omega, h2, h3, h4⟩
        · exact Or.inr ⟨by omega, h2, h3, by rw [h1]; exact hk⟩
      · rintro (h | ⟨h1, h2, h3, h4⟩)
        · exact Or.inl (Or.inl h)
        · by_cases hbk : b = k
          · exact Or.inr ⟨hbk, h2, h3⟩
          · exact Or.inl (Or.inr ⟨by omega, h2, h3, h4⟩)
    · rw [if_neg hbit]
      refine ⟨hss, ?_⟩
      intro b r c hr hc
      rw [hget b r c hr hc]
      have hk : ¬ (e.testBit k = true) := fun h => hbit ((and_shift_ne_zero e k).2 h)
      constructor
      · rintro (h | ⟨h1, h2, h3, h4⟩)
        · exact Or.inl h
        · exact Or.inr ⟨by omega, h2, h3, h4⟩
      · rintro (h | ⟨h1, h2, h3, h4⟩)
        · exact Or.inl h
        · by_cases hbk : b = k
          · subst hbk; exact absurd h4 hk
          · exact Or.inr ⟨by omega, h2, h3, h4⟩

/-- The column loop of `importRegular`: the elements of one row. -/
theorem import_cols_loop (m t : BitSerialMatrix) (hs : m.SameShape t)
    (h64 : m.ncols_a % 64 = 0) (elem : Nat → Nat) (nc r2 : Nat) (hr2 : r2 < m.nrows_a)
    (hnc : nc ≤ m.ncols_a) :
    m.SameShape (loop nc (fun c m2 =>
        loop m.nbits (fun b m3 => if elem c &&& (1 <<< b) ≠ 0 then m3.set b r2 c else m3) m2) t)
    ∧ ∀ b r c, r < m.nrows_a → c < m.ncols_a →
      ((loop nc (fun c m2 =>
          loop m.nbits (fun b m3 => if elem c &&& (1 <<< b) ≠ 0 then m3.set b r2 c else m3) m2)
          t).get b r c = true
        ↔ (t.get b r c = true ∨ (b < m.nbits ∧ r = r2 ∧ c < nc ∧ (elem c).testBit b = true))) := by
  refine loop_invariant
    (fun k s => m.SameShape s ∧ ∀ b r c, r < m.nrows_a → c < m.ncols_a →
      (s.get b r c = true
        ↔ (t.get b r c = true ∨ (b < m.nbits ∧ r = r2 ∧ c < k ∧ (elem c).testBit b = true))))
    nc _ t ⟨hs, ?_⟩ ?_
  · intro b r c _ _
    constructor
    · intro h; exact Or.inl h
    · rintro (h | ⟨_, _, h, _⟩)
      · exact h
      · omega
  · rintro k hk s ⟨hss, hget⟩
    obtain ⟨h1, h2⟩ := import_bits_loop m s hss h64 (elem k) m.nbits r2 k hr2 (by omega)
    refine ⟨h1, ?_⟩
    intro b r c hr hc
    rw [h2 b r c hr hc, hget b r c hr hc]
    constructor
    · rintro ((h | ⟨h1, h2, h3, h4⟩) | ⟨h1, h2, h3, h4⟩)
      · exact Or.inl h
      · exact Or.inr ⟨h1, h2, by omega, h4⟩
      · exact Or.inr ⟨h1, h2, by omega, by rw [h3]; exact h4⟩
    · rintro (h | ⟨h1, h2, h3, h4⟩)
      · exact Or.inl (Or.inl h)
      · by_cases hck : c = k
        · exact Or.inr ⟨h1, h2, hck, by rw [← hck]; exact h4⟩
        · exact Or.inl (Or.inr ⟨h1, h2, by omega, h4⟩)

/-- The row loop of `importRegular`. -/
theorem import_rows_loop (m t : BitSerialMatrix) (hs : m.SameShape t)
    (h64 : m.ncols_a % 64 = 0) (elem : Nat → Nat → Nat) (nr nc : Nat) (hnr : nr ≤ m.nrows_a)
    (hnc : nc ≤ m.ncols_a) :
    m.SameShape (loop nr (fun r m1 => loop nc (fun c m2 =>
        loop m.nbits (fun b m3 => if elem r c &&& (1 <<< b) ≠ 0 then m3.set b r c else m3) m2)
        m1) t)
    ∧ ∀ b r c, r < m.nrows_a → c < m.ncols_a →
      ((loop nr (fun r m1 => loop nc (fun c m2 =>
          loop m.nbits (fun b m3 => if elem r c &&& (1 <<< b) ≠ 0 then m3.set b r c else m3) m2)
          m1) t).get b r c = true
        ↔ (t.get b r c = true
            ∨ (b < m.nbits ∧ r < nr ∧ c < nc ∧ (elem r c).testBit b = true))) := by
  refine loop_invariant
    (fun k s => m.SameShape s ∧ ∀ b r c, r < m.nrows_a → c < m.ncols_a →
      (s.get b r c = true
        ↔ (t.get b r c = true
            ∨ (b < m.nbits ∧ r < k ∧ c < nc ∧ (elem r c).testBit b = true))))
    nr _ t ⟨hs, ?_⟩ ?_
  · intro b r c _ _
    constructor
    · intro h; exact Or.inl h
    · rintro (h | ⟨_, h, _, _⟩)
      · exact h
      · omega
  · rintro k hk s ⟨hss, hget⟩
    obtain ⟨h1, h2⟩ := import_cols_loop m s hss h64 (elem k) nc k (by omega) hnc
    refine ⟨h1, ?_⟩
    intro b r c hr hc
    rw [h2 b r c hr hc, hget b r c hr hc]
    constructor
    · rintro ((h | ⟨h1, h2, h3, h4⟩) | ⟨h1, h2, h3, h4⟩)
      · exact Or.inl h
      · exact Or.inr ⟨h1, by omega, h3, h4⟩
      · exact Or.inr ⟨h1, by omega, h3, by rw [h2]; exact h4⟩
    · rintro (h | ⟨h1, h2, h3, h4⟩)
      · exact Or.inl (Or.inl h)
      · by_cases hrk : r = k
        · exact Or.inr ⟨h1, hrk, h3, by rw [← hrk]; exact h4⟩
        · exact Or.inl (Or.inr ⟨h1, by omega, h3, h4⟩)

theorem importRegular_eq (m : BitSerialMatrix) (M : Nat → Int) (cm : Bool) :
    m.importRegular M cm
      = loop m.nrows (fun r m1 => loop m.ncols (fun c m2 =>
          loop m.clearAll.nbits (fun b m3 =>
            if m.sourceElem M cm r c &&& (1 <<< b) ≠ 0 then m3.set b r c else m3) m2) m1)
          m.clearAll := rfl

theorem importRegular_sameShape (m : BitSerialMatrix) (M : Nat → Int) (cm : Bool)
    (hwf : m.WF) : m.SameShape (m.importRegular M cm) := by
  rw [importRegular_eq]
  exact (import_rows_loop m.clearAll m.clearAll (sameShape_refl _) hwf.1
    (m.sourceElem M cm) m.nrows m.ncols hwf.2.1 hwf.2.2).1

/-- The bits that `importRegular` leaves: inside the logical matrix the bits of the
element read through `uint8_t`, and zero in the padding, whatever the buffer
held before. -/
theorem get_importRegular (m : BitSerialMatrix) (M : Nat → Int) (cm : Bool) (hwf : m.WF)
    {b r c : Nat} (hb : b < m.nbits) (hr : r < m.nrows_a) (hc : c < m.ncols_a) :
    (m.importRegular M cm).get b r c = true
      ↔ (r < m.nrows ∧ c < m.ncols ∧ (m.sourceElem M cm r c).testBit b = true) := by
  rw [importRegular_eq]
  have h := (import_rows_loop m.clearAll m.clearAll (sameShape_refl _) hwf.1
    (m.sourceElem M cm) m.nrows m.ncols hwf.2.1 hwf.2.2).2 b r c hr hc
  rw [h, get_clearAll m hwf.1 hb hr hc]
  constructor
  · rintro (h | ⟨_, h2, h3, h4⟩)
    · exact absurd h (by simp)
    · exact ⟨h2, h3, h4⟩
  · rintro ⟨h2, h3, h4⟩
    exact Or.inr ⟨hb, h2, h3, h4⟩

/-! ## exportRegular -/

theorem index_lt_of_row_lt {r k c n : Nat} (hr : r < k) (hc : c < n) : r * n + c < k * n := by
  calc r * n + c < r * n + n := by omega
    _ = (r + 1) * n := by ring
    _ ≤ k * n := Nat.mul_le_mul_right _ hr

/-- Every cell of the logical matrix receives the byte assembled for it. -/
theorem exportRegular_cell (m : BitSerialMatrix) (out0 : Nat → Int) {r c : Nat}
    (hr : r < m.nrows) (hc : c < m.ncols) :
    m.exportRegular out0 (r * m.ncols + c) = (m.exportElem r c : Int) := by
  have hrows : ∀ r c, r < m.nrows → c < m.ncols →
      m.exportRegular out0 (r * m.ncols + c) = (m.exportElem r c : Int) := by
    refine loop_invariant
      (fun k out => ∀ r c, r < k → c < m.ncols →
        out (r * m.ncols + c) = (m.exportElem r c : Int)) m.nrows _ out0 ?_ ?_
    · intro r c h _; omega
    · intro k _ out hout
      have hcols := loop_invariant
        (fun j o => (∀ r c, r < k → c < m.ncols →
            o (r * m.ncols + c) = (m.exportElem r c : Int))
          ∧ ∀ c, c < j → o (k * m.ncols + c) = (m.exportElem k c : Int)) m.ncols
        (fun c out2 => upd out2 (k * m.ncols + c) (m.exportElem k c : Int)) out
        ⟨hout, fun c h => by omega⟩
        (by
          rintro j hj o ⟨ho1, ho2⟩
          constructor
          · intro r c hr hc
            have hlt := index_lt_of_row_lt hr hc
            show upd o (k * m.ncols + j) _ (r * m.ncols + c) = _
            rw [upd_other _ _ _ _ (by omega)]
            exact ho1 r c hr hc
          · intro c hc
            show upd o (k * m.ncols + j) _ (k * m.ncols + c) = _
            by_cases hcj : c = j
            · subst hcj; rw [upd_same]
            · rw [upd_other _ _ _ _ (by omega)]
              exact ho2 c (by omega))
      intro r c hr hc
      by_cases hrk : r = k
      · subst hrk; exact hcols.2 c hc
      · exact hcols.1 r c (by omega) hc
  exact hrows r c hr hc

/-- The assembled byte has exactly the stored bits below position `min nbits 8`. -/
theorem exportElem_testBit (m : BitSerialMatrix) (r c i : Nat) :
    (m.exportElem r c).testBit i = (decide (i < m.nbits) && decide (i < 8) && m.get i r c) := by
  unfold BitSerialMatrix.exportElem
  refine loop_invariant
    (fun k cur => cur.testBit i = (decide (i < k) && decide (i < 8) && m.get i r c))
    m.nbits _ 0 (by simp) ?_
  intro k _ cur hcur
  by_cases hg : m.get k r c = true
  · rw [if_pos hg]
    have h256 : (256 : Nat) = 2 ^ 8 := by norm_num
    rw [h256, Nat.testBit_mod_two_pow, Nat.testBit_or, hcur, Nat.one_shiftLeft,
      Nat.testBit_two_pow]
    by_cases hik : i = k
    · subst hik; simp [hg]
    · have hki : ¬ (k = i) := fun h => hik h.symm
      by_cases hlt : i < k
      · have : i < k + 1 := by omega
        simp [hki, hlt, this]
      · have : ¬ (i < k + 1) := by omega
        simp [hki, hlt, this]
  · rw [if_neg hg, hcur]
    by_cases hik : i = k
    · subst hik; simp at hg; simp [hg]
    · by_cases hlt : i < k
      · have : i < k + 1 := by omega
        simp [hlt, this]
      · have : ¬ (i < k + 1) := by omega
        simp [hlt, this]

/-- Export after import gives the low `min nbits 8` bits of the source byte. -/
theorem exportElem_importRegular (m : BitSerialMatrix) (M : Nat → Int) (cm : Bool)
    (hwf : m.WF) {r c : Nat} (hr : r < m.nrows) (hc : c < m.ncols) :
    (m.importRegular M cm).exportElem r c = m.sourceElem M cm r c % 2 ^ (min m.nbits 8) := by
  apply Nat.eq_of_testBit_eq
  intro i
  have hs := importRegular_sameShape m M cm hwf
  rw [exportElem_testBit, Nat.testBit_mod_two_pow, hs.2.1]
  by_cases hi : i < m.nbits
  · have hget := get_importRegular m M cm hwf hi (Nat.lt_of_lt_of_le hr hwf.2.1)
      (Nat.lt_of_lt_of_le hc hwf.2.2)
    have hb : (m.importRegular M cm).get i r c = (m.sourceElem M cm r c).testBit i := by
      rw [Bool.eq_iff_iff, hget]
      exact ⟨fun h => h.2.2, fun h => ⟨hr, hc, h⟩⟩
    rw [hb]
    by_cases h8 : i < 8
    · have : i < min m.nbits 8 := by omega
      simp [hi, h8, this]
    · have : ¬ (i < min m.nbits 8) := by omega
      simp [h8, this]
  · have : ¬ (i < min m.nbits 8) := by omega
    simp [hi, this]

theorem exportRegular_importRegular (m : BitSerialMatrix) (M : Nat → Int) (cm : Bool)
    (out0 : Nat → Int) (hwf : m.WF) {r c : Nat} (hr : r < m.nrows) (hc : c < m.ncols) :
    (m.importRegular M cm).exportRegular out0 (r * m.ncols + c)
      = ((m.sourceElem M cm r c % 2 ^ (min m.nbits 8) : Nat) : Int) := by
  have hs := importRegular_sameShape m M cm hwf
  have h := exportRegular_cell (m.importRegular M cm) out0 (r := r) (c := c)
    (by rw [hs.2.2.1]; exact hr) (by rw [hs.2.2.2.1]; exact hc)
  rw [hs.2.2.2.1] at h
  rw [h, exportElem_importRegular m M cm hwf hr hc]

theorem toUInt8_of_small {x : Int} {n : Nat} (hn : n ≤ 8) (h0 : 0 ≤ x) (h1 : x < 2 ^ n) :
    toUInt8 x = x.toNat ∧ x.toNat < 2 ^ n := by
  have h256 : (2 : Int) ^ n ≤ 256 := by
    calc (2 : Int) ^ n ≤ 2 ^ 8 := pow_le_pow_right₀ (by norm_num) hn
      _ = 256 := by norm_num
  unfold toUInt8
  constructor
  · rw [Int.emod_eq_of_lt h0 (by omega)]
  · have : ((x.toNat : Nat) : Int) < ((2 ^ n : Nat) : Int) := by
      rw [Int.toNat_of_nonneg h0]; push_cast; exact h1
    exact_mod_cast this

/-! ## The binary kernel -/

theorem addRect_empty_cols (A BT : Nat → Nat) (dw : Nat) (alpha : Int)
    (ro rt i0 i1 j0 : Nat) (CT : Nat → Int) :
    addRect A BT dw alpha ro rt i0 i1 j0 j0 CT = CT := by
  funext c
  unfold addRect
  rw [if_neg (by omega)]

theorem addRect_empty_rows (A BT : Nat → Nat) (dw : Nat) (alpha : Int)
    (ro rt i0 j0 j1 : Nat) (CT : Nat → Int) :
    addRect A BT dw alpha ro rt i0 i0 j0 j1 CT = CT := by
  funext c
  unfold addRect
  rw [if_neg (by omega)]

/-- Two rectangles side by side in the column direction. -/
theorem addRect_join_cols (A BT : Nat → Nat) (dw : Nat) (alpha : Int)
    (ro rt i0 i1 j0 j1 j2 : Nat) (h1 : j0 ≤ j1) (h2 : j1 ≤ j2) (CT : Nat → Int) :
    addRect A BT dw alpha ro rt i0 i1 j1 j2 (addRect A BT dw alpha ro rt i0 i1 j0 j1 CT)
      = addRect A BT dw alpha ro rt i0 i1 j0 j2 CT := by
  funext c
  unfold addRect
  by_cases ha : 0 < ro ∧ i0 ≤ c / ro ∧ c / ro < i1 ∧ c / ro < rt ∧ j1 ≤ c % ro ∧ c % ro < j2
  · rw [if_pos ha, if_neg (by omega), if_pos (by omega)]
  · rw [if_neg ha]
    by_cases hb : 0 < ro ∧ i0 ≤ c / ro ∧ c / ro < i1 ∧ c / ro < rt ∧ j0 ≤ c % ro ∧ c % ro < j1
    · rw [if_pos hb, if_pos (by omega)]
    · rw [if_neg hb, if_neg (by omega)]

/-- Two rectangles side by side in the row direction. -/
theorem addRect_join_rows (A BT : Nat → Nat) (dw : Nat) (alpha : Int)
    (ro rt i0 i1 i2 j0 j1 : Nat) (h1 : i0 ≤ i1) (h2 : i1 ≤ i2) (CT : Nat → Int) :
    addRect A BT dw alpha ro rt i1 i2 j0 j1 (addRect A BT dw alpha ro rt i0 i1 j0 j1 CT)
      = addRect A BT dw alpha ro rt i0 i2 j0 j1 CT := by
  funext c
  unfold addRect
  by_cases ha : 0 < ro ∧ i1 ≤ c / ro ∧ c / ro < i2 ∧ c / ro < rt ∧ j0 ≤ c % ro ∧ c % ro < j1
  · rw [if_pos ha, if_neg (by omega), if_pos (by omega)]
  · rw [if_neg ha]
    by_cases hb : 0 < ro ∧ i0 ≤ c / ro ∧ c / ro < i1 ∧ c / ro < rt ∧ j0 ≤ c % ro ∧ c % ro < j1
    · rw [if_pos hb, if_pos (by omega)]
    · rw [if_neg hb, if_neg (by omega)]

/-- A loop whose `k`-th round covers the `k`-th column strip of width `w`. -/
theorem loop_cover_cols (A BT : Nat → Nat) (dw : Nat) (alpha : Int)
    (ro rt i0 i1 j0 w n : Nat) (body : Nat → (Nat → Int) → (Nat → Int))
    (h : ∀ k, k < n → ∀ CT,
      body k CT = addRect A BT dw alpha ro rt i0 i1 (j0 + k * w) (j0 + (k + 1) * w) CT)
    (CT : Nat → Int) :
    loop n body CT = addRect A BT dw alpha ro rt i0 i1 j0 (j0 + n * w) CT := by
  induction n with
  | zero => rw [loop_zero, Nat.zero_mul, Nat.add_zero, addRect_empty_cols]
  | succ m ih =>
    rw [loop_succ, ih (fun k hk => h k (Nat.lt_succ_of_lt hk)), h m (Nat.lt_succ_self m)]
    exact addRect_join_cols A BT dw alpha ro rt i0 i1 j0 (j0 + m * w) (j0 + (m + 1) * w)
      (Nat.le_add_right _ _)
      (Nat.add_le_add_left (Nat.mul_le_mul_right w (Nat.le_succ m)) j0) CT

/-- A loop whose `k`-th round covers the `k`-th row strip of height `w`. -/
theorem loop_cover_rows (A BT : Nat → Nat) (dw : Nat) (alpha : Int)
    (ro rt i0 j0 j1 w n : Nat) (body : Nat → (Nat → Int) → (Nat → Int))
    (h : ∀ k, k < n → ∀ CT,
      body k CT = addRect A BT dw alpha ro rt (i0 + k * w) (i0 + (k + 1) * w) j0 j1 CT)
    (CT : Nat → Int) :
    loop n body CT = addRect A BT dw alpha ro rt i0 (i0 + n * w) j0 j1 CT := by
  induction n with
  | zero => rw [loop_zero, Nat.zero_mul, Nat.add_zero, addRect_empty_rows]
  | succ m ih =>
    rw [loop_succ, ih (fun k hk => h k (Nat.lt_succ_of_lt hk)), h m (Nat.lt_succ_self m)]
    exact addRect_join_rows A BT dw alpha ro rt i0 (i0 + m * w) (i0 + (m + 1) * w) j0 j1
      (Nat.le_add_right _ _)
      (Nat.add_le_add_left (Nat.mul_le_mul_right w (Nat.le_succ m)) i0) CT

/-- One guarded store of the kernel is the update of a 1x1 rectangle. -/
theorem store_eq_addRect (A BT : Nat → Nat) (dw : Nat) (alpha : Int)
    (ro rt i j : Nat) (CT : Nat → Int) :
    (if i < rt ∧ j < ro then
        upd CT (i * ro + j)
          (toInt32 (CT (i * ro + j) + toInt32 (toInt32 (dotWords A BT dw j i) * alpha)))
      else CT)
      = addRect A BT dw alpha ro rt i (i + 1) j (j + 1) CT := by
  funext c
  unfold addRect
  by_cases hg : i < rt ∧ j < ro
  · rw [if_pos hg]
    have hdiv : (i * ro + j) / ro = i := by
      rw [Nat.mul_comm, Nat.mul_add_div (by omega), Nat.div_eq_of_lt hg.2]; rfl
    have hmod : (i * ro + j) % ro = j := by
      rw [Nat.mul_comm, Nat.mul_add_mod, Nat.mod_eq_of_lt hg.2]
    by_cases hc : c = i * ro + j
    · subst hc
      rw [upd_same, hdiv, hmod, if_pos (by omega), toInt32_mul_left, toInt32_add_right]
    · rw [upd_other _ _ _ _ hc, if_neg]
      rintro ⟨_, h1, h2, _, h3, h4⟩
      apply hc
      have := Nat.div_add_mod c ro
      have e1 : c / ro = i := by omega
      have e2 : c % ro = j := by omega
      rw [← this, e1, e2, Nat.mul_comm]
  · rw [if_neg hg, if_neg]
    rintro ⟨h0, h1, h2, h3, h4, h5⟩
    apply hg
    have := Nat.mod_lt c h0
    exact ⟨by omega, by omega⟩

/-- The four `int32_t` accumulators of a register tile after the depth sweep. -/
theorem tile_acc (A BT : Nat → Nat) (dw rA rBT : Nat) :
    ∀ ta, ta < 2 → ∀ tb, tb < 2 →
      loop dw (fun d acc =>
          let a0 := A (rA * dw + d)
          let a1 := A (rA * dw + (d + dw))
          let b0 := BT (rBT * dw + d)
          let b1 := BT (rBT * dw + (d + dw))
          let acc := upd acc 0 (toInt32 (acc 0 + popcountll (a0 &&& b0)))
          let acc := upd acc 1 (toInt32 (acc 1 + popcountll (a0 &&& b1)))
          let acc := upd acc 2 (toInt32 (acc 2 + popcountll (a1 &&& b0)))
          upd acc 3 (toInt32 (acc 3 + popcountll (a1 &&& b1)))) (fun _ => 0) (ta * 2 + tb)
        = toInt32 (dotWords A BT dw (rA + ta) (rBT + tb)) := by
  unfold dotWords
  refine loop_invariant (fun n acc => ∀ ta, ta < 2 → ∀ tb, tb < 2 →
      acc (ta * 2 + tb) = toInt32 (∑ d ∈ Finset.range n,
        (popcountll (A ((rA + ta) * dw + d) &&& BT ((rBT + tb) * dw + d)) : Int)))
    dw _ (fun _ => 0) ?_ ?_
  · intro ta _ tb _
    simp [toInt32_zero]
  · intro m _ acc hP ta hta tb htb
    have h00 : acc 0 = _ := hP 0 (by omega) 0 (by omega)
    have h01 : acc 1 = _ := hP 0 (by omega) 1 (by omega)
    have h10 : acc 2 = _ := hP 1 (by omega) 0 (by omega)
    have h11 : acc 3 = _ := hP 1 (by omega) 1 (by omega)
    have hA1 : rA * dw + (m + dw) = (rA + 1) * dw + m := by ring
    have hB1 : rBT * dw + (m + dw) = (rBT + 1) * dw + m := by ring
    have hcases : (ta = 0 ∨ ta = 1) ∧ (tb = 0 ∨ tb = 1) := by omega
    rcases hcases with ⟨h1 | h1, h2 | h2⟩ <;> subst h1 <;> subst h2
    · show upd (upd (upd (upd acc 0 _) 1 _) 2 _) 3 _ 0 = _
      rw [upd_other _ _ _ _ (by decide), upd_other _ _ _ _ (by decide),
        upd_other _ _ _ _ (by decide), upd_same, h00, toInt32_add_left,
        Finset.sum_range_succ]
      rfl
    · show upd (upd (upd (upd acc 0 _) 1 _) 2 _) 3 _ 1 = _
      rw [upd_other _ _ _ _ (by decide), upd_other _ _ _ _ (by decide), upd_same,
        upd_other _ _ _ _ (by decide), h01, toInt32_add_left, Finset.sum_range_succ, hB1]
      rfl
    · show upd (upd (upd (upd acc 0 _) 1 _) 2 _) 3 _ 2 = _
      rw [upd_other _ _ _ _ (by decide), upd_same, upd_other _ _ _ _ (by decide),
        upd_other _ _ _ _ (by decide), h10, toInt32_add_left, Finset.sum_range_succ, hA1]
      rfl
    · show upd (upd (upd (upd acc 0 _) 1 _) 2 _) 3 _ 3 = _
      rw [upd_same, upd_other _ _ _ _ (by decide), upd_other _ _ _ _ (by decide),
        upd_other _ _ _ _ (by decide), h11, toInt32_add_left, Finset.sum_range_succ,
        hA1, hB1]

/-- The four guarded stores of a register tile update a 2x2 rectangle. -/
theorem tile_store (A BT : Nat → Nat) (dw : Nat) (alpha : Int) (ro rt rA rBT : Nat)
    (acc : Nat → Int)
    (hacc : ∀ ta, ta < 2 → ∀ tb, tb < 2 →
      acc (ta * 2 + tb) = toInt32 (dotWords A BT dw (rA + ta) (rBT + tb)))
    (CT : Nat → Int) :
    loop 2 (fun ta CT3 =>
        loop 2 (fun tb CT4 =>
          if rBT + tb < rt ∧ rA + ta < ro then
            upd CT4 ((rBT + tb) * ro + (rA + ta))
              (toInt32 (CT4 ((rBT + tb) * ro + (rA + ta)) + toInt32 (acc (ta * 2 + tb) * alpha)))
          else CT4) CT3) CT
      = addRect A BT dw alpha ro rt rBT (rBT + 2) rA (rA + 2) CT := by
  have inner : ∀ ta, ta < 2 → ∀ CT3,
      loop 2 (fun tb CT4 =>
          if rBT + tb < rt ∧ rA + ta < ro then
            upd CT4 ((rBT + tb) * ro + (rA + ta))
              (toInt32 (CT4 ((rBT + tb) * ro + (rA + ta)) + toInt32 (acc (ta * 2 + tb) * alpha)))
          else CT4) CT3
        = addRect A BT dw alpha ro rt rBT (rBT + 2) (rA + ta * 1) (rA + (ta + 1) * 1) CT3 := by
    intro ta hta CT3
    have h := loop_cover_rows A BT dw alpha ro rt rBT (rA + ta) (rA + ta + 1) 1 2
      (fun tb CT4 =>
        if rBT + tb < rt ∧ rA + ta < ro then
          upd CT4 ((rBT + tb) * ro + (rA + ta))
            (toInt32 (CT4 ((rBT + tb) * ro + (rA + ta)) + toInt32 (acc (ta * 2 + tb) * alpha)))
        else CT4)
      (by
        intro tb htb CT4
        have e1 : rBT + tb * 1 = rBT + tb := by omega
        have e2 : rBT + (tb + 1) * 1 = rBT + tb + 1 := by omega
        rw [e1, e2]
        dsimp only
        rw [hacc ta hta tb htb]
        exact store_eq_addRect A BT dw alpha ro rt (rBT + tb) (rA + ta) CT4) CT3
    have e3 : rA + ta * 1 = rA + ta := by omega
    have e4 : rA + (ta + 1) * 1 = rA + ta + 1 := by omega
    rw [e3, e4]
    exact h
  have h := loop_cover_cols A BT dw alpha ro rt rBT (rBT + 2) rA 1 2 _ inner CT
  exact h

/-- A cache block: the chunk function updates the rectangle of its block. -/
theorem chunk_eq_addRect (A BT : Nat → Nat) (CT : Nat → Int) (alpha : Int)
    (rowsA dw rowsBT bA bBT lb rb ro rt : Nat) (hlb : lb % 2 = 0) (hrb : rb % 2 = 0) :
    gemmBinary_generic_chunk_tile2x1x2 A BT CT alpha rowsA dw rowsBT bA bBT lb rb ro rt
      = addRect A BT dw alpha ro rt bBT (bBT + rb) bA (bA + lb) CT := by
  unfold gemmBinary_generic_chunk_tile2x1x2 loopFrom
  dsimp only
  have hn1 : (bBT + rb - bBT + 2 - 1) / 2 = rb / 2 := by omega
  have hn2 : (bA + lb - bA + 2 - 1) / 2 = lb / 2 := by omega
  rw [hn1, hn2]
  have hcols : ∀ rBT, ∀ CT1 : Nat → Int,
      loop (lb / 2) (fun k CT2 =>
          loop 2 (fun ta CT3 =>
            loop 2 (fun tb CT4 =>
              if rBT + tb < rt ∧ bA + k * 2 + ta < ro then
                upd CT4 ((rBT + tb) * ro + (bA + k * 2 + ta))
                  (toInt32 (CT4 ((rBT + tb) * ro + (bA + k * 2 + ta))
                    + toInt32 (loop dw (fun d acc =>
                        upd (upd (upd (upd acc 0
                          (toInt32 (acc 0 + popcountll (A ((bA + k * 2) * dw + d)
                            &&& BT (rBT * dw + d)))))
                          1 (toInt32 (acc 1 + popcountll (A ((bA + k * 2) * dw + d)
                            &&& BT (rBT * dw + (d + dw))))))
                          2 (toInt32 (acc 2 + popcountll (A ((bA + k * 2) * dw + (d + dw))
                            &&& BT (rBT * dw + d)))))
                          3 (toInt32 (acc 3 + popcountll (A ((bA + k * 2) * dw + (d + dw))
                            &&& BT (rBT * dw + (d + dw))))))
                        (fun _ => 0) (ta * 2 + tb) * alpha)))
              else CT4) CT3) CT2) CT1
        = addRect A BT dw alpha ro rt rBT (rBT + 2) bA (bA + lb) CT1 := by
    intro rBT CT1
    refine Eq.trans (loop_congr _ _
      (fun k CT2 => addRect A BT dw alpha ro rt rBT (rBT + 2) (bA + k * 2) (bA + (k + 1) * 2) CT2)
      _ ?_) ?_
    · intro k _ CT2
      show _ = addRect A BT dw alpha ro rt rBT (rBT + 2) (bA + k * 2) (bA + (k + 1) * 2) CT2
      have e : bA + (k + 1) * 2 = bA + k * 2 + 2 := by omega
      rw [e]
      exact tile_store A BT dw alpha ro rt (bA + k * 2) rBT _
        (tile_acc A BT dw (bA + k * 2) rBT) CT2
    · have h := loop_cover_cols A BT dw alpha ro rt rBT (rBT + 2) bA 2 (lb / 2) _
        (fun _ _ _ => rfl) CT1
      have e : bA + lb / 2 * 2 = bA + lb := by omega
      rw [e] at h
      exact h
  refine Eq.trans (loop_congr _ _
    (fun k CT1 => addRect A BT dw alpha ro rt (bBT + k * 2) (bBT + (k + 1) * 2) bA (bA + lb) CT1)
    _ ?_) ?_
  · intro k _ CT1
    show _ = addRect A BT dw alpha ro rt (bBT + k * 2) (bBT + (k + 1) * 2) bA (bA + lb) CT1
    have e : bBT + (k + 1) * 2 = bBT + k * 2 + 2 := by omega
    rw [e]
    exact hcols (bBT + k * 2) CT1
  · have h := loop_cover_rows A BT dw alpha ro rt bBT bA (bA + lb) 2 (rb / 2) _
      (fun _ _ _ => rfl) CT
    have e : bBT + rb / 2 * 2 = bBT + rb := by omega
    rw [e] at h
    exact h

/-- The cache-blocked kernel passes its assertions and adds `alpha` times the
binary dot product to every cell of the logical result. -/
theorem L1_eq_addRect (A BT : Nat → Nat) (CT : Nat → Int) (alpha : Int)
    (rowsA dw rowsBT ro rt lhsBlock rhsBlock : Nat)
    (hl0 : 0 < lhsBlock) (hr0 : 0 < rhsBlock)
    (h1 : rowsBT % rhsBlock = 0) (h2 : rowsA % lhsBlock = 0)
    (h3 : lhsBlock % 2 = 0) (h4 : rhsBlock % 2 = 0) :
    gemmBinary_generic_L1_tile2x1x2 A BT CT alpha rowsA dw rowsBT ro rt lhsBlock rhsBlock
      = some (addRect A BT dw alpha ro rt 0 rowsBT 0 rowsA CT) := by
  unfold gemmBinary_generic_L1_tile2x1x2 loopFrom
  rw [if_neg (by omega), if_neg (by omega), if_neg (by omega), if_neg (by omega),
    if_neg (by omega)]
  have hn1 : (rowsBT - 0 + rhsBlock - 1) / rhsBlock = rowsBT / rhsBlock := by
    obtain ⟨q, hq⟩ := Nat.dvd_of_mod_eq_zero h1
    subst hq
    rw [Nat.mul_div_cancel_left q hr0, Nat.sub_zero]
    have : rhsBlock * q + rhsBlock - 1 = rhsBlock - 1 + q * rhsBlock := by
      rw [Nat.mul_comm]; omega
    rw [this, Nat.add_mul_div_right _ _ hr0, Nat.div_eq_of_lt (by omega)]
    omega
  have hn2 : (rowsA - 0 + lhsBlock - 1) / lhsBlock = rowsA / lhsBlock := by
    obtain ⟨q, hq⟩ := Nat.dvd_of_mod_eq_zero h2
    subst hq
    rw [Nat.mul_div_cancel_left q hl0, Nat.sub_zero]
    have : lhsBlock * q + lhsBlock - 1 = lhsBlock - 1 + q * lhsBlock := by
      rw [Nat.mul_comm]; omega
    rw [this, Nat.add_mul_div_right _ _ hl0, Nat.div_eq_of_lt (by omega)]
    omega
  rw [hn1, hn2]
  have hcols : ∀ bBT, ∀ CT1 : Nat → Int,
      loop (rowsA / lhsBlock) (fun k CT2 =>
          gemmBinary_generic_chunk_tile2x1x2 A BT CT2 alpha rowsA dw rowsBT (0 + k * lhsBlock)
            bBT lhsBlock rhsBlock ro rt) CT1
        = addRect A BT dw alpha ro rt bBT (bBT + rhsBlock) 0 rowsA CT1 := by
    intro bBT CT1
    refine Eq.trans (loop_congr _ _
      (fun k CT2 => addRect A BT dw alpha ro rt bBT (bBT + rhsBlock) (0 + k * lhsBlock)
        (0 + (k + 1) * lhsBlock) CT2) _ ?_) ?_
    · intro k _ CT2
      show _ = addRect A BT dw alpha ro rt bBT (bBT + rhsBlock) (0 + k * lhsBlock)
        (0 + (k + 1) * lhsBlock) CT2
      have e : 0 + (k + 1) * lhsBlock = 0 + k * lhsBlock + lhsBlock := by ring
      rw [e]
      exact chunk_eq_addRect A BT CT2 alpha rowsA dw rowsBT (0 + k * lhsBlock) bBT
        lhsBlock rhsBlock ro rt h3 h4
    · have h := loop_cover_cols A BT dw alpha ro rt bBT (bBT + rhsBlock) 0 lhsBlock
        (rowsA / lhsBlock) _ (fun _ _ _ => rfl) CT1
      have e : 0 + rowsA / lhsBlock * lhsBlock = rowsA := by
        rw [Nat.zero_add, Nat.div_mul_cancel (Nat.dvd_of_mod_eq_zero h2)]
      rw [e] at h
      exact h
  congr 1
  refine Eq.trans (loop_congr _ _
    (fun k CT1 => addRect A BT dw alpha ro rt (0 + k * rhsBlock) (0 + (k + 1) * rhsBlock)
      0 rowsA CT1) _ ?_) ?_
  · intro k _ CT1
    show _ = addRect A BT dw alpha ro rt (0 + k * rhsBlock) (0 + (k + 1) * rhsBlock)
      0 rowsA CT1
    have e : 0 + (k + 1) * rhsBlock = 0 + k * rhsBlock + rhsBlock := by ring
    rw [e]
    exact hcols (0 + k * rhsBlock) CT1
  · have h := loop_cover_rows A BT dw alpha ro rt 0 0 rowsA rhsBlock (rowsBT / rhsBlock) _
      (fun _ _ _ => rfl) CT
    have e : 0 + rowsBT / rhsBlock * rhsBlock = rowsBT := by
      rw [Nat.zero_add, Nat.div_mul_cancel (Nat.dvd_of_mod_eq_zero h1)]
    rw [e] at h
    exact h

/-! ## Popcounts and columns -/

/-- A popcount sweep over `w` words counts the columns `c < 64 * w` whose bit is set in
both rows. -/
theorem sum_words_eq_sum_bits (X Y : Nat → Nat) (w : Nat) :
    (∑ d ∈ Finset.range w, (popcountll (X d &&& Y d) : Int))
      = ∑ c ∈ Finset.range (64 * w),
          (if (X (c / 64)).testBit (c % 64) && (Y (c / 64)).testBit (c % 64) then (1 : Int)
            else 0) := by
  induction w with
  | zero => simp
  | succ m ih =>
    have e : 64 * (m + 1) = 64 * m + 64 := by ring
    rw [Finset.sum_range_succ, e, Finset.sum_range_add, ih, popcountll_eq_sum]
    congr 1
    push_cast
    apply Finset.sum_congr rfl
    intro p hp
    have hp64 : p < 64 := Finset.mem_range.1 hp
    have h1 : (64 * m + p) / 64 = m := by omega
    have h2 : (64 * m + p) % 64 = p := by omega
    rw [h1, h2, Nat.testBit_and]

/-- The popcount of a single row. -/
theorem sum_words_eq_sum_bits_row (X : Nat → Nat) (w : Nat) :
    (∑ d ∈ Finset.range w, (popcountll (X d) : Int))
      = ∑ c ∈ Finset.range (64 * w),
          (if (X (c / 64)).testBit (c % 64) then (1 : Int) else 0) := by
  induction w with
  | zero => simp
  | succ m ih =>
    have e : 64 * (m + 1) = 64 * m + 64 := by ring
    rw [Finset.sum_range_succ, e, Finset.sum_range_add, ih, popcountll_eq_sum]
    congr 1
    push_cast
    apply Finset.sum_congr rfl
    intro p hp
    have hp64 : p < 64 := Finset.mem_range.1 hp
    have h1 : (64 * m + p) / 64 = m := by omega
    have h2 : (64 * m + p) % 64 = p := by omega
    rw [h1, h2]

theorem rowptr_testBit (m : BitSerialMatrix) (b r c : Nat) :
    (m.rowptr b r (c / 64)).testBit (c % 64) = m.get b r c := by
  rw [get_eq_testBit]
  unfold BitSerialMatrix.rowptr BitSerialMatrix.wordIndex
  rw [Nat.shiftRight_eq_div_pow]

theorem bitplaneptr_row (m : BitSerialMatrix) (b r d : Nat) :
    m.bitplaneptr b (r * m.wordsPerRow + d) = m.rowptr b r d := by
  unfold BitSerialMatrix.bitplaneptr BitSerialMatrix.rowptr
  rw [Nat.add_assoc]

/-- A sum over the allocated columns of terms that vanish in the padding is the sum
over the logical columns. -/
theorem sum_range_padding (f : Nat → Int) (n na : Nat) (h : n ≤ na)
    (hz : ∀ c, n ≤ c → c < na → f c = 0) :
    ∑ c ∈ Finset.range na, f c = ∑ c ∈ Finset.range n, f c := by
  obtain ⟨k, rfl⟩ := Nat.exists_eq_add_of_le h
  rw [Finset.sum_range_add]
  have : ∑ x ∈ Finset.range k, f (n + x) = 0 := by
    apply Finset.sum_eq_zero
    intro x hx
    exact hz (n + x) (by omega) (by have := Finset.mem_range.1 hx; omega)
  rw [this, add_zero]

/-- The binary dot product of two bitplane rows counts the columns where both
matrices have their bit set. -/
theorem dotWords_planes (lhs rhs : BitSerialMatrix) (hA : lhs.ncols_a = rhs.ncols_a)
    (h64 : lhs.ncols_a % 64 = 0) (lb rb j i : Nat) :
    dotWords (lhs.bitplaneptr lb) (rhs.bitplaneptr rb) lhs.wordsPerRow j i
      = ∑ c ∈ Finset.range lhs.ncols_a,
          (if lhs.get lb j c && rhs.get rb i c then (1 : Int) else 0) := by
  unfold dotWords
  have hw : rhs.wordsPerRow = lhs.wordsPerRow := by
    unfold BitSerialMatrix.wordsPerRow; rw [hA]
  have e1 : ∀ d, lhs.bitplaneptr lb (j * lhs.wordsPerRow + d) = lhs.rowptr lb j d :=
    fun d => bitplaneptr_row lhs lb j d
  have e2 : ∀ d, rhs.bitplaneptr rb (i * lhs.wordsPerRow + d) = rhs.rowptr rb i d := by
    intro d; rw [← hw]; exact bitplaneptr_row rhs rb i d
  simp only [e1, e2]
  rw [sum_words_eq_sum_bits]
  have hn : 64 * lhs.wordsPerRow = lhs.ncols_a := by
    unfold BitSerialMatrix.wordsPerRow; omega
  rw [hn]
  apply Finset.sum_congr rfl
  intro c _
  rw [rowptr_testBit, rowptr_testBit]

/-- The bits of an imported matrix, as 0 or 1, at a logical position. -/
theorem get_importRegular_logical (m : BitSerialMatrix) (M : Nat → Int) (cm : Bool)
    (hwf : m.WF) {b r c : Nat} (hb : b < m.nbits) (hr : r < m.nrows) (hc : c < m.ncols) :
    (m.importRegular M cm).get b r c = (m.sourceElem M cm r c).testBit b := by
  rw [Bool.eq_iff_iff, get_importRegular m M cm hwf hb (Nat.lt_of_lt_of_le hr hwf.2.1)
    (Nat.lt_of_lt_of_le hc hwf.2.2)]
  exact ⟨fun h => h.2.2, fun h => ⟨hr, hc, h⟩⟩

/-! ## The bit-serial driver -/

/-- A loop that adds `v k` to one `int32_t` cell in its `k`-th round. -/
theorem loop_cell_acc (n : Nat) (body : Nat → (Nat → Int) → (Nat → Int)) (c : Nat)
    (v : Nat → Int) (CT0 : Nat → Int) (h0 : toInt32 (CT0 c) = CT0 c)
    (hstep : ∀ k, k < n → ∀ CT, toInt32 (CT c) = CT c → body k CT c = toInt32 (CT c + v k)) :
    loop n body CT0 c = toInt32 (CT0 c + ∑ k ∈ Finset.range n, v k) := by
  refine loop_invariant
    (fun k CT => CT c = toInt32 (CT0 c + ∑ j ∈ Finset.range k, v j)) n body CT0 ?_ ?_
  · simp [h0]
  · intro k hk CT hCT
    have hfix : toInt32 (CT c) = CT c := by rw [hCT, toInt32_toInt32]
    rw [hstep k hk CT hfix, hCT, toInt32_add_left, Finset.sum_range_succ, add_assoc]

theorem shl32_modEq (s : Nat) (hs : s < 32) : shl32 1 s ≡ 2 ^ s [ZMOD 4294967296] := by
  unfold shl32
  rw [one_mul, Nat.mod_eq_of_lt hs]
  exact toInt32_modEq _

/-- The scale `alpha` of the driver is the product of the two plane weights, modulo
`2^32`. -/
theorem alpha_modEq (ls rs : Bool) (nl nr lbit rbit : Nat) (hs : lbit + rbit < 32) :
    (if xor (rs && (rbit == nr - 1)) (ls && (lbit == nl - 1))
      then toInt32 (-(shl32 1 (lbit + rbit))) else shl32 1 (lbit + rbit))
      ≡ planeWeight ls nl lbit * planeWeight rs nr rbit [ZMOD 4294967296] := by
  have hp : (2 : Int) ^ (lbit + rbit) = 2 ^ lbit * 2 ^ rbit := pow_add 2 lbit rbit
  have hneg : toInt32 (-(shl32 1 (lbit + rbit))) ≡ -(2 ^ (lbit + rbit)) [ZMOD 4294967296] :=
    Int.ModEq.trans (toInt32_modEq _) (Int.ModEq.neg (shl32_modEq _ hs))
  unfold planeWeight
  by_cases h1 : (ls && (lbit == nl - 1)) = true <;> by_cases h2 : (rs && (rbit == nr - 1)) = true
  · rw [if_pos h1, if_pos h2, h1, h2]
    simp only [Bool.xor_self, Bool.false_eq_true, if_false]
    have : -(2 : Int) ^ lbit * -(2 : Int) ^ rbit = 2 ^ (lbit + rbit) := by rw [hp]; ring
    rw [this]; exact shl32_modEq _ hs
  · rw [if_pos h1, if_neg h2]
    have h2f : (rs && (rbit == nr - 1)) = false := by simpa using h2
    rw [h1, h2f]
    simp only [Bool.false_xor, if_true]
    have : -(2 : Int) ^ lbit * (2 : Int) ^ rbit = -(2 ^ (lbit + rbit)) := by rw [hp]; ring
    rw [this]; exact hneg
  · rw [if_neg h1, if_pos h2]
    have h1f : (ls && (lbit == nl - 1)) = false := by simpa using h1
    rw [h1f, h2]
    simp only [Bool.xor_false, if_true]
    have : (2 : Int) ^ lbit * -(2 : Int) ^ rbit = -(2 ^ (lbit + rbit)) := by rw [hp]; ring
    rw [this]; exact hneg
  · rw [if_neg h1, if_neg h2]
    have h1f : (ls && (lbit == nl - 1)) = false := by simpa using h1
    have h2f : (rs && (rbit == nr - 1)) = false := by simpa using h2
    rw [h1f, h2f]
    simp only [Bool.xor_self, Bool.false_eq_true, if_false]
    rw [← hp]; exact shl32_modEq _ hs

/-- What the tiled driver leaves in the accumulator, in terms of the stored bits:
on a context that satisfies the invariants and is not mixed-bipolar, every
assertion passes and each logical cell holds the weighted sum of the binary dot
products, reduced to `int32_t`. -/
theorem usingBinary_cells (ctx : GEMMContext) (hinv : ctx.Invariants)
    (hmix : ctx.mixedBipolar = false) (hbits : ctx.lhs.nbits + ctx.rhs.nbits ≤ 33) :
    ∃ res, gemmBitSerial_generic_usingBinary ctx = some res
      ∧ ∀ i, i < ctx.rhs.nrows → ∀ j, j < ctx.lhs.nrows →
        res (i * ctx.lhs.nrows + j)
          = toInt32 (∑ lbit ∈ Finset.range ctx.lhs.nbits, ∑ rbit ∈ Finset.range ctx.rhs.nbits,
              (∑ c ∈ Finset.range ctx.lhs.ncols_a,
                (if ctx.lhs.get lbit j c && ctx.rhs.get rbit i c then (1 : Int) else 0))
              * (planeWeight ctx.lhs.issigned ctx.lhs.nbits lbit
                  * planeWeight ctx.rhs.issigned ctx.rhs.nbits rbit)) := by
  obtain ⟨hwl, hwr, hnc, hnca, hl0, hr0, hdl, hdr, hel, her⟩ := hinv
  refine ⟨loop ctx.lhs.nbits (fun lbit CT1 => loop ctx.rhs.nbits (fun rbit CT2 =>
      addRect (ctx.lhs.bitplaneptr lbit) (ctx.rhs.bitplaneptr rbit) ctx.lhs.wordsPerRow
        (if xor (ctx.rhs.issigned && (rbit == ctx.rhs.nbits - 1))
              (ctx.lhs.issigned && (lbit == ctx.lhs.nbits - 1))
          then toInt32 (-(shl32 1 (lbit + rbit))) else shl32 1 (lbit + rbit))
        ctx.lhs.nrows ctx.rhs.nrows 0 ctx.rhs.nrows_a 0 ctx.lhs.nrows_a CT2) CT1)
      (prepareAccumulators ctx), ?_, ?_⟩
  · unfold gemmBitSerial_generic_usingBinary
    rw [if_neg (by rw [hnc]; exact fun h => h rfl)]
    dsimp only
    apply loop_some
    intro lbit _ t
    apply loop_some
    intro rbit _ t2
    exact L1_eq_addRect _ _ _ _ _ _ _ _ _ _ _ hl0 hr0 hdr hdl hel her
  · intro i hi j hj
    have hro : 0 < ctx.lhs.nrows := by omega
    have hdiv : (i * ctx.lhs.nrows + j) / ctx.lhs.nrows = i := by
      rw [Nat.mul_comm, Nat.mul_add_div hro, Nat.div_eq_of_lt hj]; rfl
    have hmod : (i * ctx.lhs.nrows + j) % ctx.lhs.nrows = j := by
      rw [Nat.mul_comm, Nat.mul_add_mod, Nat.mod_eq_of_lt hj]
    have hcell : i * ctx.lhs.nrows + j < ctx.lhs.nrows * ctx.rhs.nrows := by
      rw [Nat.mul_comm ctx.lhs.nrows]; exact index_lt_of_row_lt hi hj
    have hprep : prepareAccumulators ctx (i * ctx.lhs.nrows + j) = 0 := by
      unfold prepareAccumulators
      unfold GEMMContext.mixedBipolar at hmix
      rw [hmix]
      simp only [Bool.false_eq_true, if_false]
      rw [if_pos hcell]
    have hia : i < ctx.rhs.nrows_a := Nat.lt_of_lt_of_le hi hwr.2.1
    have hja : j < ctx.lhs.nrows_a := Nat.lt_of_lt_of_le hj hwl.2.1
    have houter := loop_cell_acc ctx.lhs.nbits
      (fun lbit CT1 => loop ctx.rhs.nbits (fun rbit CT2 =>
        addRect (ctx.lhs.bitplaneptr lbit) (ctx.rhs.bitplaneptr rbit) ctx.lhs.wordsPerRow
          (if xor (ctx.rhs.issigned && (rbit == ctx.rhs.nbits - 1))
                (ctx.lhs.issigned && (lbit == ctx.lhs.nbits - 1))
            then toInt32 (-(shl32 1 (lbit + rbit))) else shl32 1 (lbit + rbit))
          ctx.lhs.nrows ctx.rhs.nrows 0 ctx.rhs.nrows_a 0 ctx.lhs.nrows_a CT2) CT1)
      (i * ctx.lhs.nrows + j)
      (fun lbit => ∑ rbit ∈ Finset.range ctx.rhs.nbits,
        (∑ c ∈ Finset.range ctx.lhs.ncols_a,
          (if ctx.lhs.get lbit j c && ctx.rhs.get rbit i c then (1 : Int) else 0))
        * (planeWeight ctx.lhs.issigned ctx.lhs.nbits lbit
            * planeWeight ctx.rhs.issigned ctx.rhs.nbits rbit))
      (prepareAccumulators ctx) (by rw [hprep]; exact toInt32_zero)
      (by
        intro lbit hlbit CT hCT
        refine loop_cell_acc ctx.rhs.nbits _ (i * ctx.lhs.nrows + j) _ CT hCT ?_
        intro rbit hrbit CT2 _
        show addRect _ _ _ _ _ _ _ _ _ _ CT2 (i * ctx.lhs.nrows + j) = _
        unfold addRect
        rw [hdiv, hmod, if_pos ⟨hro, Nat.zero_le _, hia, hi, Nat.zero_le _, hja⟩,
          dotWords_planes ctx.lhs ctx.rhs hnca hwl.1]
        exact toInt32_congr (Int.ModEq.add_left _ (Int.ModEq.mul_left _
          (alpha_modEq ctx.lhs.issigned ctx.rhs.issigned ctx.lhs.nbits ctx.rhs.nbits lbit rbit
            (by omega)))))
    rw [houter, hprep, zero_add]

/-! ## Values and bit planes -/

theorem sum_bits_mod (u n : Nat) :
    (∑ b ∈ Finset.range n, (if u.testBit b then (2 : Int) ^ b else 0))
      = ((u % 2 ^ n : Nat) : Int) := by
  induction n with
  | zero => simp [Nat.mod_one]
  | succ k ih =>
    rw [Finset.sum_range_succ, ih, Nat.mod_pow_succ, Nat.testBit_to_div_mod]
    have h2 : u / 2 ^ k % 2 = 0 ∨ u / 2 ^ k % 2 = 1 := by omega
    rcases h2 with h | h
    · rw [h]; simp
    · rw [h]; simp

theorem planeValue_unsigned (n u : Nat) : planeValue false n u = ((u % 2 ^ n : Nat) : Int) := by
  unfold planeValue planeWeight
  simp only [Bool.false_and, Bool.false_eq_true, if_false]
  exact sum_bits_mod u n

theorem planeValue_signed (k u : Nat) :
    planeValue true (k + 1) u
      = ((u % 2 ^ k : Nat) : Int) - (if u.testBit k then (2 : Int) ^ k else 0) := by
  unfold planeValue planeWeight
  rw [Finset.sum_range_succ, ← sum_bits_mod u k]
  have hlow : ∀ b, b ∈ Finset.range k →
      (if u.testBit b = true then
          (if (true && (b == k + 1 - 1)) = true then -(2 : Int) ^ b else 2 ^ b) else 0)
        = (if u.testBit b = true then (2 : Int) ^ b else 0) := by
    intro b hb
    have hbk : ¬ (b = k) := by have := Finset.mem_range.1 hb; omega
    simp [hbk]
  rw [Finset.sum_congr rfl hlow]
  by_cases ht : u.testBit k = true
  · simp [ht]; ring
  · simp [ht]

theorem toUInt8_mod (x : Int) (n : Nat) (hn : n ≤ 8) :
    ((toUInt8 x % 2 ^ n : Nat) : Int) = x % 2 ^ n := by
  unfold toUInt8
  have hd : (2 : Int) ^ n ∣ 256 := by
    have : (256 : Int) = 2 ^ 8 := by norm_num
    rw [this]; exact pow_dvd_pow 2 hn
  have h0 : 0 ≤ x % 256 := Int.emod_nonneg _ (by norm_num)
  push_cast
  rw [Int.toNat_of_nonneg h0, Int.emod_emod_of_dvd _ hd]

/-- The stored planes of an in-range element stand for the element. -/
theorem planeValue_toUInt8 (s : Bool) (n : Nat) (x : Int) (hn1 : 1 ≤ n) (hn8 : n ≤ 8)
    (hx : inRange s n x) : planeValue s n (toUInt8 x) = x := by
  unfold inRange at hx
  cases s with
  | false =>
    simp only [Bool.false_eq_true, if_false] at hx
    rw [planeValue_unsigned, toUInt8_mod x n hn8]
    exact Int.emod_eq_of_lt hx.1 hx.2
  | true =>
    simp only [if_true] at hx
    obtain ⟨k, rfl⟩ : ∃ k, n = k + 1 := ⟨n - 1, by omega⟩
    simp only [Nat.add_sub_cancel] at hx
    rw [planeValue_signed]
    have hpow : (2 : Int) ^ (k + 1) = 2 * 2 ^ k := by rw [pow_succ]; ring
    have hkpos : (0 : Int) < 2 ^ k := by positivity
    have hlow := toUInt8_mod x k (by omega)
    have hfull := toUInt8_mod x (k + 1) hn8
    have hsplit : toUInt8 x % 2 ^ (k + 1)
        = toUInt8 x % 2 ^ k + 2 ^ k * (toUInt8 x / 2 ^ k % 2) := Nat.mod_pow_succ
    have hbit : (toUInt8 x).testBit k = decide (toUInt8 x / 2 ^ k % 2 = 1) :=
      Nat.testBit_to_div_mod
    rw [hlow]
    by_cases hneg : x < 0
    · have hx1 : x % 2 ^ (k + 1) = x + 2 ^ (k + 1) := by
        have : (x + 2 ^ (k + 1)) % 2 ^ (k + 1) = x + 2 ^ (k + 1) :=
          Int.emod_eq_of_lt (by omega) (by omega)
        rw [← this, Int.add_emod_self]
      have hx2 : x % 2 ^ k = x + 2 ^ k := by
        have : (x + 2 ^ k) % 2 ^ k = x + 2 ^ k := Int.emod_eq_of_lt (by omega) (by omega)
        rw [← this, Int.add_emod_self]
      have hb1 : toUInt8 x / 2 ^ k % 2 = 1 := by
        have h2 : toUInt8 x / 2 ^ k % 2 = 0 ∨ toUInt8 x / 2 ^ k % 2 = 1 := by omega
        rcases h2 with h | h
        · exfalso
          rw [h, Nat.mul_zero] at hsplit
          have : ((toUInt8 x % 2 ^ (k + 1) : Nat) : Int) = ((toUInt8 x % 2 ^ k : Nat) : Int) := by
            rw [hsplit, Nat.add_zero]
          rw [hfull, hlow, hx1, hx2] at this
          omega
        · exact h
      rw [hbit, hb1, hx2]
      simp
    · have hx2 : x % 2 ^ k = x := Int.emod_eq_of_lt (by omega) hx.2
      have hx1 : x % 2 ^ (k + 1) = x := Int.emod_eq_of_lt (by omega) (by omega)
      have hb0 : toUInt8 x / 2 ^ k % 2 = 0 := by
        have h2 : toUInt8 x / 2 ^ k % 2 = 0 ∨ toUInt8 x / 2 ^ k % 2 = 1 := by omega
        rcases h2 with h | h
        · exact h
        · exfalso
          rw [h, Nat.mul_one] at hsplit
          have : ((toUInt8 x % 2 ^ (k + 1) : Nat) : Int)
              = ((toUInt8 x % 2 ^ k : Nat) : Int) + 2 ^ k := by
            rw [hsplit]; push_cast; ring
          rw [hfull, hlow, hx1, hx2] at this
          omega
      rw [hbit, hb0, hx2]
      simp

/-- Summing the weighted binary dot products over all plane pairs gives the dot
product of the plane values. -/
theorem planes_to_values (nl nr nc : Nat) (a b : Nat → Nat → Bool) (wl wr : Nat → Int) :
    (∑ lbit ∈ Finset.range nl, ∑ rbit ∈ Finset.range nr,
        (∑ c ∈ Finset.range nc, (if a lbit c && b rbit c then (1 : Int) else 0))
          * (wl lbit * wr rbit))
      = ∑ c ∈ Finset.range nc,
          (∑ lbit ∈ Finset.range nl, (if a lbit c then wl lbit else 0))
            * (∑ rbit ∈ Finset.range nr, (if b rbit c then wr rbit else 0)) := by
  have hterm : ∀ lbit rbit c,
      (if a lbit c && b rbit c then (1 : Int) else 0) * (wl lbit * wr rbit)
        = (if a lbit c then wl lbit else 0) * (if b rbit c then wr rbit else 0) := by
    intro lbit rbit c
    cases a lbit c <;> cases b rbit c <;> simp
  have hL : ∀ lbit rbit,
      (∑ c ∈ Finset.range nc, (if a lbit c && b rbit c then (1 : Int) else 0))
          * (wl lbit * wr rbit)
        = ∑ c ∈ Finset.range nc,
            (if a lbit c then wl lbit else 0) * (if b rbit c then wr rbit else 0) := by
    intro lbit rbit
    rw [Finset.sum_mul]
    exact Finset.sum_congr rfl (fun c _ => hterm lbit rbit c)
  have hR : ∀ c,
      (∑ lbit ∈ Finset.range nl, (if a lbit c then wl lbit else 0))
          * (∑ rbit ∈ Finset.range nr, (if b rbit c then wr rbit else 0))
        = ∑ lbit ∈ Finset.range nl, ∑ rbit ∈ Finset.range nr,
            (if a lbit c then wl lbit else 0) * (if b rbit c then wr rbit else 0) :=
    fun c => Finset.sum_mul_sum _ _ _ _
  rw [Finset.sum_congr rfl (fun lbit _ => Finset.sum_congr rfl (fun rbit _ => hL lbit rbit)),
    Finset.sum_congr rfl (fun c _ => hR c),
    Finset.sum_congr rfl (fun lbit _ => Finset.sum_comm)]
  exact Finset.sum_comm

/-! ## The driver on imported operands -/

theorem sourceElem_rowMajor (m : BitSerialMatrix) (M : Nat → Int) (r c : Nat) :
    m.sourceElem M false r c = toUInt8 (M (r * m.ncols + c)) := by
  unfold BitSerialMatrix.sourceElem
  simp

theorem load_invariants (ctx : GEMMContext) (hinv : ctx.Invariants) (L R acc0 : Nat → Int) :
    (ctx.load L R acc0).Invariants := by
  obtain ⟨hwl, hwr, hnc, hnca, hl0, hr0, hdl, hdr, hel, her⟩ := hinv
  obtain ⟨_, _, l3, l4, l5, l6⟩ := importRegular_sameShape ctx.lhs L false hwl
  obtain ⟨_, _, r3, r4, r5, r6⟩ := importRegular_sameShape ctx.rhs R false hwr
  unfold GEMMContext.Invariants GEMMContext.load BitSerialMatrix.WF
  dsimp only
  rw [l3, l4, l5, l6, r3, r4, r5, r6]
  exact ⟨hwl, hwr, hnc, hnca, hl0, hr0, hdl, hdr, hel, her⟩

/-- The tiled driver on operands loaded with `importRegular`: every logical cell
holds the dot product of the values that the stored planes stand for, reduced to
`int32_t`, whatever the three buffers held before. -/
theorem usingBinary_loaded (ctx : GEMMContext) (hinv : ctx.Invariants)
    (hmix : ctx.mixedBipolar = false) (hbits : ctx.lhs.nbits + ctx.rhs.nbits ≤ 33)
    (L R acc0 : Nat → Int) :
    ∃ res, gemmBitSerial_generic_usingBinary (ctx.load L R acc0) = some res
      ∧ ∀ i, i < ctx.rhs.nrows → ∀ j, j < ctx.lhs.nrows →
        res (i * ctx.lhs.nrows + j)
          = toInt32 (∑ k ∈ Finset.range ctx.lhs.ncols,
              planeValue ctx.lhs.issigned ctx.lhs.nbits (toUInt8 (L (j * ctx.lhs.ncols + k)))
                * planeValue ctx.rhs.issigned ctx.rhs.nbits
                    (toUInt8 (R (i * ctx.rhs.ncols + k)))) := by
  have hinv2 := load_invariants ctx hinv L R acc0
  obtain ⟨hwl, hwr, hnc, hnca, _⟩ := hinv
  obtain ⟨l1, l2, l3, l4, l5, l6⟩ := importRegular_sameShape ctx.lhs L false hwl
  obtain ⟨r1, r2, r3, r4, r5, r6⟩ := importRegular_sameShape ctx.rhs R false hwr
  have hmix2 : (ctx.load L R acc0).mixedBipolar = false := by
    unfold GEMMContext.mixedBipolar GEMMContext.load
    dsimp only
    rw [l1, l2, r1, r2]
    exact hmix
  have hbits2 : (ctx.load L R acc0).lhs.nbits + (ctx.load L R acc0).rhs.nbits ≤ 33 := by
    show (ctx.lhs.importRegular L false).nbits + (ctx.rhs.importRegular R false).nbits ≤ 33
    rw [l2, r2]
    exact hbits
  obtain ⟨res, hres, hcells⟩ := usingBinary_cells (ctx.load L R acc0) hinv2 hmix2 hbits2
  refine ⟨res, hres, ?_⟩
  intro i hi j hj
  have h := hcells i (by show i < (ctx.rhs.importRegular R false).nrows; rw [r3]; exact hi)
    j (by show j < (ctx.lhs.importRegular L false).nrows; rw [l3]; exact hj)
  have hshape : (ctx.load L R acc0).lhs = ctx.lhs.importRegular L false := rfl
  have hshape2 : (ctx.load L R acc0).rhs = ctx.rhs.importRegular R false := rfl
  rw [hshape, hshape2, l1, l2, l3, l6, r1, r2] at h
  rw [h]
  congr 1
  have hplane : ∀ lbit, lbit ∈ Finset.range ctx.lhs.nbits →
      ∀ rbit, rbit ∈ Finset.range ctx.rhs.nbits →
      (∑ c ∈ Finset.range ctx.lhs.ncols_a,
          (if (ctx.lhs.importRegular L false).get lbit j c
              && (ctx.rhs.importRegular R false).get rbit i c then (1 : Int) else 0))
        = ∑ c ∈ Finset.range ctx.lhs.ncols,
            (if (toUInt8 (L (j * ctx.lhs.ncols + c))).testBit lbit
                && (toUInt8 (R (i * ctx.rhs.ncols + c))).testBit rbit then (1 : Int) else 0) := by
    intro lbit hlb rbit hrb
    have hlb2 := Finset.mem_range.1 hlb
    have hrb2 := Finset.mem_range.1 hrb
    rw [sum_range_padding _ ctx.lhs.ncols ctx.lhs.ncols_a hwl.2.2]
    · apply Finset.sum_congr rfl
      intro c hc
      have hc2 := Finset.mem_range.1 hc
      rw [get_importRegular_logical ctx.lhs L false hwl hlb2 hj hc2,
        get_importRegular_logical ctx.rhs R false hwr hrb2 hi (by rw [← hnc]; exact hc2),
        sourceElem_rowMajor, sourceElem_rowMajor]
    · intro c hc1 hc2
      have hz : (ctx.lhs.importRegular L false).get lbit j c = false :=
        by
          rw [Bool.eq_false_iff]
          intro hg
          have := (get_importRegular ctx.lhs L false hwl hlb2
            (Nat.lt_of_lt_of_le hj hwl.2.1) hc2).1 hg
          omega
      rw [hz]
      simp
  rw [Finset.sum_congr rfl (fun lbit hlb =>
    Finset.sum_congr rfl (fun rbit hrb => by rw [hplane lbit hlb rbit hrb]))]
  rw [planes_to_values ctx.lhs.nbits ctx.rhs.nbits ctx.lhs.ncols
    (fun lbit c => (toUInt8 (L (j * ctx.lhs.ncols + c))).testBit lbit)
    (fun rbit c => (toUInt8 (R (i * ctx.rhs.ncols + c))).testBit rbit)
    (planeWeight ctx.lhs.issigned ctx.lhs.nbits) (planeWeight ctx.rhs.issigned ctx.rhs.nbits)]
  rfl

/-! ## The naive kernel -/

/-- Two nested loops that store `v r c` at index `r * n + c`. -/
theorem loop_store_cell {α : Type} (nr n : Nat) (v : Nat → Nat → α) (out0 : Nat → α) :
    ∀ r c, r < nr → c < n →
      loop nr (fun r o1 => loop n (fun c o2 => upd o2 (r * n + c) (v r c)) o1) out0 (r * n + c)
        = v r c := by
  refine loop_invariant
    (fun k out => ∀ r c, r < k → c < n → out (r * n + c) = v r c) nr _ out0 ?_ ?_
  · intro r c h _; omega
  · intro k _ out hout
    have hcols := loop_invariant
      (fun j o => (∀ r c, r < k → c < n → o (r * n + c) = v r c)
        ∧ ∀ c, c < j → o (k * n + c) = v k c) n
      (fun c o2 => upd o2 (k * n + c) (v k c)) out
      ⟨hout, fun c h => by omega⟩
      (by
        rintro j hj o ⟨ho1, ho2⟩
        constructor
        · intro r c hr hc
          have hlt := index_lt_of_row_lt hr hc
          show upd o (k * n + j) _ (r * n + c) = _
          rw [upd_other _ _ _ _ (by omega)]
          exact ho1 r c hr hc
        · intro c hc
          show upd o (k * n + j) _ (k * n + c) = _
          by_cases hcj : c = j
          · subst hcj; rw [upd_same]
          · rw [upd_other _ _ _ _ (by omega)]
            exact ho2 c (by omega))
    intro r c hr hc
    by_cases hrk : r = k
    · subst hrk; exact hcols.2 c hc
    · exact hcols.1 r c (by omega) hc

/-- A loop that adds `v k` to an `int32_t` in its `k`-th round, started from an
`int32_t`. -/
theorem loop_acc_fix (n : Nat) (body : Nat → Int → Int) (v : Nat → Int) (s0 : Int)
    (h0 : toInt32 s0 = s0)
    (hstep : ∀ k, k < n → ∀ s, toInt32 s = s → body k s = toInt32 (s + v k)) :
    loop n body s0 = toInt32 (s0 + ∑ k ∈ Finset.range n, v k) := by
  refine loop_invariant
    (fun k s => s = toInt32 (s0 + ∑ j ∈ Finset.range k, v j)) n body s0 ?_ ?_
  · simp [h0]
  · intro k hk s hs
    have hfix : toInt32 s = s := by rw [hs, toInt32_toInt32]
    rw [hstep k hk s hfix, hs, toInt32_add_left, Finset.sum_range_succ, add_assoc]

/-- The `uint64_t` popcount sweep of the naive kernel. -/
theorem andcard_eq (n : Nat) (f : Nat → Nat) :
    loop n (fun k ac => (ac + f k) % 2 ^ 64) 0 = (∑ k ∈ Finset.range n, f k) % 2 ^ 64 := by
  induction n with
  | zero => rfl
  | succ m ih =>
    rw [loop_succ, ih, Finset.sum_range_succ, Nat.mod_add_mod]

theorem natCast_mod64_modEq (x : Nat) :
    ((x % 2 ^ 64 : Nat) : Int) ≡ (x : Int) [ZMOD 4294967296] := by
  have h : ((x % 2 ^ 64 : Nat) : Int) = (x : Int) % 18446744073709551616 := by
    push_cast; norm_num
  rw [h]
  unfold Int.ModEq
  omega

/-- The scaled and signed popcount that the naive kernel adds, modulo `2^32`. -/
theorem naive_term_modEq (ls rs : Bool) (nl nr lbit rbit count : Nat) :
    ((if xor (ls && (lbit == nl - 1)) (rs && (rbit == nr - 1))
        then ((2 ^ 64 - ((count % 2 ^ 64) <<< (lbit + rbit)) % 2 ^ 64) % 2 ^ 64 : Nat)
        else ((count % 2 ^ 64) <<< (lbit + rbit)) % 2 ^ 64 : Nat) : Int)
      ≡ (count : Int) * (planeWeight ls nl lbit * planeWeight rs nr rbit)
        [ZMOD 4294967296] := by
  have hp : (2 : Int) ^ (lbit + rbit) = 2 ^ lbit * 2 ^ rbit := pow_add 2 lbit rbit
  have hpos : ((((count % 2 ^ 64) <<< (lbit + rbit)) % 2 ^ 64 : Nat) : Int)
      ≡ (count : Int) * 2 ^ (lbit + rbit) [ZMOD 4294967296] := by
    refine Int.ModEq.trans (natCast_mod64_modEq _) ?_
    rw [Nat.shiftLeft_eq]
    push_cast
    have := natCast_mod64_modEq count
    push_cast at this
    exact Int.ModEq.mul_right _ this
  have hneg : (((2 ^ 64 - ((count % 2 ^ 64) <<< (lbit + rbit)) % 2 ^ 64) % 2 ^ 64 : Nat) : Int)
      ≡ -((count : Int) * 2 ^ (lbit + rbit)) [ZMOD 4294967296] := by
    refine Int.ModEq.trans (natCast_mod64_modEq _) ?_
    have hlt : ((count % 2 ^ 64) <<< (lbit + rbit)) % 2 ^ 64 < 2 ^ 64 :=
      Nat.mod_lt _ (by norm_num)
    rw [Nat.cast_sub (Nat.le_of_lt hlt)]
    have h0 : ((2 ^ 64 : Nat) : Int) ≡ 0 [ZMOD 4294967296] := by
      unfold Int.ModEq; norm_num
    have := Int.ModEq.sub h0 hpos
    rw [zero_sub] at this
    exact this
  unfold planeWeight
  by_cases h1 : (ls && (lbit == nl - 1)) = true <;> by_cases h2 : (rs && (rbit == nr - 1)) = true
  · rw [if_pos h1, if_pos h2, h1, h2]
    simp only [Bool.xor_self, Bool.false_eq_true, if_false]
    have : (count : Int) * (-(2 : Int) ^ lbit * -(2 : Int) ^ rbit)
        = (count : Int) * 2 ^ (lbit + rbit) := by rw [hp]; ring
    rw [this]; exact hpos
  · rw [if_pos h1, if_neg h2]
    have h2f : (rs && (rbit == nr - 1)) = false := by simpa using h2
    rw [h1, h2f]
    simp only [Bool.xor_false, if_true]
    have : (count : Int) * (-(2 : Int) ^ lbit * (2 : Int) ^ rbit)
        = -((count : Int) * 2 ^ (lbit + rbit)) := by rw [hp]; ring
    rw [this]; exact hneg
  · rw [if_neg h1, if_pos h2]
    have h1f : (ls && (lbit == nl - 1)) = false := by simpa using h1
    rw [h1f, h2]
    simp only [Bool.false_xor, if_true]
    have : (count : Int) * ((2 : Int) ^ lbit * -(2 : Int) ^ rbit)
        = -((count : Int) * 2 ^ (lbit + rbit)) := by rw [hp]; ring
    rw [this]; exact hneg
  · rw [if_neg h1, if_neg h2]
    have h1f : (ls && (lbit == nl - 1)) = false := by simpa using h1
    have h2f : (rs && (rbit == nr - 1)) = false := by simpa using h2
    rw [h1f, h2f]
    simp only [Bool.xor_self, Bool.false_eq_true, if_false]
    rw [← hp]; exact hpos

/-- What the naive kernel leaves in the accumulator, in terms of the stored bits:
every logical cell is overwritten with the weighted sum of the binary dot
products, reduced to `int32_t`. -/
theorem naive_cells (ctx : GEMMContext) (hnc : ctx.lhs.ncols = ctx.rhs.ncols)
    (hnca : ctx.lhs.ncols_a = ctx.rhs.ncols_a) (h64 : ctx.lhs.ncols_a % 64 = 0) :
    ∃ res, gemmBitSerial_generic_naive ctx = some res
      ∧ ∀ i, i < ctx.rhs.nrows → ∀ j, j < ctx.lhs.nrows →
        res (i * ctx.lhs.nrows + j)
          = toInt32 (∑ lbit ∈ Finset.range ctx.lhs.nbits, ∑ rbit ∈ Finset.range ctx.rhs.nbits,
              (∑ c ∈ Finset.range ctx.lhs.ncols_a,
                (if ctx.lhs.get lbit j c && ctx.rhs.get rbit i c then (1 : Int) else 0))
              * (planeWeight ctx.lhs.issigned ctx.lhs.nbits lbit
                  * planeWeight ctx.rhs.issigned ctx.rhs.nbits rbit)) := by
  unfold gemmBitSerial_generic_naive
  rw [if_neg (by rw [hnc]; exact fun h => h rfl)]
  refine ⟨_, rfl, ?_⟩
  intro i hi j hj
  dsimp only
  rw [loop_store_cell ctx.rhs.nrows ctx.lhs.nrows _ ctx.res i j hi hj]
  have hcount : ∀ lbit rbit,
      ((∑ k ∈ Finset.range ctx.lhs.wordsPerRow,
          popcountll (ctx.lhs.rowptr lbit j k &&& ctx.rhs.rowptr rbit i k) : Nat) : Int)
        = ∑ c ∈ Finset.range ctx.lhs.ncols_a,
            (if ctx.lhs.get lbit j c && ctx.rhs.get rbit i c then (1 : Int) else 0) := by
    intro lbit rbit
    push_cast
    rw [sum_words_eq_sum_bits]
    have hn : 64 * ctx.lhs.wordsPerRow = ctx.lhs.ncols_a := by
      unfold BitSerialMatrix.wordsPerRow; omega
    rw [hn]
    apply Finset.sum_congr rfl
    intro c _
    rw [rowptr_testBit, rowptr_testBit]
  have houter := loop_acc_fix ctx.lhs.nbits
    (fun lbit rr1 => loop ctx.rhs.nbits (fun rbit rr2 =>
      toInt32 (rr2 + (if xor (ctx.lhs.issigned && (lbit == ctx.lhs.nbits - 1))
            (ctx.rhs.issigned && (rbit == ctx.rhs.nbits - 1))
          then ((2 ^ 64 - (loop ctx.lhs.wordsPerRow (fun k ac =>
              (ac + popcountll (ctx.lhs.rowptr lbit j k &&& ctx.rhs.rowptr rbit i k)) % 2 ^ 64) 0
              <<< (lbit + rbit)) % 2 ^ 64) % 2 ^ 64 : Nat)
          else (loop ctx.lhs.wordsPerRow (fun k ac =>
              (ac + popcountll (ctx.lhs.rowptr lbit j k &&& ctx.rhs.rowptr rbit i k)) % 2 ^ 64) 0
              <<< (lbit + rbit)) % 2 ^ 64 : Nat))) rr1)
    (fun lbit => ∑ rbit ∈ Finset.range ctx.rhs.nbits,
      (∑ c ∈ Finset.range ctx.lhs.ncols_a,
        (if ctx.lhs.get lbit j c && ctx.rhs.get rbit i c then (1 : Int) else 0))
      * (planeWeight ctx.lhs.issigned ctx.lhs.nbits lbit
          * planeWeight ctx.rhs.issigned ctx.rhs.nbits rbit))
    0 toInt32_zero
    (by
      intro lbit _ s hs
      refine loop_acc_fix ctx.rhs.nbits _ _ s hs ?_
      intro rbit _ s2 _
      dsimp only
      rw [andcard_eq, ← hcount lbit rbit]
      exact toInt32_congr (Int.ModEq.add_left _ (naive_term_modEq _ _ _ _ _ _ _)))
  rw [zero_add] at houter
  exact houter

/-- Reference agreement away from the mixed-bipolar branch: on every context that
satisfies the invariants and is not mixed-bipolar, the tiled driver and the
naive kernel both return, and leave the same `int32_t` in every cell
`res[0 .. lhs.nrows * rhs.nrows)`, whatever the accumulator held before. -/
theorem tiled_eq_naive_of_not_mixed (ctx : GEMMContext) (hinv : ctx.Invariants)
    (hmix : ctx.mixedBipolar = false) (hbits : ctx.lhs.nbits + ctx.rhs.nbits ≤ 32) :
    ∃ r1 r2, gemmBitSerial_generic_usingBinary ctx = some r1
      ∧ gemmBitSerial_generic_naive ctx = some r2
      ∧ ∀ c, c < ctx.lhs.nrows * ctx.rhs.nrows → r1 c = r2 c := by
  obtain ⟨r1, h1, c1⟩ := usingBinary_cells ctx hinv hmix (by omega)
  obtain ⟨r2, h2, c2⟩ := naive_cells ctx hinv.2.2.1 hinv.2.2.2.1 hinv.1.1
  refine ⟨r1, r2, h1, h2, ?_⟩
  intro c hc
  have hro : 0 < ctx.lhs.nrows := by
    rcases Nat.eq_zero_or_pos ctx.lhs.nrows with h | h
    · rw [h, Nat.zero_mul] at hc; omega
    · exact h
  have hi : c / ctx.lhs.nrows < ctx.rhs.nrows := by
    rw [Nat.div_lt_iff_lt_mul hro, Nat.mul_comm]; exact hc
  have hj : c % ctx.lhs.nrows < ctx.lhs.nrows := Nat.mod_lt _ hro
  have hcell : c / ctx.lhs.nrows * ctx.lhs.nrows + c % ctx.lhs.nrows = c := by
    rw [Nat.mul_comm]; exact Nat.div_add_mod c ctx.lhs.nrows
  have e1 := c1 _ hi _ hj
  have e2 := c2 _ hi _ hj
  rw [hcell] at e1 e2
  rw [e1, e2]

/-! ## Row sums -/

/-- The popcount of a stored row counts its set bits over the allocated columns. -/
theorem rowptr_popcount (m : BitSerialMatrix) (h64 : m.ncols_a % 64 = 0) (b r : Nat) :
    (∑ c ∈ Finset.range m.wordsPerRow, (popcountll (m.rowptr b r c) : Int))
      = ∑ c ∈ Finset.range m.ncols_a, (if m.get b r c then (1 : Int) else 0) := by
  rw [sum_words_eq_sum_bits_row]
  have hn : 64 * m.wordsPerRow = m.ncols_a := by
    unfold BitSerialMatrix.wordsPerRow; omega
  rw [hn]
  apply Finset.sum_congr rfl
  intro c _
  rw [rowptr_testBit]

/-- The contribution of one bitplane to a row sum, modulo `2^32`. -/
theorem bit_acc_modEq (s : Bool) (n b : Nat) (count : Int) (hb : b < 32) :
    (if (s && (b == n - 1)) = true then toInt32 (-(shl32 (toInt32 count) b))
      else shl32 (toInt32 count) b)
      ≡ count * planeWeight s n b [ZMOD 4294967296] := by
  have hshl : shl32 (toInt32 count) b ≡ count * 2 ^ b [ZMOD 4294967296] := by
    unfold shl32
    rw [Nat.mod_eq_of_lt hb]
    exact Int.ModEq.trans (toInt32_modEq _) (Int.ModEq.mul_right _ (toInt32_modEq _))
  unfold planeWeight
  by_cases h : (s && (b == n - 1)) = true
  · rw [if_pos h, if_pos h]
    have : count * -(2 : Int) ^ b = -(count * 2 ^ b) := by ring
    rw [this]
    exact Int.ModEq.trans (toInt32_modEq _) (Int.ModEq.neg hshl)
  · rw [if_neg h, if_neg h]
    exact hshl

/-- What `sumRows_generic_naive` writes for a logical row, in terms of the stored
bits. -/
theorem sumRows_cells (t : BitSerialMatrix) (h64 : t.ncols_a % 64 = 0)
    (hbits : t.nbits ≤ 32) (sums0 : Nat → Int) :
    ∀ r, r < t.nrows →
      sumRows_generic_naive t sums0 r
        = toInt32 (∑ b ∈ Finset.range t.nbits,
            (∑ c ∈ Finset.range t.ncols_a, (if t.get b r c then (1 : Int) else 0))
              * planeWeight t.issigned t.nbits b) := by
  unfold sumRows_generic_naive
  dsimp only
  refine loop_invariant
    (fun k sums => ∀ r, r < k → sums r
      = toInt32 (∑ b ∈ Finset.range t.nbits,
          (∑ c ∈ Finset.range t.ncols_a, (if t.get b r c then (1 : Int) else 0))
            * planeWeight t.issigned t.nbits b)) t.nrows _ sums0 ?_ ?_
  · intro r hr; omega
  · intro k _ sums hsums r hr
    by_cases hrk : r = k
    · subst hrk
      rw [upd_same]
      have hbody : ∀ b, b < t.nbits → ∀ acc : Int,
          toInt32 (acc + (if (t.issigned && (b == t.nbits - 1)) = true then
              toInt32 (-(shl32 (loop t.wordsPerRow
                (fun c ba => toInt32 (ba + (popcountll (t.rowptr b r c) : Int))) 0) b))
            else shl32 (loop t.wordsPerRow
                (fun c ba => toInt32 (ba + (popcountll (t.rowptr b r c) : Int))) 0) b))
            = toInt32 (acc + (∑ c ∈ Finset.range t.ncols_a,
                (if t.get b r c then (1 : Int) else 0)) * planeWeight t.issigned t.nbits b) := by
        intro b hb acc
        rw [loop_accumulate_zero, rowptr_popcount t h64]
        exact toInt32_congr (Int.ModEq.add_left _ (bit_acc_modEq _ _ _ _ (by omega)))
      rw [loop_congr t.nbits _ (fun b acc => toInt32 (acc + (∑ c ∈ Finset.range t.ncols_a,
          (if t.get b r c then (1 : Int) else 0)) * planeWeight t.issigned t.nbits b)) 0 hbody]
      exact loop_accumulate_zero _ _
    · rw [upd_other _ _ _ _ hrk]
      exact hsums r (by omega)

/-- Exchanging the plane sum and the column sum. -/
theorem planes_to_row_values (n nc : Nat) (a : Nat → Nat → Bool) (w : Nat → Int) :
    (∑ b ∈ Finset.range n, (∑ c ∈ Finset.range nc, (if a b c then (1 : Int) else 0)) * w b)
      = ∑ c ∈ Finset.range nc, ∑ b ∈ Finset.range n, (if a b c then w b else 0) := by
  have hL : ∀ b, (∑ c ∈ Finset.range nc, (if a b c then (1 : Int) else 0)) * w b
      = ∑ c ∈ Finset.range nc, (if a b c then w b else 0) := by
    intro b
    rw [Finset.sum_mul]
    apply Finset.sum_congr rfl
    intro c _
    cases a b c <;> simp
  rw [Finset.sum_congr rfl (fun b _ => hL b)]
  exact Finset.sum_comm

/-! ## The block planner and allocation -/

theorem alignTo_some_pos {i af r : Nat} (h : alignTo i af = some r) : 0 < af := by
  unfold alignTo at h
  by_cases h0 : af = 0
  · rw [if_pos h0] at h; exact absurd h (by simp)
  · omega

/-- Without wrap-around `alignTo` rounds up to the next multiple. -/
theorem alignTo_spec {i af r : Nat} (h : alignTo i af = some r) (hnw : i + af ≤ 2 ^ 64) :
    r % af = 0 ∧ i ≤ r ∧ r < i + af := by
  have haf := alignTo_some_pos h
  unfold alignTo at h
  rw [if_neg (by omega)] at h
  by_cases hm : i % af ≠ 0
  · rw [if_pos hm] at h
    have hlt : i % af < af := Nat.mod_lt _ haf
    have hsmall : i + (af - i % af) < 2 ^ 64 := by omega
    rw [Nat.mod_eq_of_lt hsmall] at h
    have hr : r = i + (af - i % af) := by injection h with h; exact h.symm
    have hdm := Nat.div_add_mod i af
    have hmul : r = af * (i / af + 1) := by
      rw [hr, Nat.mul_add, Nat.mul_one]; omega
    refine ⟨?_, by omega, by omega⟩
    rw [hmul]; exact Nat.mul_mod_right _ _
  · rw [if_neg hm] at h
    have hr : r = i := by injection h with h; exact h.symm
    subst hr
    exact ⟨by omega, Nat.le_refl _, by omega⟩

/-- Rounding up to a multiple of 64 gives a multiple of 64, wrapped or not. -/
theorem alignTo_64 {i r : Nat} (h : alignTo i 64 = some r) : r % 64 = 0 := by
  unfold alignTo at h
  rw [if_neg (by decide)] at h
  by_cases hm : i % 64 ≠ 0
  · rw [if_pos hm] at h
    have hr : r = (i + (64 - i % 64)) % 2 ^ 64 := by injection h with h; exact h.symm
    have : (2 : Nat) ^ 64 = 18446744073709551616 := by norm_num
    rw [hr, this]; omega
  · rw [if_neg hm] at h
    have hr : r = i := by injection h with h; exact h.symm
    omega

/-- The register-only fallback: rounding the row count up to an even block, and
then up to that block. -/
theorem fallback_block {rows lb r : Nat} (hrows : rows < 2 ^ 64)
    (h1 : alignTo rows 2 = some lb) (h2 : alignTo rows lb = some r) :
    lb % 2 = 0 ∧ r % lb = 0 ∧ rows ≤ r := by
  have hlb := alignTo_some_pos h2
  have h64 : (2 : Nat) ^ 64 = 18446744073709551616 := by norm_num
  unfold alignTo at h1
  rw [if_neg (by decide)] at h1
  by_cases hm : rows % 2 ≠ 0
  · rw [if_pos hm] at h1
    have e1 : lb = (rows + (2 - rows % 2)) % 2 ^ 64 := by injection h1 with h; exact h.symm
    have e2 : lb = rows + 1 := by rw [h64] at e1 hrows; omega
    subst e2
    unfold alignTo at h2
    rw [if_neg (by omega), Nat.mod_eq_of_lt (Nat.lt_succ_self rows), if_pos (by omega)] at h2
    have e3 : r = (rows + (rows + 1 - rows)) % 2 ^ 64 := by injection h2 with h; exact h.symm
    have e4 : r = rows + 1 := by rw [h64] at e3 hrows; omega
    subst e4
    exact ⟨by omega, Nat.mod_self _, Nat.le_succ _⟩
  · rw [if_neg hm] at h1
    have e1 : lb = rows := by injection h1 with h; exact h.symm
    subst e1
    unfold alignTo at h2
    rw [if_neg (by omega), Nat.mod_self, if_neg (by simp)] at h2
    have e3 : r = lb := by injection h2 with h; exact h.symm
    subst e3
    exact ⟨by omega, Nat.mod_self _, Nat.le_refl _⟩

/-- With register block 2, `finetuneBlockSize` returns a positive even block that
does not exceed the block it started from. -/
theorem finetuneBlockSize_two {rows bs_max B : Nat} (hmax : bs_max % 2 = 0) (hpos : 0 < bs_max)
    (h : finetuneBlockSize rows bs_max 2 = some B) : B % 2 = 0 ∧ 0 < B ∧ B ≤ bs_max := by
  unfold finetuneBlockSize loopDown at h
  rw [if_neg (by decide)] at h
  cases ha : alignTo rows bs_max with
  | none => rw [ha] at h; exact absurd h (by simp)
  | some a0 =>
    rw [ha] at h
    dsimp only at h
    have hinv := loop_invariant
      (fun (_ : Nat) (st : Option (Nat × Nat)) =>
        ∀ best pen, st = some (best, pen) → best % 2 = 0 ∧ 0 < best ∧ best ≤ bs_max)
      ((bs_max - 2 + 2 - 1) / 2)
      (fun k st =>
        match st with
        | none => none
        | some (best_cand, min_penalty) =>
          if (bs_max - k * 2) % 2 = 0 then
            match alignTo rows (bs_max - k * 2) with
            | none => none
            | some a =>
              if sub64 a rows < min_penalty then some (bs_max - k * 2, sub64 a rows)
              else some (best_cand, min_penalty)
          else some (best_cand, min_penalty))
      (some (bs_max, sub64 a0 rows))
      (by
        intro best pen hst
        injection hst with hst
        injection hst with e1 e2
        subst e1
        exact ⟨hmax, hpos, Nat.le_refl _⟩)
      (by
        intro k hk st hst best pen hnew
        cases st with
        | none => exact absurd hnew (by simp)
        | some p =>
          obtain ⟨b0, p0⟩ := p
          have hold := hst b0 p0 rfl
          dsimp only at hnew
          by_cases hc : (bs_max - k * 2) % 2 = 0
          · rw [if_pos hc] at hnew
            cases hal : alignTo rows (bs_max - k * 2) with
            | none => rw [hal] at hnew; exact absurd hnew (by simp)
            | some a =>
              rw [hal] at hnew
              dsimp only at hnew
              by_cases hp : sub64 a rows < p0
              · rw [if_pos hp] at hnew
                injection hnew with hnew
                injection hnew with e1 e2
                subst e1
                exact ⟨hc, alignTo_some_pos hal, by omega⟩
              · rw [if_neg hp] at hnew
                injection hnew with hnew
                injection hnew with e1 e2
                subst e1
                exact hold
          · rw [if_neg hc] at hnew
            injection hnew with hnew
            injection hnew with e1 e2
            subst e1
            exact hold)
    cases hst : loop ((bs_max - 2 + 2 - 1) / 2)
      (fun k st =>
        match st with
        | none => none
        | some (best_cand, min_penalty) =>
          if (bs_max - k * 2) % 2 = 0 then
            match alignTo rows (bs_max - k * 2) with
            | none => none
            | some a =>
              if sub64 a rows < min_penalty then some (bs_max - k * 2, sub64 a rows)
              else some (best_cand, min_penalty)
          else some (best_cand, min_penalty))
      (some (bs_max, sub64 a0 rows)) with
    | none => rw [hst] at h; exact absurd h (by simp)
    | some p =>
      obtain ⟨b0, p0⟩ := p
      rw [hst] at h
      have hB : b0 = B := by simpa using h
      subst hB
      exact hinv b0 p0 hst

/-- The blocks that the planner settles on, with register blocks 2 and 2: both are
even, and rounding the row counts up to them gives whole numbers of blocks that
cover the rows, provided rounding up to the initial blocks of the planner does
not wrap around. -/
theorem planBlocks_spec (fpRoot : Nat → Nat → Nat → Nat → Int)
    (lhsRows rhsRows cacheBits depth_al lb rb : Nat)
    (hrows : ∀ lb0 rb0, computeBlockSize fpRoot 2 2 cacheBits depth_al = some (lb0, rb0) →
      lhsRows + lb0 ≤ 2 ^ 64 ∧ rhsRows + rb0 ≤ 2 ^ 64)
    (h : planBlocks fpRoot lhsRows rhsRows 2 2 cacheBits depth_al = some (lb, rb)) :
    lb % 2 = 0 ∧ rb % 2 = 0
      ∧ (∀ r, alignTo lhsRows lb = some r → r % lb = 0 ∧ lhsRows ≤ r)
      ∧ (∀ r, alignTo rhsRows rb = some r → r % rb = 0 ∧ rhsRows ≤ r) := by
  unfold planBlocks at h
  cases hc : computeBlockSize fpRoot 2 2 cacheBits depth_al with
  | none => rw [hc] at h; exact absurd h (by simp)
  | some p =>
    obtain ⟨lb0, rb0⟩ := p
    rw [hc] at h
    dsimp only at h
    obtain ⟨hnl, hnr⟩ := hrows lb0 rb0 hc
    have hc2 := hc
    unfold computeBlockSize at hc2
    dsimp only at hc2
    by_cases hx : 0 < fpRoot 2 2 cacheBits depth_al
    · rw [if_pos hx] at hc2
      injection hc2 with hc2
      injection hc2 with e1 e2
      have hxn : 0 < (fpRoot 2 2 cacheBits depth_al).toNat := by omega
      have hlb0 : lb0 % 2 = 0 ∧ 0 < lb0 := by omega
      have hrb0 : rb0 % 2 = 0 ∧ 0 < rb0 := by omega
      by_cases hfb : lb0 > lhsRows ∨ rb0 > rhsRows
      · rw [if_pos hfb] at h
        cases h1 : alignTo lhsRows 2 with
        | none => rw [h1] at h; exact absurd h (by simp)
        | some l1 =>
          cases h2 : alignTo rhsRows 2 with
          | none => rw [h1, h2] at h; exact absurd h (by simp)
          | some r1 =>
            rw [h1, h2] at h
            injection h with h
            injection h with e3 e4
            subst e3; subst e4
            have hL : lhsRows < 2 ^ 64 := by omega
            have hR : rhsRows < 2 ^ 64 := by omega
            refine ⟨?_, ?_, ?_, ?_⟩
            · have h64 : (2 : Nat) ^ 64 = 18446744073709551616 := by norm_num
              unfold alignTo at h1
              rw [if_neg (by decide)] at h1
              by_cases hm : lhsRows % 2 ≠ 0
              · rw [if_pos hm] at h1
                injection h1 with h1
                rw [h64] at h1; omega
              · rw [if_neg hm] at h1
                injection h1 with h1
                omega
            · have h64 : (2 : Nat) ^ 64 = 18446744073709551616 := by norm_num
              unfold alignTo at h2
              rw [if_neg (by decide)] at h2
              by_cases hm : rhsRows % 2 ≠ 0
              · rw [if_pos hm] at h2
                injection h2 with h2
                rw [h64] at h2; omega
              · rw [if_neg hm] at h2
                injection h2 with h2
                omega
            · intro r hr; exact (fallback_block hL h1 hr).2
            · intro r hr; exact (fallback_block hR h2 hr).2
      · rw [if_neg hfb] at h
        cases h1 : alignTo lhsRows lb0 with
        | none => rw [h1] at h; exact absurd h (by simp)
        | some al =>
          cases h2 : alignTo rhsRows rb0 with
          | none => rw [h1, h2] at h; exact absurd h (by simp)
          | some ar =>
            rw [h1, h2] at h
            dsimp only at h
            have hL : ∀ B, (if 10 * sub64 al lhsRows > lhsRows
                then finetuneBlockSize lhsRows lb0 2 else some lb0) = some B →
                B % 2 = 0 ∧ 0 < B ∧ B ≤ lb0 := by
              intro B hB
              by_cases hp : 10 * sub64 al lhsRows > lhsRows
              · rw [if_pos hp] at hB
                exact finetuneBlockSize_two hlb0.1 hlb0.2 hB
              · rw [if_neg hp] at hB
                injection hB with hB
                subst hB
                exact ⟨hlb0.1, hlb0.2, Nat.le_refl _⟩
            have hR : ∀ B, (if 10 * sub64 ar rhsRows > rhsRows
                then finetuneBlockSize rhsRows rb0 2 else some rb0) = some B →
                B % 2 = 0 ∧ 0 < B ∧ B ≤ rb0 := by
              intro B hB
              by_cases hp : 10 * sub64 ar rhsRows > rhsRows
              · rw [if_pos hp] at hB
                exact finetuneBlockSize_two hrb0.1 hrb0.2 hB
              · rw [if_neg hp] at hB
                injection hB with hB
                subst hB
                exact ⟨hrb0.1, hrb0.2, Nat.le_refl _⟩
            cases h3 : (if 10 * sub64 al lhsRows > lhsRows
                then finetuneBlockSize lhsRows lb0 2 else some lb0) with
            | none => rw [h3] at h; exact absurd h (by simp)
            | some l1 =>
              cases h4 : (if 10 * sub64 ar rhsRows > rhsRows
                  then finetuneBlockSize rhsRows rb0 2 else some rb0) with
              | none => rw [h3, h4] at h; exact absurd h (by simp)
              | some r1 =>
                rw [h3, h4] at h
                injection h with h
                injection h with e3 e4
                subst e3; subst e4
                obtain ⟨a1, a2, a3⟩ := hL _ h3
                obtain ⟨b1, b2, b3⟩ := hR _ h4
                refine ⟨a1, b1, ?_, ?_⟩
                · intro r hr
                  have := alignTo_spec hr (by omega)
                  exact ⟨this.1, this.2.1⟩
                · intro r hr
                  have := alignTo_spec hr (by omega)
                  exact ⟨this.1, this.2.1⟩
    · rw [if_neg hx] at hc2
      exact absurd hc2 (by simp)

/-- On a context whose blocks are positive, even and divide the allocated row
counts, and whose operands have the same inner dimension, no assertion of the
tiled driver fails. -/
theorem usingBinary_asserts (ctx : GEMMContext) (hnc : ctx.lhs.ncols = ctx.rhs.ncols)
    (hl0 : 0 < ctx.lhsBlock) (hr0 : 0 < ctx.rhsBlock)
    (hdl : ctx.lhs.nrows_a % ctx.lhsBlock = 0) (hdr : ctx.rhs.nrows_a % ctx.rhsBlock = 0)
    (hel : ctx.lhsBlock % 2 = 0) (her : ctx.rhsBlock % 2 = 0) :
    ∃ res, gemmBitSerial_generic_usingBinary ctx = some res := by
  refine ⟨loop ctx.lhs.nbits (fun lbit CT1 => loop ctx.rhs.nbits (fun rbit CT2 =>
      addRect (ctx.lhs.bitplaneptr lbit) (ctx.rhs.bitplaneptr rbit) ctx.lhs.wordsPerRow
        (if xor (ctx.rhs.issigned && (rbit == ctx.rhs.nbits - 1))
              (ctx.lhs.issigned && (lbit == ctx.lhs.nbits - 1))
          then toInt32 (-(shl32 1 (lbit + rbit))) else shl32 1 (lbit + rbit))
        ctx.lhs.nrows ctx.rhs.nrows 0 ctx.rhs.nrows_a 0 ctx.lhs.nrows_a CT2) CT1)
      (prepareAccumulators ctx), ?_⟩
  unfold gemmBitSerial_generic_usingBinary
  rw [if_neg (by rw [hnc]; exact fun h => h rfl)]
  dsimp only
  apply loop_some
  intro lbit _ t
  apply loop_some
  intro rbit _ t2
  exact L1_eq_addRect _ _ _ _ _ _ _ _ _ _ _ hl0 hr0 hdr hdl hel her

theorem alloc_some {nbits nrows ncols rowalign colalign : Nat} {issigned : Bool}
    {data : Nat → Nat} {m : BitSerialMatrix}
    (h : BitSerialMatrix.alloc nbits nrows ncols issigned rowalign colalign data = some m) :
    alignTo nrows rowalign = some m.nrows_a ∧ alignTo ncols colalign = some m.ncols_a
      ∧ m.nrows = nrows ∧ m.ncols = ncols ∧ m.nbits = nbits ∧ m.issigned = issigned := by
  unfold BitSerialMatrix.alloc at h
  cases h1 : alignTo nrows rowalign with
  | none => rw [h1] at h; exact absurd h (by simp)
  | some a =>
    cases h2 : alignTo ncols colalign with
    | none => rw [h1, h2] at h; exact absurd h (by simp)
    | some b =>
      rw [h1, h2] at h
      injection h with h
      subst h
      exact ⟨rfl, rfl, rfl, rfl, rfl, rfl⟩

/-- Allocation establishes the context invariants: when neither the row counts
nor the depth wrap around on rounding up, every context that
`allocGEMMContext_generic` returns satisfies `GEMMContext.Invariants`, whatever
the planner root is. -/
theorem alloc_invariants (fpRoot : Nat → Nat → Nat → Nat → Int)
    (lhsRows depth rhsRows lhsBits rhsBits : Nat) (lhsSigned rhsSigned : Bool)
    (lhsData rhsData : Nat → Nat) (res : Nat → Int) (ctx : GEMMContext)
    (hrows : ∀ d lb0 rb0, computeBlockSize fpRoot 2 2 (32 * 1024 * 8) d = some (lb0, rb0) →
      lhsRows + lb0 ≤ 2 ^ 64 ∧ rhsRows + rb0 ≤ 2 ^ 64)
    (hdepth : depth + 64 ≤ 2 ^ 64)
    (h : allocGEMMContext_generic fpRoot lhsRows depth rhsRows lhsBits rhsBits lhsSigned
      rhsSigned lhsData rhsData res = some ctx) :
    ctx.Invariants := by
  unfold allocGEMMContext_generic allocGEMMContext_base at h
  cases hd : alignTo depth (1 * 64) with
  | none => rw [hd] at h; exact absurd h (by simp)
  | some depth_al =>
    rw [hd] at h
    dsimp only at h
    cases hp : planBlocks fpRoot lhsRows rhsRows 2 2 (32 * 1024 * 8) depth_al with
    | none => rw [hp] at h; exact absurd h (by simp)
    | some p =>
      obtain ⟨lb, rb⟩ := p
      rw [hp] at h
      dsimp only at h
      cases hl : BitSerialMatrix.alloc lhsBits lhsRows depth lhsSigned lb (1 * 64) lhsData with
      | none => rw [hl] at h; exact absurd h (by simp)
      | some lhs =>
        cases hr : BitSerialMatrix.alloc rhsBits rhsRows depth rhsSigned rb (1 * 64)
            rhsData with
        | none => rw [hl, hr] at h; exact absurd h (by simp)
        | some rhs =>
          rw [hl, hr] at h
          injection h with h
          subst h
          obtain ⟨l1, l2, l3, l4, _, _⟩ := alloc_some hl
          obtain ⟨r1, r2, r3, r4, _, _⟩ := alloc_some hr
          obtain ⟨p1, p2, p3, p4⟩ := planBlocks_spec fpRoot lhsRows rhsRows (32 * 1024 * 8)
            depth_al lb rb (hrows depth_al) hp
          have hca : lhs.ncols_a = rhs.ncols_a := by
            have := l2.symm.trans r2
            injection this
          have hcl := alignTo_spec l2 hdepth
          have hcr := alignTo_spec r2 hdepth
          unfold GEMMContext.Invariants BitSerialMatrix.WF
          dsimp only
          refine ⟨⟨hcl.1, ?_, ?_⟩, ⟨hcr.1, ?_, ?_⟩, by rw [l4, r4], hca, alignTo_some_pos l1,
            alignTo_some_pos r1, (p3 _ l1).1, (p4 _ r1).1, p1, p2⟩
          · rw [l3]; exact (p3 _ l1).2
          · rw [l4]; exact hcl.2.1
          · rw [r3]; exact (p4 _ r1).2
          · rw [r4]; exact hcr.2.1

/-! ## unset -/

theorem sameShape_unset {m t : BitSerialMatrix} (h : m.SameShape t) (b r c : Nat) :
    m.SameShape (t.unset b r c) := h

theorem testBit_clear_mask (p q : Nat) (hp : p < 64) :
    (2 ^ 64 - 1 - 2 ^ p).testBit q = (decide (q < 64) && !decide (p = q)) := by
  have hlt : 2 ^ p < 2 ^ 64 := Nat.pow_lt_pow_right (by decide) hp
  have e : 2 ^ 64 - 1 - 2 ^ p = 2 ^ 64 - (2 ^ p + 1) := by omega
  rw [e, Nat.testBit_two_pow_sub_succ hlt, Nat.testBit_two_pow]

/-- The member `unset` turns off its own bit and leaves every other in-range bit as
it was. -/
theorem get_unset (t : BitSerialMatrix) {b r c b2 r2 c2 : Nat} (h64 : t.ncols_a % 64 = 0)
    (hr : r < t.nrows_a) (hc : c < t.ncols_a) (hr2 : r2 < t.nrows_a) (hc2 : c2 < t.ncols_a) :
    ((t.unset b2 r2 c2).get b r c = true)
      ↔ (t.get b r c = true ∧ ¬ (b = b2 ∧ r = r2 ∧ c = c2)) := by
  have hidx : (t.unset b2 r2 c2).wordIndex b r c = t.wordIndex b r c :=
    wordIndex_sameShape (sameShape_unset (sameShape_refl t) b2 r2 c2) b r c
  rw [get_eq_testBit, get_eq_testBit, hidx]
  show (upd t.data (t.wordIndex b2 r2 c2)
      (t.word b2 r2 c2 &&& (2 ^ 64 - 1 - (1 <<< BitSerialMatrix.bitpos c2))) (t.wordIndex b r c)).testBit
        (c % 64) = true ↔ _
  have hq : c % 64 < 64 := Nat.mod_lt _ (by decide)
  by_cases hw : t.wordIndex b r c = t.wordIndex b2 r2 c2
  · rw [hw, upd_same, Nat.testBit_and, bitpos_eq, Nat.one_shiftLeft,
      testBit_clear_mask _ _ (Nat.mod_lt _ (by decide))]
    unfold BitSerialMatrix.word
    by_cases hp : c % 64 = c2 % 64
    · obtain ⟨e1, e2, e3⟩ := wordIndex_inj t h64 hr hc hr2 hc2 hw hp
      simp [e1, e2, e3]
    · have hp2 : ¬ (c2 % 64 = c % 64) := fun h => hp h.symm
      have hne : ¬ (b = b2 ∧ r = r2 ∧ c = c2) := fun h => hp (by rw [h.2.2])
      simp [hp2, hne, hq]
  · rw [upd_other _ _ _ _ hw]
    have hne : ¬ (b = b2 ∧ r = r2 ∧ c = c2) := fun h => hw (by rw [h.1, h.2.1, h.2.2])
    simp [hne]

/-! ## The search of `finetuneBlockSize` -/

theorem alignTo_of_pos (i af : Nat) (h : 0 < af) : ∃ r, alignTo i af = some r := by
  unfold alignTo
  rw [if_neg (by omega)]
  split
  · exact ⟨_, rfl⟩
  · exact ⟨_, rfl⟩

theorem penalty_of_pos (rows c : Nat) (h : 0 < c) :
    ∃ a, alignTo rows c = some a ∧ penalty rows c = some (sub64 a rows) := by
  obtain ⟨a, ha⟩ := alignTo_of_pos rows c h
  exact ⟨a, ha, by unfold penalty; rw [ha]; rfl⟩

theorem finetune_trips (d q : Nat) (hd : 0 < d) (hq : 0 < q) :
    (q * d - d + d - 1) / d = q - 1 := by
  obtain ⟨n, rfl⟩ : ∃ n, q = n + 1 := ⟨q - 1, by omega⟩
  have e : (n + 1) * d - d + d - 1 = (d - 1) + d * n := by
    rw [Nat.add_mul, Nat.one_mul, Nat.mul_comm d n]
    generalize n * d = m
    omega
  rw [e, Nat.add_mul_div_left _ _ hd, Nat.div_eq_of_lt (by omega)]
  omega

/-- The search of `finetuneBlockSize` from `q * d` in steps of `d`: it returns the
candidate `(q - kb) * d` of some visited index `kb` (or the start, `kb = 0`),
whose padding is minimal among the visited candidates, and no earlier (that
is, larger) candidate has the same padding. -/
theorem finetune_loop (rows d q : Nat) (hd : 0 < d) (hq : 0 < q) :
    ∃ kb, finetuneBlockSize rows (q * d) d = some ((q - kb) * d)
      ∧ (kb = 0 ∨ kb < q - 1)
      ∧ ∀ k, (k = 0 ∨ k < q - 1) →
          (penalty rows ((q - kb) * d)).getD 0 ≤ (penalty rows ((q - k) * d)).getD 0
          ∧ ((penalty rows ((q - k) * d)).getD 0 = (penalty rows ((q - kb) * d)).getD 0
              → kb ≤ k) := by
  obtain ⟨a0, ha0, hp0⟩ := penalty_of_pos rows (q * d) (Nat.mul_pos hq hd)
  have hinv := loop_invariant
    (fun (n : Nat) (st : Option (Nat × Nat)) =>
      ∃ kb, st = some ((q - kb) * d, (penalty rows ((q - kb) * d)).getD 0)
        ∧ (kb = 0 ∨ kb < n)
        ∧ ∀ k, (k = 0 ∨ k < n) →
            (penalty rows ((q - kb) * d)).getD 0 ≤ (penalty rows ((q - k) * d)).getD 0
            ∧ ((penalty rows ((q - k) * d)).getD 0 = (penalty rows ((q - kb) * d)).getD 0
                → kb ≤ k))
    (q - 1)
    (fun k st =>
      match st with
      | none => none
      | some (best_cand, min_penalty) =>
        if (q * d - k * d) % d = 0 then
          match alignTo rows (q * d - k * d) with
          | none => none
          | some a =>
            if sub64 a rows < min_penalty then some (q * d - k * d, sub64 a rows)
            else some (best_cand, min_penalty)
        else some (best_cand, min_penalty))
    (some (q * d, sub64 a0 rows))
    (by
      refine ⟨0, ?_, Or.inl rfl, ?_⟩
      · rw [Nat.sub_zero, hp0]; rfl
      · intro k hk
        rcases hk with hk | hk
        · subst hk
          exact ⟨Nat.le_refl _, fun _ => Nat.le_refl _⟩
        · exact absurd hk (Nat.not_lt_zero _))
    (by
      intro k hk st hst
      obtain ⟨kb, hs, hkb, hall⟩ := hst
      subst hs
      have ec : q * d - k * d = (q - k) * d := (Nat.sub_mul q k d).symm
      have hpos : 0 < (q - k) * d := Nat.mul_pos (by omega) hd
      obtain ⟨a, ha, hp⟩ := penalty_of_pos rows ((q - k) * d) hpos
      have hpk : (penalty rows ((q - k) * d)).getD 0 = sub64 a rows := by rw [hp]; rfl
      show ∃ kb2, (if (q * d - k * d) % d = 0 then
          match alignTo rows (q * d - k * d) with
          | none => none
          | some a =>
            if sub64 a rows < (penalty rows ((q - kb) * d)).getD 0 then
              some (q * d - k * d, sub64 a rows)
            else some ((q - kb) * d, (penalty rows ((q - kb) * d)).getD 0)
        else some ((q - kb) * d, (penalty rows ((q - kb) * d)).getD 0)) = _ ∧ _
      rw [ec, if_pos (Nat.mul_mod_left _ _), ha]
      dsimp only
      by_cases hlt : sub64 a rows < (penalty rows ((q - kb) * d)).getD 0
      · rw [if_pos hlt]
        refine ⟨k, by rw [hpk], Or.inr (Nat.lt_succ_self k), ?_⟩
        intro j hj
        rw [hpk]
        by_cases hjk : j = k
        · subst hjk
          exact ⟨by rw [hpk], fun _ => Nat.le_refl _⟩
        · have hj2 : j = 0 ∨ j < k := by omega
          have h := (hall j hj2).1
          exact ⟨by omega, fun he => by omega⟩
      · rw [if_neg hlt]
        refine ⟨kb, rfl, by omega, ?_⟩
        intro j hj
        by_cases hjk : j = k
        · subst hjk
          rw [hpk]
          exact ⟨by omega, fun _ => by omega⟩
        · exact hall j (by omega))
  obtain ⟨kb, hst, hkb, hall⟩ := hinv
  refine ⟨kb, ?_, hkb, hall⟩
  unfold finetuneBlockSize loopDown
  rw [if_neg (by omega), ha0]
  dsimp only
  rw [finetune_trips d q hd hq]
  exact congrArg (Option.map Prod.fst) hst

/-! ## Index safety of the kernels -/

theorem readAt_of_lt {α : Type} {size i : Nat} (buf : Nat → α) (h : i < size) :
    readAt size buf i = some (buf i) := if_pos h

theorem writeAt_of_lt {α : Type} {size i : Nat} (buf : Nat → α) (v : α) (h : i < size) :
    writeAt size buf i v = some (upd buf i v) := if_pos h

/-- A failing loop whose body succeeds in every round is the plain loop. -/
theorem loopM_some {σ : Type} (n : Nat) (f : Nat → σ → Option σ) (g : Nat → σ → σ) (s : σ)
    (h : ∀ k, k < n → ∀ t, f k t = some (g k t)) : loopM n f s = some (loop n g s) := by
  unfold loopM
  induction n with
  | zero => rfl
  | succ m ih =>
    rw [loop_succ, ih (fun k hk => h k (Nat.lt_succ_of_lt hk)), loop_succ]
    exact h m (Nat.lt_succ_self m) _

theorem loopFromM_some {σ : Type} (start stop step : Nat) (f : Nat → σ → Option σ)
    (g : Nat → σ → σ) (s : σ)
    (h : ∀ k, k < (stop - start + step - 1) / step → ∀ t,
      f (start + k * step) t = some (g (start + k * step) t)) :
    loopFromM start stop step f s = some (loopFrom start stop step g s) :=
  loopM_some _ _ _ s h

/-- Round `k` of a loop over the blocks of `n` rows starts a block that lies within
the `n` rows. -/
theorem block_within (n d k : Nat) (hd : 0 < d) (hm : n % d = 0)
    (hk : k < (n - 0 + d - 1) / d) : 0 + k * d + d ≤ n := by
  obtain ⟨q, hq⟩ := Nat.dvd_of_mod_eq_zero hm
  subst hq
  have h1 : (k + 1) * d ≤ d * q - 0 + d - 1 := (Nat.le_div_iff_mul_le hd).1 hk
  have hkq : k < q := by
    by_contra hc
    have h2 : (q + 1) * d ≤ (k + 1) * d := Nat.mul_le_mul_right _ (by omega)
    rw [Nat.add_mul, Nat.one_mul, Nat.mul_comm q d] at h2
    omega
  have h3 : (k + 1) * d ≤ q * d := Nat.mul_le_mul_right _ hkq
  rw [Nat.add_mul, Nat.one_mul, Nat.mul_comm q d] at h3
  omega

/-- Within the rows of its operands the chunk kernel makes no access out of
range. -/
theorem chunk_checked (A BT : Nat → Nat) (CT : Nat → Int) (alpha : Int)
    (rowsA dw rowsBT bA bBT lb rb ro rt : Nat) (hlb : lb % 2 = 0) (hrb : rb % 2 = 0)
    (hA : bA + lb ≤ rowsA) (hBT : bBT + rb ≤ rowsBT) :
    gemmBinary_generic_chunk_tile2x1x2_checked (rowsA * dw) (rowsBT * dw) (ro * rt)
        A BT CT alpha rowsA dw rowsBT bA bBT lb rb ro rt
      = some (gemmBinary_generic_chunk_tile2x1x2 A BT CT alpha rowsA dw rowsBT bA bBT lb rb
          ro rt) := by
  unfold gemmBinary_generic_chunk_tile2x1x2_checked gemmBinary_generic_chunk_tile2x1x2
  dsimp only
  apply loopFromM_some
  intro k1 hk1 CT1
  apply loopFromM_some
  intro k2 hk2 CT2
  have hr1 : bBT + k1 * 2 + 1 < rowsBT := by omega
  have hr2 : bA + k2 * 2 + 1 < rowsA := by omega
  have hacc := loopM_some dw
    (fun d acc =>
      (readAt (rowsA * dw) A ((bA + k2 * 2) * dw + d)).bind fun a0 =>
      (readAt (rowsA * dw) A ((bA + k2 * 2) * dw + (d + dw))).bind fun a1 =>
      (readAt (rowsBT * dw) BT ((bBT + k1 * 2) * dw + d)).bind fun b0 =>
      (readAt (rowsBT * dw) BT ((bBT + k1 * 2) * dw + (d + dw))).bind fun b1 =>
        let acc := upd acc 0 (toInt32 (acc 0 + popcountll (a0 &&& b0)))
        let acc := upd acc 1 (toInt32 (acc 1 + popcountll (a0 &&& b1)))
        let acc := upd acc 2 (toInt32 (acc 2 + popcountll (a1 &&& b0)))
        some (upd acc 3 (toInt32 (acc 3 + popcountll (a1 &&& b1)))))
    (fun d acc =>
      let a0 := A ((bA + k2 * 2) * dw + d)
      let a1 := A ((bA + k2 * 2) * dw + (d + dw))
      let b0 := BT ((bBT + k1 * 2) * dw + d)
      let b1 := BT ((bBT + k1 * 2) * dw + (d + dw))
      let acc := upd acc 0 (toInt32 (acc 0 + popcountll (a0 &&& b0)))
      let acc := upd acc 1 (toInt32 (acc 1 + popcountll (a0 &&& b1)))
      let acc := upd acc 2 (toInt32 (acc 2 + popcountll (a1 &&& b0)))
      upd acc 3 (toInt32 (acc 3 + popcountll (a1 &&& b1))))
    (fun _ => 0)
    (by
      intro d hd acc
      have e : ∀ r, r * dw + (d + dw) = (r + 1) * dw + d := fun r => by ring
      have i1 : (bA + k2 * 2) * dw + d < rowsA * dw := index_lt_of_row_lt (by omega) hd
      have i2 : (bA + k2 * 2) * dw + (d + dw) < rowsA * dw := by
        rw [e]; exact index_lt_of_row_lt hr2 hd
      have i3 : (bBT + k1 * 2) * dw + d < rowsBT * dw := index_lt_of_row_lt (by omega) hd
      have i4 : (bBT + k1 * 2) * dw + (d + dw) < rowsBT * dw := by
        rw [e]; exact index_lt_of_row_lt hr1 hd
      show (readAt _ _ _).bind _ = _
      rw [readAt_of_lt A i1, Option.some_bind, readAt_of_lt A i2, Option.some_bind,
        readAt_of_lt BT i3, Option.some_bind, readAt_of_lt BT i4, Option.some_bind])
  show (loopM dw _ _).bind _ = _
  rw [hacc, Option.some_bind]
  apply loopM_some
  intro ta _ CT3
  apply loopM_some
  intro tb _ CT4
  by_cases hg : bBT + k1 * 2 + tb < rt ∧ bA + k2 * 2 + ta < ro
  · have i5 : (bBT + k1 * 2 + tb) * ro + (bA + k2 * 2 + ta) < ro * rt := by
      rw [Nat.mul_comm ro rt]
      exact index_lt_of_row_lt hg.1 hg.2
    show (if _ then _ else _) = some (if _ then _ else _)
    rw [if_pos hg, if_pos hg, readAt_of_lt CT4 i5, Option.some_bind, writeAt_of_lt CT4 _ i5]
  · show (if _ then _ else _) = some (if _ then _ else _)
    rw [if_neg hg, if_neg hg]

/-- Under its assertions the cache-blocked kernel makes no access out of range: with
every access checked it returns what the kernel returns. -/
theorem L1_checked (A BT : Nat → Nat) (CT : Nat → Int) (alpha : Int)
    (rowsA dw rowsBT ro rt lhsBlock rhsBlock : Nat)
    (hl0 : 0 < lhsBlock) (hr0 : 0 < rhsBlock)
    (h1 : rowsBT % rhsBlock = 0) (h2 : rowsA % lhsBlock = 0)
    (h3 : lhsBlock % 2 = 0) (h4 : rhsBlock % 2 = 0) :
    gemmBinary_generic_L1_tile2x1x2_checked (rowsA * dw) (rowsBT * dw) (ro * rt)
        A BT CT alpha rowsA dw rowsBT ro rt lhsBlock rhsBlock
      = gemmBinary_generic_L1_tile2x1x2 A BT CT alpha rowsA dw rowsBT ro rt lhsBlock
          rhsBlock := by
  have hz : ¬ (rhsBlock = 0 ∨ lhsBlock = 0) := by omega
  have n1 : ¬ (rowsBT % rhsBlock ≠ 0) := fun h => h h1
  have n2 : ¬ (rowsA % lhsBlock ≠ 0) := fun h => h h2
  have n3 : ¬ (lhsBlock % 2 ≠ 0) := fun h => h h3
  have n4 : ¬ (rhsBlock % 2 ≠ 0) := fun h => h h4
  unfold gemmBinary_generic_L1_tile2x1x2_checked gemmBinary_generic_L1_tile2x1x2
  rw [if_neg hz, if_neg n1, if_neg n2, if_neg n3, if_neg n4]
  rw [if_neg hz, if_neg n1, if_neg n2, if_neg n3, if_neg n4]
  apply loopFromM_some
  intro k1 hk1 CT1
  apply loopFromM_some
  intro k2 hk2 CT2
  exact chunk_checked A BT CT2 alpha rowsA dw rowsBT (0 + k2 * lhsBlock) (0 + k1 * rhsBlock)
    lhsBlock rhsBlock ro rt h3 h4 (block_within rowsA lhsBlock k2 hl0 h2 hk2)
    (block_within rowsBT rhsBlock k1 hr0 h1 hk1)

/-! ## Bit-planes of the driver -/

theorem sameShape_zeroPlane (m : BitSerialMatrix) (b : Nat) : m.SameShape (m.zeroPlane b) :=
  ⟨rfl, rfl, rfl, rfl, rfl, rfl⟩

/-- The bits of a matrix with one plane zeroed. -/
theorem get_zeroPlane (m : BitSerialMatrix) (h64 : m.ncols_a % 64 = 0) (b b2 r c : Nat)
    (hr : r < m.nrows_a) (hc : c < m.ncols_a) :
    (m.zeroPlane b).get b2 r c = (if b2 = b then false else m.get b2 r c) := by
  rw [get_eq_testBit, get_eq_testBit, wordIndex_sameShape (sameShape_zeroPlane m b)]
  show (if b * m.wordsPerBitplane ≤ m.wordIndex b2 r c
      ∧ m.wordIndex b2 r c < (b + 1) * m.wordsPerBitplane then 0
      else m.data (m.wordIndex b2 r c)).testBit (c % 64) = _
  have hlo : b2 * m.wordsPerBitplane ≤ m.wordIndex b2 r c := by
    unfold BitSerialMatrix.wordIndex; omega
  have hhi : m.wordIndex b2 r c < (b2 + 1) * m.wordsPerBitplane := by
    have h := wordIndex_lt ⟨m.issigned, b2 + 1, m.nrows, m.ncols, m.nrows_a, m.ncols_a, m.data⟩
      (b := b2) (r := r) (c := c) h64 (Nat.lt_succ_self b2) hr hc
    exact h
  by_cases hb : b2 = b
  · subst hb
    rw [if_pos ⟨hlo, hhi⟩, if_pos rfl, Nat.zero_testBit]
  · rw [if_neg hb, if_neg]
    rintro ⟨h1, h2⟩
    rcases Nat.lt_or_gt_of_ne hb with hlt | hgt
    · have h3 : (b2 + 1) * m.wordsPerBitplane ≤ b * m.wordsPerBitplane :=
        Nat.mul_le_mul_right _ hlt
      omega
    · have h3 : (b + 1) * m.wordsPerBitplane ≤ b2 * m.wordsPerBitplane :=
        Nat.mul_le_mul_right _ hgt
      omega

theorem modEq_sum_range (n : Nat) (f g : Nat → Int)
    (h : ∀ k, k < n → f k ≡ g k [ZMOD 4294967296]) :
    ∑ k ∈ Finset.range n, f k ≡ ∑ k ∈ Finset.range n, g k [ZMOD 4294967296] := by
  induction n with
  | zero => exact Int.ModEq.refl _
  | succ m ih =>
    rw [Finset.sum_range_succ, Finset.sum_range_succ]
    exact Int.ModEq.add (ih (fun k hk => h k (Nat.lt_succ_of_lt hk))) (h m (Nat.lt_succ_self m))

/-- For a shift count below 32 the scale of a pair of planes is plus or minus
`2^(lbit + rbit)` modulo `2^32`, with the sign of the driver. -/
theorem planeAlpha_modEq (ctx : GEMMContext) (lbit rbit : Nat) (hs : lbit + rbit < 32) :
    planeAlpha ctx lbit rbit
      ≡ planeWeight ctx.lhs.issigned ctx.lhs.nbits lbit
          * planeWeight ctx.rhs.issigned ctx.rhs.nbits rbit [ZMOD 4294967296] :=
  alpha_modEq ctx.lhs.issigned ctx.rhs.issigned ctx.lhs.nbits ctx.rhs.nbits lbit rbit hs

/-- One call of the binary kernel from the driver: it passes its assertions and
adds to every logical cell the count of the columns where both planes have
their bit set, scaled by the `alpha` of the pair. -/
theorem planeStep_cells (ctx : GEMMContext) (hinv : ctx.Invariants) (lbit rbit : Nat)
    (CT : Nat → Int) :
    ∃ K, planeStep ctx lbit rbit CT = some K
      ∧ ∀ i, i < ctx.rhs.nrows → ∀ j, j < ctx.lhs.nrows →
        K (i * ctx.lhs.nrows + j)
          = toInt32 (CT (i * ctx.lhs.nrows + j)
              + (∑ c ∈ Finset.range ctx.lhs.ncols_a,
                  (if ctx.lhs.get lbit j c && ctx.rhs.get rbit i c then (1 : Int) else 0))
                * planeAlpha ctx lbit rbit) := by
  obtain ⟨hwl, hwr, hnc, hnca, hl0, hr0, hdl, hdr, hel, her⟩ := hinv
  refine ⟨_, L1_eq_addRect _ _ _ _ _ _ _ _ _ _ _ hl0 hr0 hdr hdl hel her, ?_⟩
  intro i hi j hj
  have hro : 0 < ctx.lhs.nrows := by omega
  have hdiv : (i * ctx.lhs.nrows + j) / ctx.lhs.nrows = i := by
    rw [Nat.mul_comm, Nat.mul_add_div hro, Nat.div_eq_of_lt hj]; rfl
  have hmod : (i * ctx.lhs.nrows + j) % ctx.lhs.nrows = j := by
    rw [Nat.mul_comm, Nat.mul_add_mod, Nat.mod_eq_of_lt hj]
  have hia : i < ctx.rhs.nrows_a := Nat.lt_of_lt_of_le hi hwr.2.1
  have hja : j < ctx.lhs.nrows_a := Nat.lt_of_lt_of_le hj hwl.2.1
  unfold addRect
  rw [hdiv, hmod, if_pos ⟨hro, Nat.zero_le _, hia, hi, Nat.zero_le _, hja⟩,
    dotWords_planes ctx.lhs ctx.rhs hnca hwl.1]

/-- The same call for a shift count below 32, with the scale written as the product
of the two plane weights. -/
theorem planeStep_cells_weight (ctx : GEMMContext) (hinv : ctx.Invariants) (lbit rbit : Nat)
    (hs : lbit + rbit < 32) (CT : Nat → Int) :
    ∃ K, planeStep ctx lbit rbit CT = some K
      ∧ ∀ i, i < ctx.rhs.nrows → ∀ j, j < ctx.lhs.nrows →
        K (i * ctx.lhs.nrows + j)
          = toInt32 (CT (i * ctx.lhs.nrows + j)
              + (∑ c ∈ Finset.range ctx.lhs.ncols_a,
                  (if ctx.lhs.get lbit j c && ctx.rhs.get rbit i c then (1 : Int) else 0))
                * (planeWeight ctx.lhs.issigned ctx.lhs.nbits lbit
                    * planeWeight ctx.rhs.issigned ctx.rhs.nbits rbit)) := by
  obtain ⟨K, hK, hc⟩ := planeStep_cells ctx hinv lbit rbit CT
  refine ⟨K, hK, ?_⟩
  intro i hi j hj
  rw [hc i hi j hj]
  exact toInt32_congr (Int.ModEq.add_left _ (Int.ModEq.mul_left _
    (planeAlpha_modEq ctx lbit rbit hs)))

/-! ## Linearity of the driver in the bit-planes -/

/-- The count of the columns where two planes have their bit set, when the plane on
the left is taken from a matrix with plane `b` zeroed. -/
theorem count_zeroPlane_left (lhs rhs : BitSerialMatrix) (h64 : lhs.ncols_a % 64 = 0)
    (b l r i j : Nat) (hj : j < lhs.nrows_a) :
    (∑ c ∈ Finset.range lhs.ncols_a,
        (if (lhs.zeroPlane b).get l j c && rhs.get r i c then (1 : Int) else 0))
      = if l = b then 0
        else ∑ c ∈ Finset.range lhs.ncols_a,
          (if lhs.get l j c && rhs.get r i c then (1 : Int) else 0) := by
  by_cases hl : l = b
  · rw [if_pos hl]
    apply Finset.sum_eq_zero
    intro c hc
    rw [get_zeroPlane lhs h64 b l j c hj (Finset.mem_range.1 hc), if_pos hl]
    rfl
  · rw [if_neg hl]
    apply Finset.sum_congr rfl
    intro c hc
    rw [get_zeroPlane lhs h64 b l j c hj (Finset.mem_range.1 hc), if_neg hl]

theorem count_zeroPlane_right (lhs rhs : BitSerialMatrix) (h64 : rhs.ncols_a % 64 = 0)
    (hA : lhs.ncols_a = rhs.ncols_a) (b l r i j : Nat) (hi : i < rhs.nrows_a) :
    (∑ c ∈ Finset.range lhs.ncols_a,
        (if lhs.get l j c && (rhs.zeroPlane b).get r i c then (1 : Int) else 0))
      = if r = b then 0
        else ∑ c ∈ Finset.range lhs.ncols_a,
          (if lhs.get l j c && rhs.get r i c then (1 : Int) else 0) := by
  by_cases hr : r = b
  · rw [if_pos hr]
    apply Finset.sum_eq_zero
    intro c hc
    rw [get_zeroPlane rhs h64 b r i c hi (by rw [← hA]; exact Finset.mem_range.1 hc), if_pos hr,
      Bool.and_false]
    rfl
  · rw [if_neg hr]
    apply Finset.sum_congr rfl
    intro c hc
    rw [get_zeroPlane rhs h64 b r i c hi (by rw [← hA]; exact Finset.mem_range.1 hc), if_neg hr]

/-- A sum over a range loses exactly its term at `b` when that term is replaced by
zero. -/
theorem sum_sub_sum_without (n b : Nat) (hb : b < n) (f : Nat → Int) :
    (∑ k ∈ Finset.range n, f k) - (∑ k ∈ Finset.range n, (if k = b then 0 else f k)) = f b := by
  rw [← Finset.sum_sub_distrib, Finset.sum_eq_single b]
  · rw [if_pos rfl, sub_zero]
  · intro k _ hk
    rw [if_neg hk, sub_self]
  · intro h
    exact absurd (Finset.mem_range.2 hb) h

/-- Zeroing plane `b` of the left-hand side lowers the result of the driver, cell by
cell modulo `2^32`, by the sum of the outputs of the kernel calls for plane
`b` run on a zero accumulator. -/
theorem lhs_plane_linear (ctx : GEMMContext) (hinv : ctx.Invariants)
    (hmix : ctx.mixedBipolar = false) (hbits : ctx.lhs.nbits + ctx.rhs.nbits ≤ 33)
    (b : Nat) (hb : b < ctx.lhs.nbits) :
    ∃ (res res0 : Nat → Int) (K : Nat → Nat → Int),
      gemmBitSerial_generic_usingBinary ctx = some res
      ∧ gemmBitSerial_generic_usingBinary (ctx.zeroLhsPlane b) = some res0
      ∧ (∀ rbit, rbit < ctx.rhs.nbits → planeStep ctx b rbit (fun _ => 0) = some (K rbit))
      ∧ ∀ i, i < ctx.rhs.nrows → ∀ j, j < ctx.lhs.nrows →
          res (i * ctx.lhs.nrows + j) - res0 (i * ctx.lhs.nrows + j)
            ≡ ∑ rbit ∈ Finset.range ctx.rhs.nbits, K rbit (i * ctx.lhs.nrows + j)
              [ZMOD 4294967296] := by
  obtain ⟨res, hres, hcells⟩ := usingBinary_cells ctx hinv hmix hbits
  obtain ⟨res0, hres0, hcells0⟩ := usingBinary_cells (ctx.zeroLhsPlane b) hinv hmix hbits
  have hK : ∀ rbit, ∃ K, planeStep ctx b rbit (fun _ => 0) = some K
      ∧ (planeStep ctx b rbit (fun _ => 0)).getD (fun _ => 0) = K := by
    intro rbit
    obtain ⟨K, hK, _⟩ := planeStep_cells ctx hinv b rbit (fun _ => 0)
    exact ⟨K, hK, by rw [hK]; rfl⟩
  refine ⟨res, res0, fun rbit => (planeStep ctx b rbit (fun _ => 0)).getD (fun _ => 0),
    hres, hres0, ?_, ?_⟩
  · intro rbit _
    obtain ⟨K, h1, h2⟩ := hK rbit
    show _ = some ((planeStep ctx b rbit (fun _ => 0)).getD (fun _ => 0))
    rw [h2, h1]
  · intro i hi j hj
    have hja : j < ctx.lhs.nrows_a := Nat.lt_of_lt_of_le hj hinv.1.2.1
    have h0 : res0 (i * ctx.lhs.nrows + j)
        = toInt32 (∑ lbit ∈ Finset.range ctx.lhs.nbits, ∑ rbit ∈ Finset.range ctx.rhs.nbits,
            (∑ c ∈ Finset.range ctx.lhs.ncols_a,
              (if (ctx.lhs.zeroPlane b).get lbit j c && ctx.rhs.get rbit i c
                then (1 : Int) else 0))
            * (planeWeight ctx.lhs.issigned ctx.lhs.nbits lbit
                * planeWeight ctx.rhs.issigned ctx.rhs.nbits rbit)) := hcells0 i hi j hj
    have h0b : (∑ lbit ∈ Finset.range ctx.lhs.nbits, ∑ rbit ∈ Finset.range ctx.rhs.nbits,
            (∑ c ∈ Finset.range ctx.lhs.ncols_a,
              (if (ctx.lhs.zeroPlane b).get lbit j c && ctx.rhs.get rbit i c
                then (1 : Int) else 0))
            * (planeWeight ctx.lhs.issigned ctx.lhs.nbits lbit
                * planeWeight ctx.rhs.issigned ctx.rhs.nbits rbit))
        = ∑ lbit ∈ Finset.range ctx.lhs.nbits,
            (if lbit = b then 0 else ∑ rbit ∈ Finset.range ctx.rhs.nbits,
              (∑ c ∈ Finset.range ctx.lhs.ncols_a,
                (if ctx.lhs.get lbit j c && ctx.rhs.get rbit i c then (1 : Int) else 0))
              * (planeWeight ctx.lhs.issigned ctx.lhs.nbits lbit
                  * planeWeight ctx.rhs.issigned ctx.rhs.nbits rbit)) := by
      apply Finset.sum_congr rfl
      intro lbit _
      by_cases hl : lbit = b
      · rw [if_pos hl]
        apply Finset.sum_eq_zero
        intro rbit _
        rw [count_zeroPlane_left ctx.lhs ctx.rhs hinv.1.1 b lbit rbit i j hja, if_pos hl,
          zero_mul]
      · rw [if_neg hl]
        apply Finset.sum_congr rfl
        intro rbit _
        rw [count_zeroPlane_left ctx.lhs ctx.rhs hinv.1.1 b lbit rbit i j hja, if_neg hl]
    rw [hcells i hi j hj, h0, h0b]
    refine Int.ModEq.trans (Int.ModEq.sub (toInt32_modEq _) (toInt32_modEq _)) ?_
    rw [sum_sub_sum_without ctx.lhs.nbits b hb]
    apply modEq_sum_range
    intro rbit hrbit
    obtain ⟨K, h1, h2⟩ := hK rbit
    obtain ⟨K2, h3, h4⟩ := planeStep_cells_weight ctx hinv b rbit (by omega) (fun _ => 0)
    have hKK : K2 = K := by
      rw [h1] at h3
      injection h3 with h3
      exact h3.symm
    subst hKK
    show _ ≡ (planeStep ctx b rbit (fun _ => 0)).getD (fun _ => 0) (i * ctx.lhs.nrows + j)
      [ZMOD 4294967296]
    rw [h2, h4 i hi j hj, zero_add]
    exact (toInt32_modEq _).symm

/-- Zeroing plane `b` of the right-hand side lowers the result of the driver, cell
by cell modulo `2^32`, by the sum of the outputs of the kernel calls for plane
`b` run on a zero accumulator. -/
theorem rhs_plane_linear (ctx : GEMMContext) (hinv : ctx.Invariants)
    (hmix : ctx.mixedBipolar = false) (hbits : ctx.lhs.nbits + ctx.rhs.nbits ≤ 33)
    (b : Nat) (hb : b < ctx.rhs.nbits) :
    ∃ (res res0 : Nat → Int) (K : Nat → Nat → Int),
      gemmBitSerial_generic_usingBinary ctx = some res
      ∧ gemmBitSerial_generic_usingBinary (ctx.zeroRhsPlane b) = some res0
      ∧ (∀ lbit, lbit < ctx.lhs.nbits → planeStep ctx lbit b (fun _ => 0) = some (K lbit))
      ∧ ∀ i, i < ctx.rhs.nrows → ∀ j, j < ctx.lhs.nrows →
          res (i * ctx.lhs.nrows + j) - res0 (i * ctx.lhs.nrows + j)
            ≡ ∑ lbit ∈ Finset.range ctx.lhs.nbits, K lbit (i * ctx.lhs.nrows + j)
              [ZMOD 4294967296] := by
  obtain ⟨res, hres, hcells⟩ := usingBinary_cells ctx hinv hmix hbits
  obtain ⟨res0, hres0, hcells0⟩ := usingBinary_cells (ctx.zeroRhsPlane b) hinv hmix hbits
  have hK : ∀ lbit, ∃ K, planeStep ctx lbit b (fun _ => 0) = some K
      ∧ (planeStep ctx lbit b (fun _ => 0)).getD (fun _ => 0) = K := by
    intro lbit
    obtain ⟨K, hK, _⟩ := planeStep_cells ctx hinv lbit b (fun _ => 0)
    exact ⟨K, hK, by rw [hK]; rfl⟩
  refine ⟨res, res0, fun lbit => (planeStep ctx lbit b (fun _ => 0)).getD (fun _ => 0),
    hres, hres0, ?_, ?_⟩
  · intro lbit _
    obtain ⟨K, h1, h2⟩ := hK lbit
    show _ = some ((planeStep ctx lbit b (fun _ => 0)).getD (fun _ => 0))
    rw [h2, h1]
  · intro i hi j hj
    have hia : i < ctx.rhs.nrows_a := Nat.lt_of_lt_of_le hi hinv.2.1.2.1
    have h0 : res0 (i * ctx.lhs.nrows + j)
        = toInt32 (∑ lbit ∈ Finset.range ctx.lhs.nbits, ∑ rbit ∈ Finset.range ctx.rhs.nbits,
            (∑ c ∈ Finset.range ctx.lhs.ncols_a,
              (if ctx.lhs.get lbit j c && (ctx.rhs.zeroPlane b).get rbit i c
                then (1 : Int) else 0))
            * (planeWeight ctx.lhs.issigned ctx.lhs.nbits lbit
                * planeWeight ctx.rhs.issigned ctx.rhs.nbits rbit)) := hcells0 i hi j hj
    have h0b : ∀ lbit, (∑ rbit ∈ Finset.range ctx.rhs.nbits,
            (∑ c ∈ Finset.range ctx.lhs.ncols_a,
              (if ctx.lhs.get lbit j c && (ctx.rhs.zeroPlane b).get rbit i c
                then (1 : Int) else 0))
            * (planeWeight ctx.lhs.issigned ctx.lhs.nbits lbit
                * planeWeight ctx.rhs.issigned ctx.rhs.nbits rbit))
        = ∑ rbit ∈ Finset.range ctx.rhs.nbits,
            (if rbit = b then 0 else
              (∑ c ∈ Finset.range ctx.lhs.ncols_a,
                (if ctx.lhs.get lbit j c && ctx.rhs.get rbit i c then (1 : Int) else 0))
              * (planeWeight ctx.lhs.issigned ctx.lhs.nbits lbit
                  * planeWeight ctx.rhs.issigned ctx.rhs.nbits rbit)) := by
      intro lbit
      apply Finset.sum_congr rfl
      intro rbit _
      rw [count_zeroPlane_right ctx.lhs ctx.rhs hinv.2.1.1 hinv.2.2.2.1 b lbit rbit i j hia]
      by_cases hr : rbit = b
      · rw [if_pos hr, if_pos hr, zero_mul]
      · rw [if_neg hr, if_neg hr]
    rw [hcells i hi j hj, h0]
    refine Int.ModEq.trans (Int.ModEq.sub (toInt32_modEq _) (toInt32_modEq _)) ?_
    rw [← Finset.sum_sub_distrib]
    apply modEq_sum_range
    intro lbit hlbit
    rw [h0b lbit, sum_sub_sum_without ctx.rhs.nbits b hb]
    obtain ⟨K, h1, h2⟩ := hK lbit
    obtain ⟨K2, h3, h4⟩ := planeStep_cells_weight ctx hinv lbit b (by omega) (fun _ => 0)
    have hKK : K2 = K := by
      rw [h1] at h3
      injection h3 with h3
      exact h3.symm
    subst hKK
    show _ ≡ (planeStep ctx lbit b (fun _ => 0)).getD (fun _ => 0) (i * ctx.lhs.nrows + j)
      [ZMOD 4294967296]
    rw [h2, h4 i hi j hj, zero_add]
    exact (toInt32_modEq _).symm

/-! ## The order of the bit-plane pairs -/

/-- Two loops that keep their states related end in related states. -/
theorem loop_rel {σ τ : Type} (R : σ → τ → Prop) (n : Nat) (f : Nat → σ → σ)
    (g : Nat → τ → τ) (s : σ) (t : τ) (h0 : R s t)
    (hstep : ∀ k, k < n → ∀ s t, R s t → R (f k s) (g k t)) :
    R (loop n f s) (loop n g t) := by
  induction n with
  | zero => exact h0
  | succ m ih =>
    rw [loop_succ, loop_succ]
    exact hstep m (Nat.lt_succ_self m) _ _ (ih (fun k hk => hstep k (Nat.lt_succ_of_lt hk)))

/-- The driver is the walk through the pairs in the order of its two loops. -/
theorem usingBinary_eq_inOrder (ctx : GEMMContext) :
    gemmBitSerial_generic_usingBinary ctx
      = gemmBitSerial_usingBinary_inOrder ctx (planePairs ctx.lhs.nbits ctx.rhs.nbits) := by
  unfold gemmBitSerial_generic_usingBinary gemmBitSerial_usingBinary_inOrder planePairs
  by_cases hn : ctx.lhs.ncols ≠ ctx.rhs.ncols
  · rw [if_pos hn, if_pos hn]
  · rw [if_neg hn, if_neg hn]
    dsimp only
    refine loop_rel (fun st L => st = List.foldl (planeStepM ctx) (some (prepareAccumulators ctx)) L)
      ctx.lhs.nbits _ _ _ _ rfl ?_
    intro lbit _ st L hst
    refine loop_rel (fun st L => st = List.foldl (planeStepM ctx) (some (prepareAccumulators ctx)) L)
      ctx.rhs.nbits _ _ _ _ hst ?_
    intro rbit _ st2 L2 hst2
    show _ = List.foldl _ _ (L2 ++ [(lbit, rbit)])
    rw [List.foldl_append, ← hst2]
    cases st2 with
    | none => rfl
    | some r => rfl

/-- A walk through any list of pairs passes every assertion, and leaves in each
logical cell the sum of the terms of the pairs of the list, reduced to
`int32_t`. -/
theorem foldl_planeStep_cells (ctx : GEMMContext) (hinv : ctx.Invariants)
    (order : List (Nat × Nat)) (CT : Nat → Int) :
    ∃ res, List.foldl (planeStepM ctx) (some CT) order = some res
      ∧ ∀ i, i < ctx.rhs.nrows → ∀ j, j < ctx.lhs.nrows →
        toInt32 (CT (i * ctx.lhs.nrows + j)) = CT (i * ctx.lhs.nrows + j) →
        res (i * ctx.lhs.nrows + j)
          = toInt32 (CT (i * ctx.lhs.nrows + j)
              + (order.map (fun p =>
                  (∑ c ∈ Finset.range ctx.lhs.ncols_a,
                    (if ctx.lhs.get p.1 j c && ctx.rhs.get p.2 i c then (1 : Int) else 0))
                  * planeAlpha ctx p.1 p.2)).sum) := by
  induction order generalizing CT with
  | nil =>
    refine ⟨CT, rfl, ?_⟩
    intro i _ j _ hfix
    rw [List.map_nil, List.sum_nil, add_zero, hfix]
  | cons p rest ih =>
    obtain ⟨K, hK, hKc⟩ := planeStep_cells ctx hinv p.1 p.2 CT
    obtain ⟨res, hres, hc⟩ := ih K
    refine ⟨res, ?_, ?_⟩
    · rw [List.foldl_cons]
      show List.foldl _ (planeStep ctx p.1 p.2 CT) rest = _
      rw [hK]
      exact hres
    · intro i hi j hj _
      have hfixK : toInt32 (K (i * ctx.lhs.nrows + j)) = K (i * ctx.lhs.nrows + j) := by
        rw [hKc i hi j hj, toInt32_toInt32]
      rw [hc i hi j hj hfixK, hKc i hi j hj, toInt32_add_left, List.map_cons, List.sum_cons,
        add_assoc]

/-- Any order of the pairs that is a rearrangement of the order of the driver gives
the result of the driver in every logical cell. -/
theorem inOrder_perm (ctx : GEMMContext) (hinv : ctx.Invariants) (res : Nat → Int)
    (hres : gemmBitSerial_generic_usingBinary ctx = some res) (order : List (Nat × Nat))
    (hp : order.Perm (planePairs ctx.lhs.nbits ctx.rhs.nbits)) :
    ∃ res2, gemmBitSerial_usingBinary_inOrder ctx order = some res2
      ∧ ∀ i, i < ctx.rhs.nrows → ∀ j, j < ctx.lhs.nrows →
        toInt32 (prepareAccumulators ctx (i * ctx.lhs.nrows + j))
          = prepareAccumulators ctx (i * ctx.lhs.nrows + j) →
        res2 (i * ctx.lhs.nrows + j) = res (i * ctx.lhs.nrows + j) := by
  have hn : ¬ (ctx.lhs.ncols ≠ ctx.rhs.ncols) := fun h => h hinv.2.2.1
  obtain ⟨r1, h1, hc1⟩ := foldl_planeStep_cells ctx hinv order (prepareAccumulators ctx)
  obtain ⟨r0, h0, hc0⟩ := foldl_planeStep_cells ctx hinv
    (planePairs ctx.lhs.nbits ctx.rhs.nbits) (prepareAccumulators ctx)
  have hr0 : r0 = res := by
    rw [usingBinary_eq_inOrder] at hres
    unfold gemmBitSerial_usingBinary_inOrder at hres
    rw [if_neg hn, h0] at hres
    injection hres
  subst hr0
  refine ⟨r1, ?_, ?_⟩
  · unfold gemmBitSerial_usingBinary_inOrder
    rw [if_neg hn]
    exact h1
  · intro i hi j hj hfix
    rw [hc1 i hi j hj hfix, hc0 i hi j hj hfix, (hp.map _).sum_eq]

/-! ## Single-precision rounding -/

theorem ilog2Aux_eq (fuel n : Nat) (h : n ≤ fuel) : ilog2Aux fuel n = Nat.log2 n := by
  induction fuel generalizing n with
  | zero =>
    have hn : n = 0 := by omega
    subst hn
    rw [Nat.log2_zero]
    rfl
  | succ f ih =>
    unfold ilog2Aux
    rw [Nat.log2]
    by_cases h2 : n < 2
    · rw [if_pos h2, if_neg (by omega)]
    · rw [if_neg h2, if_pos (by omega), ih (n / 2) (by omega)]

theorem ilog2_eq (n : Nat) : ilog2 n = Nat.log2 n := ilog2Aux_eq n n (Nat.le_refl n)

theorem ilog2_le (n : Nat) (h : n ≠ 0) : 2 ^ ilog2 n ≤ n := by
  rw [ilog2_eq]; exact Nat.log2_self_le h

theorem lt_ilog2 (n : Nat) : n < 2 ^ (ilog2 n + 1) := by
  rw [ilog2_eq]; exact Nat.lt_log2_self

theorem isqrtAux_spec (k n : Nat) (h : n < 4 ^ k) :
    isqrtAux k n * isqrtAux k n ≤ n ∧ n < (isqrtAux k n + 1) * (isqrtAux k n + 1) := by
  induction k generalizing n with
  | zero =>
    have hn : n = 0 := by simpa using h
    subst hn
    exact ⟨Nat.le_refl _, by decide⟩
  | succ k ih =>
    have h4 : n / 4 < 4 ^ k := by
      rw [Nat.pow_succ] at h
      omega
    obtain ⟨h1, h2⟩ := ih (n / 4) h4
    unfold isqrtAux
    dsimp only
    generalize isqrtAux k (n / 4) = r0 at h1 h2
    have e1 : (2 * r0) * (2 * r0) = 4 * (r0 * r0) := by ring
    have e2 : (2 * r0 + 1) * (2 * r0 + 1) = 4 * (r0 * r0) + 4 * r0 + 1 := by ring
    have e3 : (2 * r0 + 1 + 1) * (2 * r0 + 1 + 1) = 4 * ((r0 + 1) * (r0 + 1)) := by ring
    have e4 : (r0 + 1) * (r0 + 1) = r0 * r0 + 2 * r0 + 1 := by ring
    by_cases hc : (2 * r0 + 1) * (2 * r0 + 1) ≤ n
    · rw [if_pos hc]
      exact ⟨hc, by rw [e3]; omega⟩
    · rw [if_neg hc]
      exact ⟨by rw [e1]; omega, by omega⟩

theorem isqrt_eq (n : Nat) : isqrt n = Nat.sqrt n := by
  rw [Nat.eq_sqrt]
  apply isqrtAux_spec
  have h1 := lt_ilog2 n
  have h2 : 2 ^ (ilog2 n + 1) ≤ 4 ^ (ilog2 n / 2 + 1) := by
    have e : (4 : Nat) ^ (ilog2 n / 2 + 1) = 2 ^ (2 * (ilog2 n / 2 + 1)) := by
      rw [Nat.pow_mul]
    rw [e]
    exact Nat.pow_le_pow_right (by decide) (by omega)
  omega

/-- A value with a 24-bit significand that is at least `2^k` is a multiple of the
spacing `2^(k - 23)`. -/
theorem grid_dvd (F M e k : Nat) (hF : F = M * 2 ^ e) (hM : M < 2 ^ 24) (hk : 2 ^ k ≤ F) :
    2 ^ (k - 23) ∣ F := by
  by_cases he : k - 23 ≤ e
  · rw [hF]
    exact Dvd.dvd.mul_left (Nat.pow_dvd_pow 2 he) M
  · exfalso
    have h1 : F < 2 ^ 24 * 2 ^ e := by
      rw [hF]
      exact Nat.mul_lt_mul_of_lt_of_le hM (Nat.le_refl _) (Nat.pow_pos (by decide))
    have h2 : 2 ^ 24 * 2 ^ e ≤ 2 ^ k := by
      rw [← Nat.pow_add]
      exact Nat.pow_le_pow_right (by decide) (by omega)
    omega

/-- The two candidates of a rounding: with `q` the spacing at `num / den`, and
`num = m * (den * q) + r`, the result is `m * q` or `(m + 1) * q`, whichever is
nearer. -/
theorem f32Round_near (num den : Nat) (hden : 0 < den) :
    ∃ q m r, q = 2 ^ (ilog2 (num / den) - 23) ∧ m = num / den / q
      ∧ num = m * (den * q) + r ∧ r < den * q
      ∧ ((f32Round num den = m * q ∧ 2 * r ≤ den * q)
        ∨ (f32Round num den = (m + 1) * q ∧ den * q ≤ 2 * r)) := by
  have hq : 0 < 2 ^ (ilog2 (num / den) - 23) := Nat.pow_pos (by decide)
  have hD : 0 < den * 2 ^ (ilog2 (num / den) - 23) := Nat.mul_pos hden hq
  refine ⟨2 ^ (ilog2 (num / den) - 23), num / (den * 2 ^ (ilog2 (num / den) - 23)),
    num % (den * 2 ^ (ilog2 (num / den) - 23)), rfl, (Nat.div_div_eq_div_mul _ _ _).symm,
    ?_, Nat.mod_lt _ hD, ?_⟩
  · rw [Nat.mul_comm]; exact (Nat.div_add_mod _ _).symm
  · unfold f32Round
    dsimp only
    generalize den * 2 ^ (ilog2 (num / den) - 23) = D
    generalize num % D = r
    by_cases h1 : 2 * r < D
    · rw [if_pos h1]
      exact Or.inl ⟨rfl, by omega⟩
    · rw [if_neg h1]
      by_cases h2 : 2 * r = D ∧ num / D % 2 = 0
      · rw [if_pos h2]
        exact Or.inl ⟨rfl, by omega⟩
      · rw [if_neg h2]
        exact Or.inr ⟨rfl, by omega⟩

/-- A multiple of `q` that is at most `x` is at most the multiple of `q` below
`x`. -/
theorem le_floor_mul (G q x : Nat) (hq : 0 < q) (hd : q ∣ G) (h : G ≤ x) : G ≤ x / q * q := by
  obtain ⟨t, rfl⟩ := hd
  rw [Nat.mul_comm q t] at h ⊢
  exact Nat.mul_le_mul_right q ((Nat.le_div_iff_mul_le hq).2 h)

/-- The spacing used for `x` divides every value with a 24-bit significand that is
at least `x`. -/
theorem spacing_dvd (F M e x : Nat) (hF : F = M * 2 ^ e) (hM : M < 2 ^ 24) (hx : x ≤ F) :
    2 ^ (ilog2 x - 23) ∣ F := by
  by_cases hx0 : x = 0
  · subst hx0
    have : ilog2 0 = 0 := rfl
    rw [this]
    exact Nat.one_dvd F
  · exact grid_dvd F M e (ilog2 x) hF hM (Nat.le_trans (ilog2_le x hx0) hx)

/-- Rounding never passes a value with a 24-bit significand from above: if such an
`F` is at most `num / den`, it is at most the rounded value. -/
theorem f32Round_ge (num den F M e : Nat) (hden : 0 < den) (hF : F = M * 2 ^ e)
    (hM : M < 2 ^ 24) (h : F * den ≤ num) : F ≤ f32Round num den := by
  have hfl : F ≤ num / den := (Nat.le_div_iff_mul_le hden).2 h
  obtain ⟨q, m, r, hq, hm, _, _, hR⟩ := f32Round_near num den hden
  have hq0 : 0 < q := by rw [hq]; exact Nat.pow_pos (by decide)
  have hmq : F ≤ m * q := by
    rw [hm]
    by_cases hlow : F < 2 ^ ilog2 (num / den)
    · by_cases hF0 : F = 0
      · rw [hF0]; exact Nat.zero_le _
      have hx0 : num / den ≠ 0 := by omega
      have h1 : 2 ^ ilog2 (num / den) ≤ num / den / q * q :=
        le_floor_mul _ _ _ hq0 (by rw [hq]; exact Nat.pow_dvd_pow 2 (Nat.sub_le _ _))
          (ilog2_le _ hx0)
      omega
    · exact le_floor_mul _ _ _ hq0
        (by rw [hq]; exact grid_dvd F M e _ hF hM (by omega)) hfl
  rcases hR with ⟨h1, _⟩ | ⟨h1, _⟩
  · rw [h1]; exact hmq
  · rw [h1, Nat.add_mul]; omega

/-- Rounding never passes a value with a 24-bit significand from below: if such an
`F` is at least `num / den`, it is at least the rounded value. -/
theorem f32Round_le (num den F M e : Nat) (hden : 0 < den) (hF : F = M * 2 ^ e)
    (hM : M < 2 ^ 24) (h : num ≤ F * den) : f32Round num den ≤ F := by
  have hfl : num / den ≤ F := by
    have := Nat.div_le_div_right (c := den) h
    rw [Nat.mul_div_cancel _ hden] at this
    exact this
  have hdvd := spacing_dvd F M e (num / den) hF hM hfl
  obtain ⟨q, m, r, hq, _, hnum, hr, hR⟩ := f32Round_near num den hden
  rw [← hq] at hdvd
  have hq0 : 0 < q := by rw [hq]; exact Nat.pow_pos (by decide)
  obtain ⟨n, hn⟩ := hdvd
  have hFd : F * den = n * (den * q) := by rw [hn]; ring
  rcases hR with ⟨h1, _⟩ | ⟨h1, h2⟩
  · rw [h1]
    have h5 : m * q * den ≤ F * den := by
      have : m * q * den = m * (den * q) := by ring
      rw [this]; omega
    exact Nat.le_of_mul_le_mul_right h5 hden
  · rw [h1]
    have hr0 : 0 < r := by
      have : 0 < den * q := Nat.mul_pos hden hq0
      omega
    have h5 : m * (den * q) < n * (den * q) := by omega
    have h6 : m < n := Nat.lt_of_mul_lt_mul_right h5
    rw [hn, Nat.mul_comm q n]
    exact Nat.mul_le_mul_right q h6

/-- Rounding is exact on a value with a 24-bit significand. -/
theorem f32Round_exact (den F M e : Nat) (hden : 0 < den) (hF : F = M * 2 ^ e)
    (hM : M < 2 ^ 24) : f32Round (F * den) den = F :=
  Nat.le_antisymm (f32Round_le _ _ F M e hden hF hM (Nat.le_refl _))
    (f32Round_ge _ _ F M e hden hF hM (Nat.le_refl _))

/-- The relative error of a rounding in the normal range is at most `2^-24`. -/
theorem f32Round_rel (num den : Nat) (hden : 0 < den) (h : 2 ^ 23 * den ≤ num) :
    (2 ^ 24 - 1) * num ≤ 2 ^ 24 * (f32Round num den * den)
      ∧ 2 ^ 24 * (f32Round num den * den) ≤ (2 ^ 24 + 1) * num := by
  obtain ⟨q, m, r, hq, _, hnum, hr, hR⟩ := f32Round_near num den hden
  have hfl : 2 ^ 23 ≤ num / den := (Nat.le_div_iff_mul_le hden).2 h
  have hx0 : num / den ≠ 0 := by omega
  have hk : 23 ≤ ilog2 (num / den) := by
    rw [ilog2_eq]
    exact (Nat.le_log2 hx0).2 hfl
  have hqk : 2 ^ 23 * q = 2 ^ ilog2 (num / den) := by
    rw [hq, ← Nat.pow_add]
    congr 1
    omega
  have hqn : 2 ^ 23 * (den * q) ≤ num := by
    have h1 : 2 ^ ilog2 (num / den) ≤ num / den := ilog2_le _ hx0
    have h2 : 2 ^ 23 * q * den ≤ num / den * den := by
      rw [hqk]; exact Nat.mul_le_mul_right den h1
    have h3 : num / den * den ≤ num := Nat.div_mul_le_self _ _
    have h4 : 2 ^ 23 * (den * q) = 2 ^ 23 * q * den := by ring
    omega
  rcases hR with ⟨h1, h2⟩ | ⟨h1, h2⟩
  · have e : f32Round num den * den = m * (den * q) := by rw [h1]; ring
    rw [e]
    generalize den * q = D at hnum hr h2 hqn
    generalize m * D = X at hnum
    omega
  · have e : f32Round num den * den = m * (den * q) + den * q := by rw [h1]; ring
    rw [e]
    generalize den * q = D at hnum hr h2 hqn
    generalize m * D = X at hnum
    omega

/-- A value with a 24-bit significand that is at most `x` is at most the multiple
of the spacing at `x` below `x`. -/
theorem grid_floor (F M e x : Nat) (hF : F = M * 2 ^ e) (hM : M < 2 ^ 24) (h : F ≤ x) :
    F ≤ x / 2 ^ (ilog2 x - 23) * 2 ^ (ilog2 x - 23) := by
  have hq0 : 0 < 2 ^ (ilog2 x - 23) := Nat.pow_pos (by decide)
  by_cases hlow : F < 2 ^ ilog2 x
  · by_cases hF0 : F = 0
    · rw [hF0]; exact Nat.zero_le _
    have hx0 : x ≠ 0 := by omega
    have h1 : 2 ^ ilog2 x ≤ x / 2 ^ (ilog2 x - 23) * 2 ^ (ilog2 x - 23) :=
      le_floor_mul _ _ _ hq0 (Nat.pow_dvd_pow 2 (Nat.sub_le _ _)) (ilog2_le _ hx0)
    omega
  · exact le_floor_mul _ _ _ hq0 (grid_dvd F M e _ hF hM (by omega)) h

/-- The two candidates of a rounded square root. -/
theorem f32RoundSqrt_near (X : Nat) :
    ∃ q m, q = 2 ^ (ilog2 (Nat.sqrt X) - 23) ∧ m = Nat.sqrt X / q
      ∧ ((f32RoundSqrt X = m * q ∧ 4 * X ≤ ((2 * m + 1) * q) * ((2 * m + 1) * q))
        ∨ (f32RoundSqrt X = (m + 1) * q
            ∧ ((2 * m + 1) * q) * ((2 * m + 1) * q) ≤ 4 * X)) := by
  refine ⟨_, _, rfl, rfl, ?_⟩
  unfold f32RoundSqrt
  dsimp only
  rw [isqrt_eq]
  generalize 2 ^ (ilog2 (Nat.sqrt X) - 23) = q
  generalize Nat.sqrt X / q = m
  generalize ((2 * m + 1) * q) * ((2 * m + 1) * q) = Y
  by_cases h1 : 4 * X < Y
  · rw [if_pos h1]
    exact Or.inl ⟨rfl, by omega⟩
  · rw [if_neg h1]
    by_cases h2 : 4 * X = Y ∧ m % 2 = 0
    · rw [if_pos h2]
      exact Or.inl ⟨rfl, by omega⟩
    · rw [if_neg h2]
      exact Or.inr ⟨rfl, by omega⟩

/-- The rounded square root is at least every value with a 24-bit significand whose
square is at most the argument. -/
theorem f32RoundSqrt_ge (X F M e : Nat) (hF : F = M * 2 ^ e) (hM : M < 2 ^ 24)
    (h : F * F ≤ X) : F ≤ f32RoundSqrt X := by
  have hs : F ≤ Nat.sqrt X := Nat.le_sqrt.2 h
  have hg := grid_floor F M e (Nat.sqrt X) hF hM hs
  obtain ⟨q, m, hq, hm, hR⟩ := f32RoundSqrt_near X
  rw [← hq, ← hm] at hg
  rcases hR with ⟨h1, _⟩ | ⟨h1, _⟩
  · rw [h1]; exact hg
  · rw [h1, Nat.add_mul]; omega

/-- The rounded square root is at most every value with a 24-bit significand whose
square is at least the argument. -/
theorem f32RoundSqrt_le (X F M e : Nat) (hF : F = M * 2 ^ e) (hM : M < 2 ^ 24)
    (h : X ≤ F * F) : f32RoundSqrt X ≤ F := by
  have hs : Nat.sqrt X ≤ F :=
    Nat.mul_self_le_mul_self_iff.1 (Nat.le_trans (Nat.sqrt_le X) h)
  have hdvd := spacing_dvd F M e (Nat.sqrt X) hF hM hs
  obtain ⟨q, m, hq, hm, hR⟩ := f32RoundSqrt_near X
  rw [← hq] at hdvd
  have hq0 : 0 < q := by rw [hq]; exact Nat.pow_pos (by decide)
  obtain ⟨n, hn⟩ := hdvd
  have hmq : m * q ≤ Nat.sqrt X := by rw [hm]; exact Nat.div_mul_le_self _ _
  rcases hR with ⟨h1, _⟩ | ⟨h1, h2⟩
  · rw [h1]; omega
  · rw [h1]
    have h3 : ((2 * m + 1) * q) * ((2 * m + 1) * q) ≤ (2 * F) * (2 * F) := by
      have : (2 * F) * (2 * F) = 4 * (F * F) := by ring
      omega
    have h4 : (2 * m + 1) * q ≤ 2 * F := Nat.mul_self_le_mul_self_iff.1 h3
    have h5 : (2 * m + 1) * q ≤ (2 * n) * q := by
      have : 2 * F = (2 * n) * q := by rw [hn]; ring
      omega
    have h6 : 2 * m + 1 ≤ 2 * n := Nat.le_of_mul_le_mul_right h5 hq0
    rw [hn, Nat.mul_comm q n]
    exact Nat.mul_le_mul_right q (by omega)

/-! ## Single-precision operations on non-negative values -/

theorem f32Round_zero (den : Nat) : f32Round 0 den = 0 := by
  unfold f32Round
  simp

theorem f32Fin_some (n : Nat) (h : n < 2 ^ 128 * 2 ^ 149) : f32Fin false n = some (n : Int) := by
  unfold f32Fin
  rw [if_pos h]
  rfl

theorem f32Fin_neg_some (n : Nat) (h : n < 2 ^ 128 * 2 ^ 149) :
    f32Fin true n = some (-(n : Int)) := by
  unfold f32Fin
  rw [if_pos h]
  rfl

theorem f32Mul_nat (x y : Nat) :
    f32Mul (x : Int) (y : Int) = f32Fin false (f32Round (x * y) (2 ^ 149)) := by
  unfold f32Mul
  have hx : decide ((x : Int) < 0) = false := decide_eq_false (not_lt.2 (Int.natCast_nonneg _))
  have hy : decide ((y : Int) < 0) = false :=
    decide_eq_false (not_lt.2 (Int.natCast_nonneg _))
  rw [hx, hy, Int.natAbs_ofNat, Int.natAbs_ofNat]
  rfl

theorem f32Add_nat (x y : Nat) :
    f32Add (x : Int) (y : Int) = f32Fin false (f32Round (x + y) 1) := by
  unfold f32Add
  have hs : (x : Int) + (y : Int) = ((x + y : Nat) : Int) := by push_cast; rfl
  rw [hs]
  have hx : decide (((x + y : Nat) : Int) < 0) = false :=
    decide_eq_false (not_lt.2 (Int.natCast_nonneg _))
  rw [hx, Int.natAbs_ofNat]

theorem f32Div_nat (x y : Nat) (hy : y ≠ 0) :
    f32Div (x : Int) (y : Int) = f32Fin false (f32Round (x * 2 ^ 149) y) := by
  unfold f32Div
  have hy0 : ¬ ((y : Int) = 0) := by exact_mod_cast hy
  have hx : decide ((x : Int) < 0) = false :=
    decide_eq_false (not_lt.2 (Int.natCast_nonneg _))
  have hy2 : decide ((y : Int) < 0) = false :=
    decide_eq_false (not_lt.2 (Int.natCast_nonneg _))
  rw [if_neg hy0, hx, hy2, Int.natAbs_ofNat, Int.natAbs_ofNat]
  rfl

theorem f32Sqrt_nat (x : Nat) :
    f32Sqrt (x : Int) = some ((f32RoundSqrt (x * 2 ^ 149) : Nat) : Int) := by
  unfold f32Sqrt
  have hx : ¬ ((x : Int) < 0) := not_lt.2 (Int.natCast_nonneg _)
  rw [if_neg hx, Int.natAbs_ofNat]

theorem f32OfInt_nat (x : Nat) : f32OfInt (x : Int) = f32OfNat x := by
  unfold f32OfInt f32OfNat
  have hx : decide ((x : Int) < 0) = false :=
    decide_eq_false (not_lt.2 (Int.natCast_nonneg _))
  rw [hx, Int.natAbs_ofNat]

/-- The conversion of an integer below `2^24` is exact. -/
theorem f32OfNat_small (n : Nat) (h : n < 2 ^ 24) :
    f32OfNat n = some ((n * 2 ^ 149 : Nat) : Int) := by
  unfold f32OfNat
  have e := f32Round_exact 1 (n * 2 ^ 149) n 149 (by decide) rfl h
  rw [Nat.mul_one] at e
  rw [e]
  exact f32Fin_some _ (by omega)

/-- The product of two integers is exact when it has a 24-bit significand. -/
theorem f32Mul_exact (x y M e : Nat) (hxy : x * y = M * 2 ^ e) (hM : M < 2 ^ 24)
    (hfin : x * y < 2 ^ 128) :
    f32Mul ((x * 2 ^ 149 : Nat) : Int) ((y * 2 ^ 149 : Nat) : Int)
      = some ((x * y * 2 ^ 149 : Nat) : Int) := by
  rw [f32Mul_nat]
  have e1 : x * 2 ^ 149 * (y * 2 ^ 149) = x * y * 2 ^ 149 * 2 ^ 149 := by ring
  have e2 := f32Round_exact (2 ^ 149) (x * y * 2 ^ 149) M (e + 149) (by decide)
    (by rw [hxy, Nat.pow_add]; ring) hM
  rw [e1, e2]
  exact f32Fin_some _ (by omega)

/-- The sum of two integers is exact when it is below `2^24`. -/
theorem f32Add_small (x y : Nat) (h : x + y < 2 ^ 24) :
    f32Add ((x * 2 ^ 149 : Nat) : Int) ((y * 2 ^ 149 : Nat) : Int)
      = some (((x + y) * 2 ^ 149 : Nat) : Int) := by
  rw [f32Add_nat]
  have e1 : x * 2 ^ 149 + y * 2 ^ 149 = (x + y) * 2 ^ 149 * 1 := by ring
  have e2 := f32Round_exact 1 ((x + y) * 2 ^ 149) (x + y) 149 (by decide) rfl h
  rw [e1, e2]
  exact f32Fin_some _ (by omega)

/-! ## The planner in single precision -/

/-- In the range where `a`, `b` and `b + 2a` are below `2^24`, lines 161 to 163 of
`computeBlockSize` compute `a = 4 * lhsMult * rhsMult` and
`b = dBits * (lhsMult + rhsMult)` exactly; only `cacheBits` is rounded. -/
theorem planCoefficientsF32_eq (l r c d : Nat) (hl : 0 < l) (hr : 0 < r)
    (hS : d * (l + r) + 2 * (4 * l * r) < 2 ^ 24) (hc : c < 2 ^ 64) :
    planCoefficientsF32 l r c d
        = some (((l * 2 ^ 149 : Nat) : Int), ((r * 2 ^ 149 : Nat) : Int),
            ((4 * l * r * 2 ^ 149 : Nat) : Int), ((d * (l + r) * 2 ^ 149 : Nat) : Int),
            ((f32Round (c * 2 ^ 149) 1 : Nat) : Int))
      ∧ f32Round (c * 2 ^ 149) 1 ≤ 2 ^ 64 * 2 ^ 149 := by
  have e4 : 4 * l * r = 4 * (l * r) := by ring
  have hlr : l * r < 2 ^ 21 := by omega
  have h1 : l ≤ l * r := Nat.le_mul_of_pos_right l hr
  have h2 : r ≤ l * r := Nat.le_mul_of_pos_left r hl
  have h3 : d ≤ d * (l + r) := Nat.le_mul_of_pos_right d (by omega)
  have hcb : f32Round (c * 2 ^ 149) 1 ≤ 2 ^ 64 * 2 ^ 149 :=
    f32Round_le _ 1 _ 1 (64 + 149) (by decide) (by rw [Nat.one_mul, Nat.pow_add]) (by decide)
      (by omega)
  refine ⟨?_, hcb⟩
  have o1 := f32OfNat_small l (by omega)
  have o2 := f32OfNat_small r (by omega)
  have o3 : f32OfNat c = some ((f32Round (c * 2 ^ 149) 1 : Nat) : Int) :=
    f32Fin_some _ (by omega)
  have o4 := f32OfNat_small d (by omega)
  have o5 := f32OfNat_small 4 (by decide)
  have o6 := f32Mul_exact 4 l (4 * l) 0 (by ring) (by omega) (by omega)
  have o7 := f32Mul_exact (4 * l) r (4 * l * r) 0 (by ring) (by omega) (by omega)
  have o8 := f32Add_small l r (by omega)
  have o9 := f32Mul_exact d (l + r) (d * (l + r)) 0 (by ring) (by omega) (by omega)
  unfold planCoefficientsF32
  rw [o1, Option.some_bind, o2, Option.some_bind, o3, Option.some_bind, o4, Option.some_bind,
    o5, Option.some_bind, o6, Option.some_bind, o7, Option.some_bind, o8, Option.some_bind,
    o9, Option.some_bind]

theorem f32Mul_nat_neg (x y : Nat) (h : f32Round (x * y) (2 ^ 149) < 2 ^ 128 * 2 ^ 149) :
    f32Mul (x : Int) (-(y : Int)) = some (-((f32Round (x * y) (2 ^ 149) : Nat) : Int)) := by
  by_cases hy : y = 0
  · subst hy
    have e : -((0 : Nat) : Int) = ((0 : Nat) : Int) := by simp
    rw [e, f32Mul_nat, Nat.mul_zero, f32Round_zero]
    rfl
  · unfold f32Mul
    have hx : decide ((x : Int) < 0) = false :=
      decide_eq_false (not_lt.2 (Int.natCast_nonneg _))
    have hy2 : decide (-(y : Int) < 0) = true := decide_eq_true (by omega)
    rw [hx, hy2, Int.natAbs_ofNat, Int.natAbs_neg, Int.natAbs_ofNat]
    exact f32Fin_neg_some _ h

/-- A rounding is at most a power of two that bounds its argument. -/
theorem f32Round_le_pow (num den j : Nat) (hden : 0 < den) (h : num ≤ 2 ^ j * den) :
    f32Round num den ≤ 2 ^ j :=
  f32Round_le num den (2 ^ j) 1 j hden (Nat.one_mul _).symm (by decide) h

/-- The arithmetic of the lower bound: three roundings with relative error `2^-24`
keep the discriminant at least `(b + 2a)^2` when the budget exceeds
`a + b` by the margin `2 + b / a`. -/
theorem discr_lower_arith (a b c cb bb T D : Nat) (hS : b + 2 * a < 2 ^ 24)
    (hsuff : a * (a + b + 2) + b ≤ a * c)
    (hc1 : (2 ^ 24 - 1) * (c * 2 ^ 149) ≤ 2 ^ 24 * cb)
    (hT : (2 ^ 24 - 1) * (4 * (a * cb)) ≤ 2 ^ 24 * T)
    (hbb : (2 ^ 24 - 1) * (b * b * 2 ^ 149) ≤ 2 ^ 24 * bb)
    (hD : (2 ^ 24 - 1) * (bb + T) ≤ 2 ^ 24 * D) :
    (b + 2 * a) * (b + 2 * a) * 2 ^ 149 ≤ D := by
  have hc1a : (2 ^ 24 - 1) * ((a * c) * 2 ^ 149) ≤ 2 ^ 24 * (a * cb) := by
    have h := Nat.mul_le_mul_left a hc1
    have e1 : a * ((2 ^ 24 - 1) * (c * 2 ^ 149)) = (2 ^ 24 - 1) * ((a * c) * 2 ^ 149) := by ring
    have e2 : a * (2 ^ 24 * cb) = 2 ^ 24 * (a * cb) := by ring
    rw [e1, e2] at h
    exact h
  have hSS : b * b + 4 * (a * b) + 4 * (a * a) ≤ (2 ^ 24 - 1) * (b + 2 * a) := by
    have h := Nat.mul_le_mul_right (b + 2 * a) (show b + 2 * a ≤ 2 ^ 24 - 1 by omega)
    have e : (b + 2 * a) * (b + 2 * a) = b * b + 4 * (a * b) + 4 * (a * a) := by ring
    rw [e] at h
    exact h
  have e : (b + 2 * a) * (b + 2 * a) = b * b + 4 * (a * b) + 4 * (a * a) := by ring
  have e3 : a * (a + b + 2) = a * a + a * b + 2 * a := by ring
  rw [e]
  rw [e3] at hsuff
  clear hc1 hS e e3
  generalize a * a = AA at *
  generalize a * b = AB at *
  generalize b * b = BB at *
  generalize a * c = AC at *
  generalize a * cb = P at *
  omega

/-- Cancelling the unit in a relative error bound. -/
theorem rel_cancel (Y R : Nat)
    (h : (2 ^ 24 - 1) * (Y * 2 ^ 149) ≤ 2 ^ 24 * (R * 2 ^ 149)) :
    (2 ^ 24 - 1) * Y ≤ 2 ^ 24 * R := by
  have h2 : (2 ^ 24 - 1) * Y * 2 ^ 149 ≤ 2 ^ 24 * R * 2 ^ 149 := by
    have e1 : (2 ^ 24 - 1) * Y * 2 ^ 149 = (2 ^ 24 - 1) * (Y * 2 ^ 149) := by ring
    have e2 : 2 ^ 24 * R * 2 ^ 149 = 2 ^ 24 * (R * 2 ^ 149) := by ring
    rw [e1, e2]; exact h
  exact Nat.le_of_mul_le_mul_right h2 (by decide)

/-- The discriminant stage when the budget is large enough: `discr` is at least
`b + 2a`. -/
theorem discrF32_large (a b c cb : Nat) (ha : 0 < a) (hS : b + 2 * a < 2 ^ 24)
    (hc1 : (2 ^ 24 - 1) * (c * 2 ^ 149) ≤ 2 ^ 24 * cb) (hc2 : cb ≤ 2 ^ 64 * 2 ^ 149)
    (hc3 : 2 ^ 149 ≤ cb) (hsuff : a * (a + b + 2) + b ≤ a * c) :
    ∃ discr : Nat, discrF32 ((a * 2 ^ 149 : Nat) : Int) ((b * 2 ^ 149 : Nat) : Int) (cb : Int)
        = some (discr : Int)
      ∧ (b + 2 * a) * 2 ^ 149 ≤ discr ∧ discr ≤ 2 ^ 45 * 2 ^ 149 := by
  have hbb_le : f32Round (b * 2 ^ 149 * (b * 2 ^ 149)) (2 ^ 149) ≤ 2 ^ (48 + 149) := by
    apply f32Round_le_pow _ _ _ (by decide)
    have h1 : b * b ≤ 2 ^ 24 * 2 ^ 24 := Nat.mul_le_mul (by omega) (by omega)
    have e : b * 2 ^ 149 * (b * 2 ^ 149) = b * b * (2 ^ 149 * 2 ^ 149) := by ring
    rw [e]
    generalize b * b = B at h1
    omega
  have hT_le : f32Round (4 * a * 2 ^ 149 * cb) (2 ^ 149) ≤ 2 ^ (89 + 149) := by
    apply f32Round_le_pow _ _ _ (by decide)
    have h1 : 4 * a * 2 ^ 149 * cb ≤ 2 ^ 25 * 2 ^ 149 * (2 ^ 64 * 2 ^ 149) :=
      Nat.mul_le_mul (by omega) hc2
    have e : 2 ^ 25 * 2 ^ 149 * (2 ^ 64 * 2 ^ 149) = 2 ^ (89 + 149) * 2 ^ 149 := by decide
    omega
  have hT_ge : 2 ^ 149 ≤ f32Round (4 * a * 2 ^ 149 * cb) (2 ^ 149) := by
    apply f32Round_ge _ _ (2 ^ 149) 1 149 (by decide) (Nat.one_mul _).symm (by decide)
    exact Nat.mul_le_mul (by omega) hc3
  have hbb_rel : (2 ^ 24 - 1) * (b * b * 2 ^ 149)
      ≤ 2 ^ 24 * f32Round (b * 2 ^ 149 * (b * 2 ^ 149)) (2 ^ 149) := by
    by_cases hb : b = 0
    · subst hb; simp
    · have hb1 : 1 ≤ b * b := Nat.mul_pos (by omega) (by omega)
      have e : b * 2 ^ 149 * (b * 2 ^ 149) = b * b * 2 ^ 149 * 2 ^ 149 := by ring
      have h1 := (f32Round_rel (b * 2 ^ 149 * (b * 2 ^ 149)) (2 ^ 149) (by decide)
        (by rw [e]; generalize b * b = B at hb1; omega)).1
      rw [e] at h1 ⊢
      exact rel_cancel _ _ h1
  have hT_rel : (2 ^ 24 - 1) * (4 * (a * cb))
      ≤ 2 ^ 24 * f32Round (4 * a * 2 ^ 149 * cb) (2 ^ 149) := by
    have e : 4 * a * 2 ^ 149 * cb = 4 * (a * cb) * 2 ^ 149 := by ring
    have hacb : 2 ^ 149 ≤ a * cb := Nat.le_trans hc3 (Nat.le_mul_of_pos_left cb ha)
    have h1 := (f32Round_rel (4 * a * 2 ^ 149 * cb) (2 ^ 149) (by decide)
      (by rw [e]; generalize a * cb = P at hacb; omega)).1
    rw [e] at h1 ⊢
    exact rel_cancel _ _ h1
  have o2 := f32Mul_exact 4 a a 2 (by ring) (by omega) (by omega)
  have o1 : f32Mul ((b * 2 ^ 149 : Nat) : Int) ((b * 2 ^ 149 : Nat) : Int)
      = some ((f32Round (b * 2 ^ 149 * (b * 2 ^ 149)) (2 ^ 149) : Nat) : Int) := by
    rw [f32Mul_nat]
    exact f32Fin_some _ (by omega)
  have o3 := f32Mul_nat_neg (4 * a * 2 ^ 149) cb (by omega)
  generalize hbb : f32Round (b * 2 ^ 149 * (b * 2 ^ 149)) (2 ^ 149) = bb
    at hbb_le hbb_rel o1
  generalize hT : f32Round (4 * a * 2 ^ 149 * cb) (2 ^ 149) = T at hT_le hT_ge hT_rel o3
  have hD_le : f32Round (bb + T) 1 ≤ 2 ^ (90 + 149) :=
    f32Round_le_pow _ _ _ (by decide) (by omega)
  have hD_rel : (2 ^ 24 - 1) * (bb + T) ≤ 2 ^ 24 * f32Round (bb + T) 1 := by
    have h := (f32Round_rel (bb + T) 1 (by decide) (by omega)).1
    rw [Nat.mul_one] at h
    exact h
  have o4 : f32Sub (bb : Int) (-(T : Int)) = some ((f32Round (bb + T) 1 : Nat) : Int) := by
    unfold f32Sub
    rw [neg_neg, f32Add_nat]
    exact f32Fin_some _ (by omega)
  generalize hD : f32Round (bb + T) 1 = D at hD_le hD_rel o4
  have hDW := discr_lower_arith a b c cb bb T D hS hsuff hc1 hT_rel hbb_rel hD_rel
  have o5 := f32Sqrt_nat D
  have hdis_ge : (b + 2 * a) * 2 ^ 149 ≤ f32RoundSqrt (D * 2 ^ 149) := by
    apply f32RoundSqrt_ge _ _ (b + 2 * a) 149 rfl hS
    have e : (b + 2 * a) * 2 ^ 149 * ((b + 2 * a) * 2 ^ 149)
        = (b + 2 * a) * (b + 2 * a) * 2 ^ 149 * 2 ^ 149 := by ring
    rw [e]
    exact Nat.mul_le_mul_right _ hDW
  have hdis_le : f32RoundSqrt (D * 2 ^ 149) ≤ 2 ^ 45 * 2 ^ 149 := by
    apply f32RoundSqrt_le _ _ 1 (45 + 149) (by rw [Nat.one_mul, Nat.pow_add]) (by decide)
    have e : 2 ^ 45 * 2 ^ 149 * (2 ^ 45 * 2 ^ 149) = 2 ^ (90 + 149) * 2 ^ 149 := by decide
    rw [e]
    exact Nat.mul_le_mul_right _ hD_le
  refine ⟨f32RoundSqrt (D * 2 ^ 149), ?_, hdis_ge, hdis_le⟩
  have o0 := f32OfNat_small 4 (by decide)
  have hpos : (0 : Int) < ((f32RoundSqrt (D * 2 ^ 149) : Nat) : Int) := by
    have : 0 < (b + 2 * a) * 2 ^ 149 := Nat.mul_pos (by omega) (by decide)
    omega
  unfold discrF32
  rw [o0, Option.some_bind, o1, Option.some_bind, o2, Option.some_bind, o3, Option.some_bind,
    o4, Option.some_bind, o5, Option.some_bind, if_pos hpos]

theorem f32Floor_nat (q : Nat) : f32Floor (q : Int) = ((q / 2 ^ 149 : Nat) : Int) := by
  unfold f32Floor
  norm_cast

theorem f32Add_neg_nat (x y : Nat) (h : x ≤ y) :
    f32Add (-(x : Int)) (y : Int) = f32Fin false (f32Round (y - x) 1) := by
  have e : -(x : Int) + (y : Int) = ((y - x : Nat) : Int) := by omega
  unfold f32Add
  rw [e, Int.natAbs_ofNat, decide_eq_false (not_lt.2 (Int.natCast_nonneg _))]

theorem f32Add_neg_neg (x y : Nat) (h : 0 < x + y)
    (hfin : f32Round (x + y) 1 < 2 ^ 128 * 2 ^ 149) :
    f32Add (-(x : Int)) (-(y : Int)) = some (-((f32Round (x + y) 1 : Nat) : Int)) := by
  have e : -(x : Int) + -(y : Int) = -((x + y : Nat) : Int) := by omega
  unfold f32Add
  rw [e, Int.natAbs_neg, Int.natAbs_ofNat, decide_eq_true (by omega)]
  exact f32Fin_neg_some _ hfin

theorem f32Div_neg_nat (x y : Nat) (hx : 0 < x) (hy : y ≠ 0)
    (hfin : f32Round (x * 2 ^ 149) y < 2 ^ 128 * 2 ^ 149) :
    f32Div (-(x : Int)) (y : Int) = some (-((f32Round (x * 2 ^ 149) y : Nat) : Int)) := by
  unfold f32Div
  have hy0 : ¬ ((y : Int) = 0) := by exact_mod_cast hy
  rw [if_neg hy0, decide_eq_true (show -(x : Int) < 0 by omega),
    decide_eq_false (not_lt.2 (Int.natCast_nonneg y)), Int.natAbs_neg, Int.natAbs_ofNat,
    Int.natAbs_ofNat]
  exact f32Fin_neg_some _ hfin

theorem toInt64_some (z : Int) (h1 : -2 ^ 63 ≤ z) (h2 : z < 2 ^ 63) : toInt64 z = some z := by
  unfold toInt64
  rw [if_pos ⟨h1, h2⟩]

/-- The root stage when `discr` is at least `b + 2a`: the root is at least 1. -/
theorem rootF32_large (a b discr : Nat) (ha : 4 ≤ a) (hS : b + 2 * a < 2 ^ 24)
    (h1 : (b + 2 * a) * 2 ^ 149 ≤ discr) (h2 : discr ≤ 2 ^ 45 * 2 ^ 149) :
    ∃ x : Nat, rootF32 ((a * 2 ^ 149 : Nat) : Int) ((b * 2 ^ 149 : Nat) : Int) (discr : Int)
        = some (x : Int) ∧ 1 ≤ x ∧ x ≤ 2 ^ 42 := by
  have o0 := f32OfNat_small 2 (by decide)
  have o1 := f32Mul_exact 2 a (2 * a) 0 (by ring) (by omega) (by omega)
  -- the first quotient
  have hy0_ge : 2 * a * 2 ^ 149 ≤ f32Round (discr - b * 2 ^ 149) 1 :=
    f32Round_ge _ 1 _ (2 * a) 149 (by decide) rfl (by omega) (by omega)
  have hy0_le : f32Round (discr - b * 2 ^ 149) 1 ≤ 2 ^ (45 + 149) :=
    f32Round_le_pow _ _ _ (by decide) (by omega)
  have o2 : f32Add (-((b * 2 ^ 149 : Nat) : Int)) (discr : Int)
      = some ((f32Round (discr - b * 2 ^ 149) 1 : Nat) : Int) := by
    rw [f32Add_neg_nat _ _ (by omega)]
    exact f32Fin_some _ (by omega)
  generalize f32Round (discr - b * 2 ^ 149) 1 = y0 at hy0_ge hy0_le o2
  have hq0_ge : 2 ^ 149 ≤ f32Round (y0 * 2 ^ 149) (2 * a * 2 ^ 149) :=
    f32Round_ge _ _ _ 1 149 (by omega) (Nat.one_mul _).symm (by decide) (by omega)
  have hq0_le : f32Round (y0 * 2 ^ 149) (2 * a * 2 ^ 149) ≤ 2 ^ (42 + 149) :=
    f32Round_le_pow _ _ _ (by omega) (by omega)
  have o3 : f32Div (y0 : Int) ((2 * a * 2 ^ 149 : Nat) : Int)
      = some ((f32Round (y0 * 2 ^ 149) (2 * a * 2 ^ 149) : Nat) : Int) := by
    rw [f32Div_nat _ _ (by omega)]
    exact f32Fin_some _ (by omega)
  generalize f32Round (y0 * 2 ^ 149) (2 * a * 2 ^ 149) = q0 at hq0_ge hq0_le o3
  have hx0_ge : 1 ≤ q0 / 2 ^ 149 := (Nat.le_div_iff_mul_le (by decide)).2 (by omega)
  have hx0_le : q0 / 2 ^ 149 ≤ 2 ^ 42 :=
    Nat.le_of_lt_succ ((Nat.div_lt_iff_lt_mul (by decide)).2 (by omega))
  have o4 : toInt64 (f32Floor (q0 : Int)) = some ((q0 / 2 ^ 149 : Nat) : Int) := by
    rw [f32Floor_nat]
    exact toInt64_some _ (by omega) (by omega)
  -- the second quotient
  have hy1_ge : 2 ^ 149 ≤ f32Round (b * 2 ^ 149 + discr) 1 :=
    f32Round_ge _ 1 _ 1 149 (by decide) (Nat.one_mul _).symm (by decide) (by omega)
  have hy1_le : f32Round (b * 2 ^ 149 + discr) 1 ≤ 2 ^ (46 + 149) :=
    f32Round_le_pow _ _ _ (by decide) (by omega)
  have o5 : f32Sub (-((b * 2 ^ 149 : Nat) : Int)) (discr : Int)
      = some (-((f32Round (b * 2 ^ 149 + discr) 1 : Nat) : Int)) := by
    unfold f32Sub
    exact f32Add_neg_neg _ _ (by omega) (by omega)
  generalize f32Round (b * 2 ^ 149 + discr) 1 = y1 at hy1_ge hy1_le o5
  have hq1_le : f32Round (y1 * 2 ^ 149) (2 * a * 2 ^ 149) ≤ 2 ^ (43 + 149) :=
    f32Round_le_pow _ _ _ (by omega) (by omega)
  have o6 : f32Div (-(y1 : Int)) ((2 * a * 2 ^ 149 : Nat) : Int)
      = some (-((f32Round (y1 * 2 ^ 149) (2 * a * 2 ^ 149) : Nat) : Int)) :=
    f32Div_neg_nat _ _ (by omega) (by omega) (by omega)
  generalize f32Round (y1 * 2 ^ 149) (2 * a * 2 ^ 149) = q1 at hq1_le o6
  have hx1_le : f32Floor (-(q1 : Int)) ≤ 0 := by
    unfold f32Floor
    exact Int.ediv_le_of_le_mul (by positivity) (by omega)
  have hx1_ge : -2 ^ 43 ≤ f32Floor (-(q1 : Int)) := by
    unfold f32Floor
    exact Int.le_ediv_of_mul_le (by positivity) (by omega)
  have o7 : toInt64 (f32Floor (-(q1 : Int))) = some (f32Floor (-(q1 : Int))) :=
    toInt64_some _ (by omega) (by omega)
  refine ⟨q0 / 2 ^ 149, ?_, hx0_ge, hx0_le⟩
  have hgt : ((q0 / 2 ^ 149 : Nat) : Int) > f32Floor (-(q1 : Int)) := by omega
  have hpos : (0 : Int) < ((q0 / 2 ^ 149 : Nat) : Int) := by omega
  unfold rootF32
  rw [o0, Option.some_bind, o1, Option.some_bind, o2, Option.some_bind, o3, Option.some_bind,
    o4, Option.some_bind, o5, Option.some_bind, o6, Option.some_bind, o7, Option.some_bind,
    if_pos hgt, if_pos hpos]

/-- The block stage: the product of a multiple below `2^21` and a root between 1
and `2^42` is converted without loss of range, and is at least the multiple. -/
theorem blockF32_large (m x : Nat) (hm : m < 2 ^ 21) (hx1 : 1 ≤ x) (hx2 : x ≤ 2 ^ 42) :
    ∃ B : Nat, blockF32 ((m * 2 ^ 149 : Nat) : Int) (x : Int) = some B ∧ m ≤ B := by
  have hxf_ge : 2 ^ 149 ≤ f32Round (x * 2 ^ 149) 1 :=
    f32Round_ge _ 1 _ 1 149 (by decide) (Nat.one_mul _).symm (by decide) (by omega)
  have hxf_le : f32Round (x * 2 ^ 149) 1 ≤ 2 ^ (42 + 149) :=
    f32Round_le_pow _ _ _ (by decide) (by omega)
  have o1 : f32OfInt (x : Int) = some ((f32Round (x * 2 ^ 149) 1 : Nat) : Int) := by
    rw [f32OfInt_nat]
    exact f32Fin_some _ (by omega)
  generalize f32Round (x * 2 ^ 149) 1 = xf at hxf_ge hxf_le o1
  have hp_ge : m * 2 ^ 149 ≤ f32Round (m * 2 ^ 149 * xf) (2 ^ 149) :=
    f32Round_ge _ _ _ m 149 (by decide) rfl (by omega)
      (Nat.mul_le_mul_left _ hxf_ge)
  have hp_le : f32Round (m * 2 ^ 149 * xf) (2 ^ 149) ≤ 2 ^ (63 + 149) := by
    apply f32Round_le_pow _ _ _ (by decide)
    have h := Nat.mul_le_mul (show m * 2 ^ 149 ≤ 2 ^ 21 * 2 ^ 149 by omega) hxf_le
    have e : 2 ^ 21 * 2 ^ 149 * 2 ^ (42 + 149) = 2 ^ (63 + 149) * 2 ^ 149 := by decide
    omega
  have o2 : f32Mul ((m * 2 ^ 149 : Nat) : Int) (xf : Int)
      = some ((f32Round (m * 2 ^ 149 * xf) (2 ^ 149) : Nat) : Int) := by
    rw [f32Mul_nat]
    exact f32Fin_some _ (by omega)
  generalize f32Round (m * 2 ^ 149 * xf) (2 ^ 149) = p at hp_ge hp_le o2
  have hB_ge : m ≤ p / 2 ^ 149 := (Nat.le_div_iff_mul_le (by decide)).2 hp_ge
  have hB_le : p / 2 ^ 149 ≤ 2 ^ 63 :=
    Nat.le_of_lt_succ ((Nat.div_lt_iff_lt_mul (by decide)).2 (by omega))
  have e : Int.tdiv (p : Int) (2 ^ 149) = ((p / 2 ^ 149 : Nat) : Int) := by
    rw [Int.tdiv_eq_ediv (Int.natCast_nonneg _) (by positivity)]
    norm_cast
  refine ⟨p / 2 ^ 149, ?_, hB_ge⟩
  unfold blockF32
  rw [o1, Option.some_bind, o2, Option.some_bind]
  unfold f32ToUInt64
  rw [e, if_pos ⟨Int.natCast_nonneg _, by omega⟩, Int.toNat_natCast]

/-- With `a = 4 * lhsMult * rhsMult` and `b = dBits * (lhsMult + rhsMult)`, and
`b + 2a` below `2^24`: when `a * cacheBits ≥ a * (a + b + 2) + b`,
`computeBlockSize` in single precision returns blocks that are at least the
multiples. -/
theorem computeBlockSizeF32_returns (l r c d : Nat) (hl : 0 < l) (hr : 0 < r)
    (hS : d * (l + r) + 2 * (4 * l * r) < 2 ^ 24) (hc : c < 2 ^ 64)
    (hsuff : 4 * l * r * (4 * l * r + d * (l + r) + 2) + d * (l + r) ≤ 4 * l * r * c) :
    ∃ lb rb, computeBlockSizeF32 l r c d = some (lb, rb) ∧ l ≤ lb ∧ r ≤ rb := by
  obtain ⟨hco, hcb_le⟩ := planCoefficientsF32_eq l r c d hl hr hS hc
  have e4 : 4 * l * r = 4 * (l * r) := by ring
  have hlr1 : 1 ≤ l * r := Nat.mul_pos hl hr
  have hlr : l * r < 2 ^ 21 := by omega
  have h1 : l ≤ l * r := Nat.le_mul_of_pos_right l hr
  have h2 : r ≤ l * r := Nat.le_mul_of_pos_left r hl
  have ha : 4 ≤ 4 * l * r := by omega
  have hc1 : 1 ≤ c := by
    by_contra h0
    have hc0 : c = 0 := by omega
    rw [hc0, Nat.mul_zero] at hsuff
    have : 0 < 4 * l * r * (4 * l * r + d * (l + r) + 2) := Nat.mul_pos (by omega) (by omega)
    omega
  have hrel : (2 ^ 24 - 1) * (c * 2 ^ 149) ≤ 2 ^ 24 * f32Round (c * 2 ^ 149) 1 := by
    have h := (f32Round_rel (c * 2 ^ 149) 1 (by decide) (by omega)).1
    rw [Nat.mul_one] at h
    exact h
  have hcb_ge : 2 ^ 149 ≤ f32Round (c * 2 ^ 149) 1 :=
    f32Round_ge _ 1 _ 1 149 (by decide) (Nat.one_mul _).symm (by decide) (by omega)
  obtain ⟨discr, hdis, hd1, hd2⟩ := discrF32_large (4 * l * r) (d * (l + r)) c
    (f32Round (c * 2 ^ 149) 1) (by omega) hS hrel hcb_le hcb_ge hsuff
  obtain ⟨x, hroot, hx1, hx2⟩ := rootF32_large (4 * l * r) (d * (l + r)) discr ha hS hd1 hd2
  obtain ⟨lb, hlb, hlb2⟩ := blockF32_large l x (by omega) hx1 hx2
  obtain ⟨rb, hrb, hrb2⟩ := blockF32_large r x (by omega) hx1 hx2
  refine ⟨lb, rb, ?_, hlb2, hrb2⟩
  unfold computeBlockSizeF32
  rw [hco, Option.some_bind]
  dsimp only
  rw [hdis, Option.some_bind, hroot, Option.some_bind, hlb, Option.some_bind, hrb,
    Option.some_bind]

/-! ## The planner in single precision, small budgets -/

theorem f32Fin_eq {neg : Bool} {n : Nat} {z : Int} (h : f32Fin neg n = some z) :
    z = if neg then -(n : Int) else n := by
  unfold f32Fin at h
  by_cases hn : n < 2 ^ 128 * 2 ^ 149
  · rw [if_pos hn] at h
    injection h with h
    exact h.symm
  · rw [if_neg hn] at h
    exact absurd h (by simp)

/-- A sum is at most every value with a 24-bit significand that bounds the exact
sum. -/
theorem f32Add_le (x y z : Int) (F M e : Nat) (hF : F = M * 2 ^ e) (hM : M < 2 ^ 24)
    (h : f32Add x y = some z) (hle : x + y ≤ (F : Int)) : z ≤ (F : Int) := by
  unfold f32Add at h
  have hz := f32Fin_eq h
  by_cases hneg : x + y < 0
  · rw [decide_eq_true hneg, if_pos rfl] at hz
    omega
  · rw [decide_eq_false hneg] at hz
    simp only [Bool.false_eq_true, if_false] at hz
    have hr : f32Round (x + y).natAbs 1 ≤ F :=
      f32Round_le _ 1 F M e (by decide) hF hM (by omega)
    omega

/-- A quotient by a positive divisor is at most every value with a 24-bit
significand that bounds the exact quotient. -/
theorem f32Div_le (x z : Int) (Y F M e : Nat) (hY : 0 < Y) (hF : F = M * 2 ^ e)
    (hM : M < 2 ^ 24) (h : f32Div x (Y : Int) = some z)
    (hle : x * 2 ^ 149 ≤ (F : Int) * (Y : Int)) : z ≤ (F : Int) := by
  unfold f32Div at h
  have hY0 : ¬ ((Y : Int) = 0) := by omega
  rw [if_neg hY0, decide_eq_false (not_lt.2 (Int.natCast_nonneg Y)), Int.natAbs_ofNat] at h
  have hz := f32Fin_eq h
  by_cases hneg : x < 0
  · rw [decide_eq_true hneg] at hz
    simp only [Bool.xor_false, if_true] at hz
    omega
  · rw [decide_eq_false hneg] at hz
    simp only [Bool.xor_false, Bool.false_eq_true, if_false] at hz
    obtain ⟨n, rfl⟩ := Int.eq_ofNat_of_zero_le (not_lt.1 hneg)
    rw [Int.natAbs_ofNat] at hz
    have hr : f32Round (n * 2 ^ 149) Y ≤ F := by
      apply f32Round_le _ Y F M e hY hF hM
      exact_mod_cast hle
    omega

theorem toInt64_eq {z x : Int} (h : toInt64 z = some x) : x = z := by
  unfold toInt64 at h
  by_cases hr : -2 ^ 63 ≤ z ∧ z < 2 ^ 63
  · rw [if_pos hr] at h
    injection h with h
    exact h.symm
  · rw [if_neg hr] at h
    exact absurd h (by simp)

/-- The root stage when `discr` is at most `b + 2a - 1`: both quotients are below
1, and the assertion `x > 0` fails. -/
theorem rootF32_small (a b : Nat) (discr : Int) (ha : 0 < a) (hS : b + 2 * a < 2 ^ 24)
    (h0 : 0 ≤ discr) (h1 : discr ≤ (((b + 2 * a - 1) * 2 ^ 149 : Nat) : Int)) :
    rootF32 ((a * 2 ^ 149 : Nat) : Int) ((b * 2 ^ 149 : Nat) : Int) discr = none := by
  have o0 := f32OfNat_small 2 (by decide)
  have o1 := f32Mul_exact 2 a (2 * a) 0 (by ring) (by omega) (by omega)
  unfold rootF32
  rw [o0, Option.some_bind, o1, Option.some_bind]
  cases hy0 : f32Add (-((b * 2 ^ 149 : Nat) : Int)) discr with
  | none => rfl
  | some y0 =>
    rw [Option.some_bind]
    cases hq0 : f32Div y0 ((2 * a * 2 ^ 149 : Nat) : Int) with
    | none => rfl
    | some q0 =>
      rw [Option.some_bind]
      cases hx0 : toInt64 (f32Floor q0) with
      | none => rfl
      | some x0 =>
        rw [Option.some_bind]
        cases hy1 : f32Sub (-((b * 2 ^ 149 : Nat) : Int)) discr with
        | none => rfl
        | some y1 =>
          rw [Option.some_bind]
          cases hq1 : f32Div y1 ((2 * a * 2 ^ 149 : Nat) : Int) with
          | none => rfl
          | some q1 =>
            rw [Option.some_bind]
            cases hx1 : toInt64 (f32Floor q1) with
            | none => rfl
            | some x1 =>
              rw [Option.some_bind]
              have hy0b : y0 ≤ (((2 * a - 1) * 2 ^ 149 : Nat) : Int) :=
                f32Add_le _ _ _ _ (2 * a - 1) 149 rfl (by omega) hy0 (by omega)
              have hq0b : q0 ≤ (((2 ^ 24 - 1) * 2 ^ 125 : Nat) : Int) := by
                apply f32Div_le y0 q0 (2 * a * 2 ^ 149) _ (2 ^ 24 - 1) 125 (by omega) rfl
                  (by decide) hq0
                have e : (((2 * a - 1) * 2 ^ 149 : Nat) : Int) * 2 ^ 149
                    ≤ (((2 ^ 24 - 1) * 2 ^ 125 : Nat) : Int) * ((2 * a * 2 ^ 149 : Nat) : Int) := by
                  have hn : (2 * a - 1) * 2 ^ 149 * 2 ^ 149
                      ≤ (2 ^ 24 - 1) * 2 ^ 125 * (2 * a * 2 ^ 149) := by
                    have h3 : (2 * a - 1) * 2 ^ 24 ≤ (2 ^ 24 - 1) * (2 * a) := by omega
                    have h4 := Nat.mul_le_mul_right (2 ^ 125 * 2 ^ 149) h3
                    have e1 : (2 * a - 1) * 2 ^ 24 * (2 ^ 125 * 2 ^ 149)
                        = (2 * a - 1) * 2 ^ 149 * 2 ^ 149 := by
                      have : (2 : Nat) ^ 24 * (2 ^ 125 * 2 ^ 149) = 2 ^ 149 * 2 ^ 149 := by
                        decide
                      rw [Nat.mul_assoc, this, Nat.mul_assoc]
                    have e2 : (2 ^ 24 - 1) * (2 * a) * (2 ^ 125 * 2 ^ 149)
                        = (2 ^ 24 - 1) * 2 ^ 125 * (2 * a * 2 ^ 149) := by ring
                    rw [e1, e2] at h4
                    exact h4
                  exact_mod_cast hn
                have h5 : y0 * 2 ^ 149 ≤ (((2 * a - 1) * 2 ^ 149 : Nat) : Int) * 2 ^ 149 :=
                  Int.mul_le_mul_of_nonneg_right hy0b (by positivity)
                exact Int.le_trans h5 e
              have hx0b : x0 ≤ 0 := by
                rw [toInt64_eq hx0]
                unfold f32Floor
                have : q0 / 2 ^ 149 < 1 :=
                  Int.ediv_lt_of_lt_mul (by positivity) (by omega)
                generalize q0 / 2 ^ 149 = t at this ⊢
                omega
              have hy1b : y1 ≤ ((0 : Nat) : Int) := by
                unfold f32Sub at hy1
                exact f32Add_le _ _ _ 0 0 0 (by simp) (by decide) hy1 (by omega)
              have hq1b : q1 ≤ ((0 : Nat) : Int) := by
                apply f32Div_le y1 q1 (2 * a * 2 ^ 149) 0 0 0 (by omega) (by simp) (by decide) hq1
                have : y1 * 2 ^ 149 ≤ 0 :=
                  Int.mul_nonpos_of_nonpos_of_nonneg (by omega) (by positivity)
                simpa using this
              have hx1b : x1 ≤ 0 := by
                rw [toInt64_eq hx1]
                unfold f32Floor
                have : q1 / 2 ^ 149 < 1 :=
                  Int.ediv_lt_of_lt_mul (by positivity) (by omega)
                generalize q1 / 2 ^ 149 = t at this ⊢
                omega
              have hx : ¬ (0 < (if x0 > x1 then x0 else x1)) := by
                split <;> omega
              rw [if_neg hx]

/-- The upper relative error of a rounding, zero included. -/
theorem f32Round_rel_up (num den : Nat) (hden : 0 < den)
    (h : num = 0 ∨ 2 ^ 23 * den ≤ num) :
    2 ^ 24 * (f32Round num den * den) ≤ (2 ^ 24 + 1) * num := by
  rcases h with h | h
  · subst h
    rw [f32Round_zero]
    simp
  · exact (f32Round_rel num den hden h).2

/-- A rounding of zero or of a value at least one unit is zero or at least one
unit. -/
theorem f32Round_zero_or (num den : Nat) (hden : 0 < den)
    (h : num = 0 ∨ 2 ^ 149 * den ≤ num) :
    f32Round num den = 0 ∨ 2 ^ 149 ≤ f32Round num den := by
  rcases h with h | h
  · subst h
    exact Or.inl (f32Round_zero den)
  · exact Or.inr (f32Round_ge num den (2 ^ 149) 1 149 hden (Nat.one_mul _).symm (by decide) h)

/-- Cancelling the unit in an upper relative error bound. -/
theorem rel_cancel_up (Y R : Nat)
    (h : 2 ^ 24 * (R * 2 ^ 149) ≤ (2 ^ 24 + 1) * (Y * 2 ^ 149)) :
    2 ^ 24 * R ≤ (2 ^ 24 + 1) * Y := by
  have h2 : 2 ^ 24 * R * 2 ^ 149 ≤ (2 ^ 24 + 1) * Y * 2 ^ 149 := by
    have e1 : (2 ^ 24 + 1) * Y * 2 ^ 149 = (2 ^ 24 + 1) * (Y * 2 ^ 149) := by ring
    have e2 : 2 ^ 24 * R * 2 ^ 149 = 2 ^ 24 * (R * 2 ^ 149) := by ring
    rw [e1, e2]; exact h
  exact Nat.le_of_mul_le_mul_right h2 (by decide)

/-- The arithmetic of the upper bound: three roundings with relative error `2^-24`
keep the discriminant at most `(b + 2a - 1)^2` when the budget is below
`a + b` by the margin `3 + 2b / a`. -/
theorem discr_upper_arith (a b c cb bb T D : Nat) (ha : 0 < a) (hS : b + 2 * a < 2 ^ 24)
    (hnec : a * (c + 3) + 2 * b ≤ a * (a + b))
    (hc1 : 2 ^ 24 * cb ≤ (2 ^ 24 + 1) * (c * 2 ^ 149))
    (hT : 2 ^ 24 * T ≤ (2 ^ 24 + 1) * (4 * (a * cb)))
    (hbb : 2 ^ 24 * bb ≤ (2 ^ 24 + 1) * (b * b * 2 ^ 149))
    (hD : 2 ^ 24 * D ≤ (2 ^ 24 + 1) * (bb + T)) :
    D ≤ (b + 2 * a - 1) * (b + 2 * a - 1) * 2 ^ 149 := by
  have hc1a : 2 ^ 24 * (a * cb) ≤ (2 ^ 24 + 1) * ((a * c) * 2 ^ 149) := by
    have h := Nat.mul_le_mul_left a hc1
    have e1 : a * ((2 ^ 24 + 1) * (c * 2 ^ 149)) = (2 ^ 24 + 1) * ((a * c) * 2 ^ 149) := by ring
    have e2 : a * (2 ^ 24 * cb) = 2 ^ 24 * (a * cb) := by ring
    rw [e1, e2] at h
    exact h
  have e : (b + 2 * a) * (b + 2 * a) = b * b + 4 * (a * b) + 4 * (a * a) := by ring
  have hSS : b * b + 4 * (a * b) + 4 * (a * a) ≤ (2 ^ 24 - 1) * (b + 2 * a) := by
    have h := Nat.mul_le_mul_right (b + 2 * a) (show b + 2 * a ≤ 2 ^ 24 - 1 by omega)
    rw [e] at h
    exact h
  obtain ⟨s, hs⟩ : ∃ s, b + 2 * a = s + 1 := ⟨b + 2 * a - 1, by omega⟩
  have es : b + 2 * a - 1 = s := by omega
  have e2 : s * s + 2 * s + 1 = b * b + 4 * (a * b) + 4 * (a * a) := by
    rw [← e, hs]; ring
  have e3 : a * (c + 3) = a * c + 3 * a := by ring
  have e4 : a * (a + b) = a * a + a * b := by ring
  rw [es]
  rw [e3, e4] at hnec
  clear hc1 e
  generalize a * a = AA at *
  generalize a * b = AB at *
  generalize b * b = BB at *
  generalize a * c = AC at *
  generalize a * cb = P at *
  generalize s * s = SS at *
  omega

/-- The discriminant stage when the budget is small: `discr`, when the stage
passes, is at most `b + 2a - 1`. -/
theorem discrF32_small (a b c cb : Nat) (ha : 0 < a) (hS : b + 2 * a < 2 ^ 24)
    (hc1 : 2 ^ 24 * cb ≤ (2 ^ 24 + 1) * (c * 2 ^ 149)) (hc2 : cb ≤ 2 ^ 64 * 2 ^ 149)
    (hc3 : cb = 0 ∨ 2 ^ 149 ≤ cb) (hnec : a * (c + 3) + 2 * b ≤ a * (a + b)) (z : Int)
    (h : discrF32 ((a * 2 ^ 149 : Nat) : Int) ((b * 2 ^ 149 : Nat) : Int) (cb : Int) = some z) :
    0 ≤ z ∧ z ≤ (((b + 2 * a - 1) * 2 ^ 149 : Nat) : Int) := by
  have hbb_le : f32Round (b * 2 ^ 149 * (b * 2 ^ 149)) (2 ^ 149) ≤ 2 ^ (48 + 149) := by
    apply f32Round_le_pow _ _ _ (by decide)
    have h1 : b * b ≤ 2 ^ 24 * 2 ^ 24 := Nat.mul_le_mul (by omega) (by omega)
    have e : b * 2 ^ 149 * (b * 2 ^ 149) = b * b * (2 ^ 149 * 2 ^ 149) := by ring
    rw [e]
    generalize b * b = B at h1
    omega
  have hT_le : f32Round (4 * a * 2 ^ 149 * cb) (2 ^ 149) ≤ 2 ^ (89 + 149) := by
    apply f32Round_le_pow _ _ _ (by decide)
    have h1 : 4 * a * 2 ^ 149 * cb ≤ 2 ^ 25 * 2 ^ 149 * (2 ^ 64 * 2 ^ 149) :=
      Nat.mul_le_mul (by omega) hc2
    have e : 2 ^ 25 * 2 ^ 149 * (2 ^ 64 * 2 ^ 149) = 2 ^ (89 + 149) * 2 ^ 149 := by decide
    omega
  have eb : b * 2 ^ 149 * (b * 2 ^ 149) = b * b * 2 ^ 149 * 2 ^ 149 := by ring
  have hbb_arg : b * 2 ^ 149 * (b * 2 ^ 149) = 0
      ∨ 2 ^ 149 * 2 ^ 149 ≤ b * 2 ^ 149 * (b * 2 ^ 149) := by
    by_cases hb : b = 0
    · subst hb; exact Or.inl (by simp)
    · have hb1 : 1 ≤ b * b := Nat.mul_pos (by omega) (by omega)
      refine Or.inr ?_
      rw [eb]
      generalize b * b = B at hb1
      omega
  have eT : 4 * a * 2 ^ 149 * cb = 4 * (a * cb) * 2 ^ 149 := by ring
  have hT_arg : 4 * a * 2 ^ 149 * cb = 0 ∨ 2 ^ 149 * 2 ^ 149 ≤ 4 * a * 2 ^ 149 * cb := by
    rcases hc3 with hc3 | hc3
    · subst hc3; exact Or.inl (by simp)
    · exact Or.inr (Nat.mul_le_mul (by omega) hc3)
  have hbb_0 := f32Round_zero_or _ (2 ^ 149) (by decide) hbb_arg
  have hT_0 := f32Round_zero_or _ (2 ^ 149) (by decide) hT_arg
  have hbb_rel : 2 ^ 24 * f32Round (b * 2 ^ 149 * (b * 2 ^ 149)) (2 ^ 149)
      ≤ (2 ^ 24 + 1) * (b * b * 2 ^ 149) := by
    have h1 := f32Round_rel_up (b * 2 ^ 149 * (b * 2 ^ 149)) (2 ^ 149) (by decide)
      (by rcases hbb_arg with h | h
          · exact Or.inl h
          · exact Or.inr (by omega))
    rw [eb] at h1 ⊢
    exact rel_cancel_up _ _ h1
  have hT_rel : 2 ^ 24 * f32Round (4 * a * 2 ^ 149 * cb) (2 ^ 149)
      ≤ (2 ^ 24 + 1) * (4 * (a * cb)) := by
    have h1 := f32Round_rel_up (4 * a * 2 ^ 149 * cb) (2 ^ 149) (by decide)
      (by rcases hT_arg with h | h
          · exact Or.inl h
          · exact Or.inr (by omega))
    rw [eT] at h1 ⊢
    exact rel_cancel_up _ _ h1
  have o2 := f32Mul_exact 4 a a 2 (by ring) (by omega) (by omega)
  have o1 : f32Mul ((b * 2 ^ 149 : Nat) : Int) ((b * 2 ^ 149 : Nat) : Int)
      = some ((f32Round (b * 2 ^ 149 * (b * 2 ^ 149)) (2 ^ 149) : Nat) : Int) := by
    rw [f32Mul_nat]
    exact f32Fin_some _ (by omega)
  have o3 := f32Mul_nat_neg (4 * a * 2 ^ 149) cb (by omega)
  generalize hbb : f32Round (b * 2 ^ 149 * (b * 2 ^ 149)) (2 ^ 149) = bb
    at hbb_le hbb_rel hbb_0 o1
  generalize hT : f32Round (4 * a * 2 ^ 149 * cb) (2 ^ 149) = T at hT_le hT_0 hT_rel o3
  have hD_le : f32Round (bb + T) 1 ≤ 2 ^ (90 + 149) :=
    f32Round_le_pow _ _ _ (by decide) (by omega)
  have hD_rel : 2 ^ 24 * f32Round (bb + T) 1 ≤ (2 ^ 24 + 1) * (bb + T) := by
    have h := f32Round_rel_up (bb + T) 1 (by decide) (by omega)
    rw [Nat.mul_one] at h
    exact h
  have o4 : f32Sub (bb : Int) (-(T : Int)) = some ((f32Round (bb + T) 1 : Nat) : Int) := by
    unfold f32Sub
    rw [neg_neg, f32Add_nat]
    exact f32Fin_some _ (by omega)
  generalize hD : f32Round (bb + T) 1 = D at hD_le hD_rel o4
  have hDW := discr_upper_arith a b c cb bb T D ha hS hnec hc1 hT_rel hbb_rel hD_rel
  have o5 := f32Sqrt_nat D
  have hdis_le : f32RoundSqrt (D * 2 ^ 149) ≤ (b + 2 * a - 1) * 2 ^ 149 := by
    apply f32RoundSqrt_le _ _ (b + 2 * a - 1) 149 rfl (by omega)
    have e : (b + 2 * a - 1) * 2 ^ 149 * ((b + 2 * a - 1) * 2 ^ 149)
        = (b + 2 * a - 1) * (b + 2 * a - 1) * 2 ^ 149 * 2 ^ 149 := by ring
    rw [e]
    exact Nat.mul_le_mul_right _ hDW
  have o0 := f32OfNat_small 4 (by decide)
  unfold discrF32 at h
  rw [o0, Option.some_bind, o1, Option.some_bind, o2, Option.some_bind, o3, Option.some_bind,
    o4, Option.some_bind, o5, Option.some_bind] at h
  by_cases hpos : (0 : Int) < ((f32RoundSqrt (D * 2 ^ 149) : Nat) : Int)
  · rw [if_pos hpos] at h
    injection h with h
    subst h
    exact ⟨Int.natCast_nonneg _, Int.ofNat_le.2 hdis_le⟩
  · rw [if_neg hpos] at h
    exact absurd h (by simp)

/-- Below the threshold the planner aborts: with `a = 4 * lhsMult * rhsMult` and
`b = dBits * (lhsMult + rhsMult)`, `b + 2a < 2^24` and `cacheBits < 2^64`, a budget
with `a * (cacheBits + 3) + 2 * b ≤ a * (a + b)` fails one of the two
assertions. -/
theorem computeBlockSizeF32_aborts (l r c d : Nat) (hl : 0 < l) (hr : 0 < r)
    (hS : d * (l + r) + 2 * (4 * l * r) < 2 ^ 24) (hc : c < 2 ^ 64)
    (hnec : 4 * l * r * (c + 3) + 2 * (d * (l + r)) ≤ 4 * l * r * (4 * l * r + d * (l + r))) :
    computeBlockSizeF32 l r c d = none := by
  obtain ⟨hco, hcb⟩ := planCoefficientsF32_eq l r c d hl hr hS hc
  have ha : 0 < 4 * l * r := Nat.mul_pos (by omega) hr
  have hcarg : c * 2 ^ 149 = 0 ∨ 2 ^ 149 * 1 ≤ c * 2 ^ 149 := by
    by_cases h0 : c = 0
    · subst h0; exact Or.inl (by simp)
    · exact Or.inr (by omega)
  have hc3 := f32Round_zero_or _ 1 (by decide) hcarg
  have hc1 : 2 ^ 24 * f32Round (c * 2 ^ 149) 1 ≤ (2 ^ 24 + 1) * (c * 2 ^ 149) := by
    have h := f32Round_rel_up (c * 2 ^ 149) 1 (by decide)
      (by rcases hcarg with h | h
          · exact Or.inl h
          · exact Or.inr (by omega))
    rw [Nat.mul_one] at h
    exact h
  unfold computeBlockSizeF32
  rw [hco, Option.some_bind]
  cases hd : discrF32 ((4 * l * r * 2 ^ 149 : Nat) : Int) ((d * (l + r) * 2 ^ 149 : Nat) : Int)
      ((f32Round (c * 2 ^ 149) 1 : Nat) : Int) with
  | none => rfl
  | some z =>
    obtain ⟨hz0, hz1⟩ := discrF32_small (4 * l * r) (d * (l + r)) c _ ha hS hc1 hcb hc3 hnec z hd
    rw [Option.some_bind, rootF32_small (4 * l * r) (d * (l + r)) z ha hS hz0 hz1]
    rfl

/-! ## Packing: round trip and padding -/

/-- C3 (amended): for every `BitSerialMatrix` satisfying the data-model invariants
with a precision of at most 8 bits, and every dense row-major matrix `M` whose
elements lie in `[0, 2^nbits)`, `importRegular` followed by `exportRegular`
gives back `M` element for element, whatever the two buffers held before. -/
theorem roundtrip_up_to_eight_bits (m : BitSerialMatrix) (hwf : m.WF) (hn : m.nbits ≤ 8)
    (M out0 : Nat → Int)
    (hM : ∀ r, r < m.nrows → ∀ c, c < m.ncols →
      0 ≤ M (r * m.ncols + c) ∧ M (r * m.ncols + c) < 2 ^ m.nbits) :
    ∀ r, r < m.nrows → ∀ c, c < m.ncols →
      (m.importRegular M false).exportRegular out0 (r * m.ncols + c)
        = M (r * m.ncols + c) := by
  intro r hr c hc
  obtain ⟨h0, h1⟩ := hM r hr c hc
  obtain ⟨e1, e2⟩ := toUInt8_of_small hn h0 h1
  rw [exportRegular_importRegular m M false out0 hwf hr hc]
  have hsrc : m.sourceElem M false r c = (M (r * m.ncols + c)).toNat := by
    unfold BitSerialMatrix.sourceElem
    simpa using e1
  have hmin : min m.nbits 8 = m.nbits := by omega
  rw [hsrc, hmin, Nat.mod_eq_of_lt e2, Int.toNat_of_nonneg h0]

theorem roundtrip_up_to_eight_bits_witness :
    ((⟨false, 2, 2, 3, 2, 64, fun _ => 7⟩ : BitSerialMatrix).importRegular
        (fun i => [1, 2, 3, 0, 1, 2].getD i 0) false).exportRegular (fun _ => 9) (0 * 3 + 2) = 3
    ∧ ((⟨false, 2, 2, 3, 2, 64, fun _ => 7⟩ : BitSerialMatrix).importRegular
        (fun i => [1, 2, 3, 0, 1, 2].getD i 0) false).exportRegular (fun _ => 9) (1 * 3 + 1) = 1 :=
  ⟨roundtrip_up_to_eight_bits ⟨false, 2, 2, 3, 2, 64, fun _ => 7⟩
      ⟨by decide, by decide, by decide⟩ (by decide)
      (fun i => [1, 2, 3, 0, 1, 2].getD i 0) (fun _ => 9) (by decide) 0 (by decide) 2 (by decide),
   roundtrip_up_to_eight_bits ⟨false, 2, 2, 3, 2, 64, fun _ => 7⟩
      ⟨by decide, by decide, by decide⟩ (by decide)
      (fun i => [1, 2, 3, 0, 1, 2].getD i 0) (fun _ => 9) (by decide) 1 (by decide) 1 (by decide)⟩

/-- C6: for every `BitSerialMatrix` satisfying the data-model invariants (any
precision, any dimensions, allocated columns a multiple of 64), every prior
buffer content and every dense input, in either reading order, after
`importRegular` every stored bit `(b, r, c)` with `b < nbits`, `r < nrows_a`,
`c < ncols_a` that lies in a padding row or a padding column is zero. -/
theorem importRegular_zero_padding (m : BitSerialMatrix) (hwf : m.WF) (M : Nat → Int)
    (readColMajor : Bool) (b r c : Nat) (hb : b < m.nbits) (hr : r < m.nrows_a)
    (hc : c < m.ncols_a) (hpad : m.nrows ≤ r ∨ m.ncols ≤ c) :
    (m.importRegular M readColMajor).get b r c = false := by
  rw [Bool.eq_false_iff]
  intro h
  obtain ⟨h1, h2, _⟩ := (get_importRegular m M readColMajor hwf hb hr hc).1 h
  omega

theorem importRegular_zero_padding_witness :
    ((⟨false, 2, 3, 3, 4, 64, fun _ => 2 ^ 64 - 1⟩ : BitSerialMatrix).importRegular
        (fun _ => 3) false).get 1 3 0 = false
    ∧ ((⟨false, 2, 3, 3, 4, 64, fun _ => 2 ^ 64 - 1⟩ : BitSerialMatrix).importRegular
        (fun _ => 3) false).get 0 1 63 = false :=
  ⟨importRegular_zero_padding ⟨false, 2, 3, 3, 4, 64, fun _ => 2 ^ 64 - 1⟩
      ⟨by decide, by decide, by decide⟩ (fun _ => 3) false 1 3 0 (by decide) (by decide)
      (by decide) (by decide),
   importRegular_zero_padding ⟨false, 2, 3, 3, 4, 64, fun _ => 2 ^ 64 - 1⟩
      ⟨by decide, by decide, by decide⟩ (fun _ => 3) false 0 1 63 (by decide) (by decide)
      (by decide) (by decide)⟩

/-! ## Correctness of the bit-serial product -/

/-- C1: on every context that satisfies the context invariants, with both
operands unsigned, 1 to 8 bits on each side, operands imported with
`importRegular` from dense matrices `L` (`lhsRows x depth`) and `R`
(`rhsRows x depth`, the transposed RHS) whose elements lie in `[0, 2^nbits)`,
and every exact dot product fitting in `int32_t`, the tiled kernel passes its
assertions and leaves `res[i * lhsRows + j] = sum over k of L[j][k] * R[i][k]`,
whatever the accumulator and the operand buffers held before. -/
theorem gemm_unsigned_correct (ctx : GEMMContext) (hinv : ctx.Invariants)
    (hls : ctx.lhs.issigned = false) (hrs : ctx.rhs.issigned = false)
    (hlb : 1 ≤ ctx.lhs.nbits ∧ ctx.lhs.nbits ≤ 8) (hrb : 1 ≤ ctx.rhs.nbits ∧ ctx.rhs.nbits ≤ 8)
    (L R acc0 : Nat → Int)
    (hL : ∀ j, j < ctx.lhs.nrows → ∀ k, k < ctx.lhs.ncols →
      0 ≤ L (j * ctx.lhs.ncols + k) ∧ L (j * ctx.lhs.ncols + k) < 2 ^ ctx.lhs.nbits)
    (hR : ∀ i, i < ctx.rhs.nrows → ∀ k, k < ctx.rhs.ncols →
      0 ≤ R (i * ctx.rhs.ncols + k) ∧ R (i * ctx.rhs.ncols + k) < 2 ^ ctx.rhs.nbits)
    (hfit : ∀ i, i < ctx.rhs.nrows → ∀ j, j < ctx.lhs.nrows →
      -2147483648 ≤ ∑ k ∈ Finset.range ctx.lhs.ncols,
          L (j * ctx.lhs.ncols + k) * R (i * ctx.rhs.ncols + k)
      ∧ ∑ k ∈ Finset.range ctx.lhs.ncols,
          L (j * ctx.lhs.ncols + k) * R (i * ctx.rhs.ncols + k) < 2147483648) :
    ∃ res, gemmBitSerial_generic_usingBinary (ctx.load L R acc0) = some res
      ∧ ∀ i, i < ctx.rhs.nrows → ∀ j, j < ctx.lhs.nrows →
        res (i * ctx.lhs.nrows + j)
          = ∑ k ∈ Finset.range ctx.lhs.ncols,
              L (j * ctx.lhs.ncols + k) * R (i * ctx.rhs.ncols + k) := by
  have hmix : ctx.mixedBipolar = false := by
    unfold GEMMContext.mixedBipolar; rw [hls, hrs]; simp
  obtain ⟨res, hres, hcells⟩ := usingBinary_loaded ctx hinv hmix (by omega) L R acc0
  refine ⟨res, hres, ?_⟩
  intro i hi j hj
  rw [hcells i hi j hj]
  have hsum : (∑ k ∈ Finset.range ctx.lhs.ncols,
      planeValue ctx.lhs.issigned ctx.lhs.nbits (toUInt8 (L (j * ctx.lhs.ncols + k)))
        * planeValue ctx.rhs.issigned ctx.rhs.nbits (toUInt8 (R (i * ctx.rhs.ncols + k))))
      = ∑ k ∈ Finset.range ctx.lhs.ncols,
          L (j * ctx.lhs.ncols + k) * R (i * ctx.rhs.ncols + k) := by
    apply Finset.sum_congr rfl
    intro k hk
    have hk2 := Finset.mem_range.1 hk
    rw [planeValue_toUInt8 _ _ _ hlb.1 hlb.2 (by
        unfold inRange; rw [hls]; exact hL j hj k hk2),
      planeValue_toUInt8 _ _ _ hrb.1 hrb.2 (by
        unfold inRange; rw [hrs]; exact hR i hi k (by rw [← hinv.2.2.1]; exact hk2))]
  rw [hsum]
  exact toInt32_of_fits (hfit i hi j hj).1 (hfit i hi j hj).2

theorem gemm_unsigned_correct_witness :
    ∃ res, gemmBitSerial_generic_usingBinary
        (scenarioS1.load (fun i => [1, 2, 3, 0, 1, 2].getD i 0)
          (fun i => [1, 0, 1, 2, 1, 0].getD i 0) (fun _ => 99)) = some res
      ∧ res 0 = 4 ∧ res 1 = 2 ∧ res 2 = 4 ∧ res 3 = 1 := by
  obtain ⟨res, h1, h2⟩ := gemm_unsigned_correct scenarioS1 (by decide) (by decide) (by decide)
    (by decide) (by decide) (fun i => [1, 2, 3, 0, 1, 2].getD i 0)
    (fun i => [1, 0, 1, 2, 1, 0].getD i 0) (fun _ => 99) (by decide) (by decide) (by decide)
  exact ⟨res, h1, (h2 0 (by decide) 0 (by decide)).trans (by decide),
    (h2 0 (by decide) 1 (by decide)).trans (by decide),
    (h2 1 (by decide) 0 (by decide)).trans (by decide),
    (h2 1 (by decide) 1 (by decide)).trans (by decide)⟩

/-- C2: on every context that satisfies the context invariants, with 1 to 8 bits
on each side and no bipolar operand (a signed operand has at least 2 bits),
whichever of the two operands are signed, operands imported with
`importRegular` from dense matrices whose elements lie in the two's-complement
range of width `nbits` when the operand is signed and in `[0, 2^nbits)` when
it is unsigned, and every exact dot product fitting in `int32_t`, the tiled
kernel passes its assertions and leaves
`res[i * lhsRows + j] = sum over k of L[j][k] * R[i][k]`, computed on the
signed integer values. -/
theorem gemm_signed_correct (ctx : GEMMContext) (hinv : ctx.Invariants)
    (hlb : 1 ≤ ctx.lhs.nbits ∧ ctx.lhs.nbits ≤ 8) (hrb : 1 ≤ ctx.rhs.nbits ∧ ctx.rhs.nbits ≤ 8)
    (hlnb : ctx.lhs.issigned = true → 2 ≤ ctx.lhs.nbits)
    (hrnb : ctx.rhs.issigned = true → 2 ≤ ctx.rhs.nbits)
    (L R acc0 : Nat → Int)
    (hL : ∀ j, j < ctx.lhs.nrows → ∀ k, k < ctx.lhs.ncols →
      inRange ctx.lhs.issigned ctx.lhs.nbits (L (j * ctx.lhs.ncols + k)))
    (hR : ∀ i, i < ctx.rhs.nrows → ∀ k, k < ctx.rhs.ncols →
      inRange ctx.rhs.issigned ctx.rhs.nbits (R (i * ctx.rhs.ncols + k)))
    (hfit : ∀ i, i < ctx.rhs.nrows → ∀ j, j < ctx.lhs.nrows →
      -2147483648 ≤ ∑ k ∈ Finset.range ctx.lhs.ncols,
          L (j * ctx.lhs.ncols + k) * R (i * ctx.rhs.ncols + k)
      ∧ ∑ k ∈ Finset.range ctx.lhs.ncols,
          L (j * ctx.lhs.ncols + k) * R (i * ctx.rhs.ncols + k) < 2147483648) :
    ∃ res, gemmBitSerial_generic_usingBinary (ctx.load L R acc0) = some res
      ∧ ∀ i, i < ctx.rhs.nrows → ∀ j, j < ctx.lhs.nrows →
        res (i * ctx.lhs.nrows + j)
          = ∑ k ∈ Finset.range ctx.lhs.ncols,
              L (j * ctx.lhs.ncols + k) * R (i * ctx.rhs.ncols + k) := by
  have hmix : ctx.mixedBipolar = false := by
    unfold GEMMContext.mixedBipolar
    have h1 : ((ctx.lhs.nbits == 1) && ctx.lhs.issigned) = false := by
      cases hs : ctx.lhs.issigned with
      | false => simp
      | true => have := hlnb hs; simp; omega
    have h2 : ((ctx.rhs.nbits == 1) && ctx.rhs.issigned) = false := by
      cases hs : ctx.rhs.issigned with
      | false => simp
      | true => have := hrnb hs; simp; omega
    rw [h1, h2]; rfl
  obtain ⟨res, hres, hcells⟩ := usingBinary_loaded ctx hinv hmix (by omega) L R acc0
  refine ⟨res, hres, ?_⟩
  intro i hi j hj
  rw [hcells i hi j hj]
  have hsum : (∑ k ∈ Finset.range ctx.lhs.ncols,
      planeValue ctx.lhs.issigned ctx.lhs.nbits (toUInt8 (L (j * ctx.lhs.ncols + k)))
        * planeValue ctx.rhs.issigned ctx.rhs.nbits (toUInt8 (R (i * ctx.rhs.ncols + k))))
      = ∑ k ∈ Finset.range ctx.lhs.ncols,
          L (j * ctx.lhs.ncols + k) * R (i * ctx.rhs.ncols + k) := by
    apply Finset.sum_congr rfl
    intro k hk
    have hk2 := Finset.mem_range.1 hk
    rw [planeValue_toUInt8 _ _ _ hlb.1 hlb.2 (hL j hj k hk2),
      planeValue_toUInt8 _ _ _ hrb.1 hrb.2 (hR i hi k (by rw [← hinv.2.2.1]; exact hk2))]
  rw [hsum]
  exact toInt32_of_fits (hfit i hi j hj).1 (hfit i hi j hj).2

theorem gemm_signed_correct_witness :
    ∃ res, gemmBitSerial_generic_usingBinary
        (scenarioSigned.load (fun i => [-4, 3, -1, 0, 2, -3].getD i 0)
          (fun i => [1, 3, 2, 0].getD i 0) (fun i => -7 - i)) = some res
      ∧ res 0 = 5 ∧ res 1 = -1 ∧ res 2 = -7 ∧ res 3 = -8 ∧ res 4 = -2 ∧ res 5 = 4 := by
  obtain ⟨res, h1, h2⟩ := gemm_signed_correct scenarioSigned (by decide) (by decide)
    (by decide) (by decide) (by decide) (fun i => [-4, 3, -1, 0, 2, -3].getD i 0)
    (fun i => [1, 3, 2, 0].getD i 0) (fun i => -7 - i) (by decide) (by decide) (by decide)
  exact ⟨res, h1, (h2 0 (by decide) 0 (by decide)).trans (by decide),
    (h2 0 (by decide) 1 (by decide)).trans (by decide),
    (h2 0 (by decide) 2 (by decide)).trans (by decide),
    (h2 1 (by decide) 0 (by decide)).trans (by decide),
    (h2 1 (by decide) 1 (by decide)).trans (by decide),
    (h2 1 (by decide) 2 (by decide)).trans (by decide)⟩

/-- C5: for every `BitSerialMatrix` satisfying the data-model invariants, with 1 to
8 bits, populated by `importRegular` from a dense matrix `M` whose elements are
in range for `(nbits, issigned)` and whose row sums fit in `int32_t`,
`sumRows_generic_naive` writes `row_sums[r] = sum over c < ncols of M[r][c]`
for every `r < nrows`, the elements read as unsigned values when `issigned` is
false and as two's-complement values of width `nbits` when it is true; the
padding columns contribute nothing. -/
theorem sumRows_correct (m : BitSerialMatrix) (hwf : m.WF)
    (hn : 1 ≤ m.nbits ∧ m.nbits ≤ 8) (M sums0 : Nat → Int)
    (hM : ∀ r, r < m.nrows → ∀ c, c < m.ncols →
      inRange m.issigned m.nbits (M (r * m.ncols + c)))
    (hfit : ∀ r, r < m.nrows →
      -2147483648 ≤ ∑ c ∈ Finset.range m.ncols, M (r * m.ncols + c)
      ∧ ∑ c ∈ Finset.range m.ncols, M (r * m.ncols + c) < 2147483648) :
    ∀ r, r < m.nrows →
      sumRows_generic_naive (m.importRegular M false) sums0 r
        = ∑ c ∈ Finset.range m.ncols, M (r * m.ncols + c) := by
  intro r hr
  obtain ⟨s1, s2, s3, s4, s5, s6⟩ := importRegular_sameShape m M false hwf
  rw [sumRows_cells (m.importRegular M false) (by rw [s6]; exact hwf.1)
    (by rw [s2]; omega) sums0 r
    (by rw [s3]; exact hr), s1, s2, s6]
  have hplane : ∀ b, b ∈ Finset.range m.nbits →
      (∑ c ∈ Finset.range m.ncols_a,
          (if (m.importRegular M false).get b r c then (1 : Int) else 0))
        = ∑ c ∈ Finset.range m.ncols,
            (if (toUInt8 (M (r * m.ncols + c))).testBit b then (1 : Int) else 0) := by
    intro b hb
    have hb2 := Finset.mem_range.1 hb
    rw [sum_range_padding _ m.ncols m.ncols_a hwf.2.2]
    · apply Finset.sum_congr rfl
      intro c hc
      rw [get_importRegular_logical m M false hwf hb2 hr (Finset.mem_range.1 hc),
        sourceElem_rowMajor]
    · intro c hc1 hc2
      have hz : (m.importRegular M false).get b r c = false := by
        rw [Bool.eq_false_iff]
        intro hg
        have := (get_importRegular m M false hwf hb2 (Nat.lt_of_lt_of_le hr hwf.2.1) hc2).1 hg
        omega
      rw [hz]
      simp
  rw [Finset.sum_congr rfl (fun b hb => by rw [hplane b hb]),
    planes_to_row_values m.nbits m.ncols
      (fun b c => (toUInt8 (M (r * m.ncols + c))).testBit b) (planeWeight m.issigned m.nbits)]
  have hval : ∀ c, c ∈ Finset.range m.ncols →
      (∑ b ∈ Finset.range m.nbits,
          (if (toUInt8 (M (r * m.ncols + c))).testBit b then planeWeight m.issigned m.nbits b
            else 0))
        = M (r * m.ncols + c) := by
    intro c hc
    exact planeValue_toUInt8 _ _ _ hn.1 hn.2 (hM r hr c (Finset.mem_range.1 hc))
  rw [Finset.sum_congr rfl hval]
  exact toInt32_of_fits (hfit r hr).1 (hfit r hr).2

theorem sumRows_correct_witness :
    sumRows_generic_naive
        ((⟨true, 3, 3, 2, 4, 128, fun i => i + 5⟩ : BitSerialMatrix).importRegular
          (fun i => [-4, 3, -1, 0, 2, 3].getD i 0) false) (fun _ => 77) 0 = -1
    ∧ sumRows_generic_naive
        ((⟨true, 3, 3, 2, 4, 128, fun i => i + 5⟩ : BitSerialMatrix).importRegular
          (fun i => [-4, 3, -1, 0, 2, 3].getD i 0) false) (fun _ => 77) 2 = 5 :=
  ⟨(sumRows_correct ⟨true, 3, 3, 2, 4, 128, fun i => i + 5⟩ (by decide) (by decide)
      (fun i => [-4, 3, -1, 0, 2, 3].getD i 0) (fun _ => 77) (by decide) (by decide)
      0 (by decide)).trans (by decide),
   (sumRows_correct ⟨true, 3, 3, 2, 4, 128, fun i => i + 5⟩ (by decide) (by decide)
      (fun i => [-4, 3, -1, 0, 2, 3].getD i 0) (fun _ => 77) (by decide) (by decide)
      2 (by decide)).trans (by decide)⟩

/-- C8 (amended): for every `lhsRows`, `rhsRows`, `depth` and bit widths for which
`allocGEMMContext_generic` returns, whatever value the planner root `x` takes,
provided rounding the row counts up to the planner's initial blocks does not
pass `2^64`, the result satisfies `lhs.nrows_a % lhsBlock == 0`,
`rhs.nrows_a % rhsBlock == 0`, `lhsBlock % 2 == 0`, `rhsBlock % 2 == 0`,
`lhs.ncols_a % 64 == 0`, `lhs.ncols == rhs.ncols` and
`lhs.ncols_a == rhs.ncols_a` on every planner path, both blocks are positive,
and no assertion of the tiled driver fails on it. -/
theorem alloc_context_invariants (fpRoot : Nat → Nat → Nat → Nat → Int)
    (lhsRows depth rhsRows lhsBits rhsBits : Nat) (lhsSigned rhsSigned : Bool)
    (lhsData rhsData : Nat → Nat) (res : Nat → Int) (ctx : GEMMContext)
    (hrows : ∀ d lb0 rb0, computeBlockSize fpRoot 2 2 (32 * 1024 * 8) d = some (lb0, rb0) →
      lhsRows + lb0 ≤ 2 ^ 64 ∧ rhsRows + rb0 ≤ 2 ^ 64)
    (h : allocGEMMContext_generic fpRoot lhsRows depth rhsRows lhsBits rhsBits lhsSigned
      rhsSigned lhsData rhsData res = some ctx) :
    ctx.lhs.nrows_a % ctx.lhsBlock = 0 ∧ ctx.rhs.nrows_a % ctx.rhsBlock = 0
      ∧ ctx.lhsBlock % 2 = 0 ∧ ctx.rhsBlock % 2 = 0
      ∧ ctx.lhs.ncols_a % 64 = 0 ∧ ctx.lhs.ncols = ctx.rhs.ncols
      ∧ ctx.lhs.ncols_a = ctx.rhs.ncols_a
      ∧ 0 < ctx.lhsBlock ∧ 0 < ctx.rhsBlock
      ∧ ∃ r, gemmBitSerial_generic_usingBinary ctx = some r := by
  unfold allocGEMMContext_generic allocGEMMContext_base at h
  cases hd : alignTo depth (1 * 64) with
  | none => rw [hd] at h; exact absurd h (by simp)
  | some depth_al =>
    rw [hd] at h
    dsimp only at h
    cases hp : planBlocks fpRoot lhsRows rhsRows 2 2 (32 * 1024 * 8) depth_al with
    | none => rw [hp] at h; exact absurd h (by simp)
    | some p =>
      obtain ⟨lb, rb⟩ := p
      rw [hp] at h
      dsimp only at h
      cases hl : BitSerialMatrix.alloc lhsBits lhsRows depth lhsSigned lb (1 * 64) lhsData with
      | none => rw [hl] at h; exact absurd h (by simp)
      | some lhs =>
        cases hr : BitSerialMatrix.alloc rhsBits rhsRows depth rhsSigned rb (1 * 64)
            rhsData with
        | none => rw [hl, hr] at h; exact absurd h (by simp)
        | some rhs =>
          rw [hl, hr] at h
          injection h with h
          subst h
          obtain ⟨l1, l2, l3, l4, _, _⟩ := alloc_some hl
          obtain ⟨r1, r2, r3, r4, _, _⟩ := alloc_some hr
          obtain ⟨p1, p2, p3, p4⟩ := planBlocks_spec fpRoot lhsRows rhsRows (32 * 1024 * 8)
            depth_al lb rb (hrows depth_al) hp
          have hca : lhs.ncols_a = rhs.ncols_a := by
            have := l2.symm.trans r2
            injection this
          have facts : lhs.nrows_a % lb = 0 ∧ rhs.nrows_a % rb = 0 ∧ lb % 2 = 0 ∧ rb % 2 = 0
              ∧ lhs.ncols_a % 64 = 0 ∧ lhs.ncols = rhs.ncols ∧ lhs.ncols_a = rhs.ncols_a
              ∧ 0 < lb ∧ 0 < rb :=
            ⟨(p3 _ l1).1, (p4 _ r1).1, p1, p2, alignTo_64 l2, by rw [l4, r4], hca,
              alignTo_some_pos l1, alignTo_some_pos r1⟩
          obtain ⟨f1, f2, f3, f4, f5, f6, f7, f8, f9⟩ := facts
          exact ⟨f1, f2, f3, f4, f5, f6, f7, f8, f9,
            usingBinary_asserts ⟨lhs, rhs, lb, rb, res⟩ f6 f8 f9 f1 f2 f3 f4⟩

theorem alloc_context_invariants_witness :
    allocGEMMContext_generic (fun _ _ _ _ => 120) 250 64 480 4 4 true false (fun _ => 0)
        (fun _ => 0) (fun _ => 0) = some scenarioTuned
      ∧ scenarioTuned.lhs.nrows_a % scenarioTuned.lhsBlock = 0
      ∧ scenarioTuned.rhs.nrows_a % scenarioTuned.rhsBlock = 0
      ∧ scenarioTuned.lhsBlock % 2 = 0 ∧ scenarioTuned.rhsBlock % 2 = 0
      ∧ scenarioTuned.lhs.ncols_a % 64 = 0 ∧ scenarioTuned.lhs.ncols = scenarioTuned.rhs.ncols
      ∧ scenarioTuned.lhs.ncols_a = scenarioTuned.rhs.ncols_a
      ∧ 0 < scenarioTuned.lhsBlock ∧ 0 < scenarioTuned.rhsBlock
      ∧ ∃ r, gemmBitSerial_generic_usingBinary scenarioTuned = some r :=
  ⟨rfl, alloc_context_invariants (fun _ _ _ _ => 120) 250 64 480 4 4 true false (fun _ => 0)
    (fun _ => 0) (fun _ => 0) scenarioTuned
    (by
      intro d lb0 rb0 hc
      have : lb0 = 240 ∧ rb0 = 240 := by
        unfold computeBlockSize at hc
        simp at hc
        omega
      omega)
    rfl⟩

/-! ## The kernel and the packer, cell by cell -/

/-- C11: for every call of `gemmBinary_generic_L1_tile2x1x2` whose arguments satisfy
its assertions (`rowsA % lhsBlock == 0`, `rowsBT % rhsBlock == 0`, both blocks
positive and even) with `rowsA_orig ≤ rowsA` and `rowsBT_orig ≤ rowsBT`, the
call returns, every logical cell is updated exactly once: for all
`i < rowsBT_orig` and `j < rowsA_orig` the new `CT[i * rowsA_orig + j]` is the
old value plus `alpha` times the sum over `d < depth_words` of
`popcount(A[j * depth_words + d] AND BT[i * depth_words + d])`, in `int32_t`
arithmetic; and nothing else is written, so the padded rows contribute to no
cell. -/
theorem binary_kernel_cells (A BT : Nat → Nat) (CT : Nat → Int) (alpha : Int)
    (rowsA depth_words rowsBT rowsA_orig rowsBT_orig lhsBlock rhsBlock : Nat)
    (hl0 : 0 < lhsBlock) (hr0 : 0 < rhsBlock)
    (h1 : rowsBT % rhsBlock = 0) (h2 : rowsA % lhsBlock = 0)
    (h3 : lhsBlock % 2 = 0) (h4 : rhsBlock % 2 = 0)
    (hoA : rowsA_orig ≤ rowsA) (hoBT : rowsBT_orig ≤ rowsBT) :
    ∃ CT2, gemmBinary_generic_L1_tile2x1x2 A BT CT alpha rowsA depth_words rowsBT rowsA_orig
        rowsBT_orig lhsBlock rhsBlock = some CT2
      ∧ (∀ i, i < rowsBT_orig → ∀ j, j < rowsA_orig →
          CT2 (i * rowsA_orig + j)
            = toInt32 (CT (i * rowsA_orig + j)
                + alpha * ∑ d ∈ Finset.range depth_words,
                    (popcountll (A (j * depth_words + d) &&& BT (i * depth_words + d)) : Int)))
      ∧ ∀ c, rowsA_orig * rowsBT_orig ≤ c → CT2 c = CT c := by
  refine ⟨_, L1_eq_addRect A BT CT alpha rowsA depth_words rowsBT rowsA_orig rowsBT_orig
    lhsBlock rhsBlock hl0 hr0 h1 h2 h3 h4, ?_, ?_⟩
  · intro i hi j hj
    have hro : 0 < rowsA_orig := by omega
    have hdiv : (i * rowsA_orig + j) / rowsA_orig = i := by
      rw [Nat.mul_comm, Nat.mul_add_div hro, Nat.div_eq_of_lt hj]; rfl
    have hmod : (i * rowsA_orig + j) % rowsA_orig = j := by
      rw [Nat.mul_comm, Nat.mul_add_mod, Nat.mod_eq_of_lt hj]
    unfold addRect
    rw [hdiv, hmod, if_pos ⟨hro, Nat.zero_le _, by omega, hi, Nat.zero_le _, by omega⟩,
      mul_comm alpha]
    rfl
  · intro c hc
    unfold addRect
    rw [if_neg]
    rintro ⟨h0, _, _, hlt, _, _⟩
    have hc2 : c < rowsA_orig * rowsBT_orig := by
      rw [Nat.mul_comm]
      exact (Nat.div_lt_iff_lt_mul h0).1 hlt
    omega

theorem binary_kernel_cells_witness :
    ∃ CT2, gemmBinary_generic_L1_tile2x1x2 (fun i => [5, 3, 6, 9].getD i 0)
        (fun i => [12, 7].getD i 0) (fun i => 10 * i) (-2) 4 1 2 3 1 2 2 = some CT2
      ∧ CT2 0 = -2 ∧ CT2 1 = 10 ∧ CT2 2 = 18 ∧ CT2 3 = 30 := by
  obtain ⟨CT2, h, hc, hf⟩ := binary_kernel_cells (fun i => [5, 3, 6, 9].getD i 0)
    (fun i => [12, 7].getD i 0) (fun i => 10 * i) (-2) 4 1 2 3 1 2 2 (by decide) (by decide)
    (by decide) (by decide) (by decide) (by decide) (by decide) (by decide)
  exact ⟨CT2, h, (hc 0 (by decide) 0 (by decide)).trans (by decide),
    (hc 0 (by decide) 1 (by decide)).trans (by decide),
    (hc 0 (by decide) 2 (by decide)).trans (by decide),
    (hf 3 (by decide)).trans (by decide)⟩

/-! ## Fine-tuning of the block size -/

/-- C12: for every `rows`, every `bs_div ≥ 1` and every `bs_max` that is a positive
multiple of `bs_div`, `finetuneBlockSize(rows, bs_max, bs_div)` returns a block
that is a multiple of `bs_div`, is at most `bs_max`, and whose padding
`alignTo(rows, B) - rows` is at most the padding of `bs_max`. -/
theorem finetune_conformant (rows bs_max bs_div : Nat) (hd : 1 ≤ bs_div) (hpos : 0 < bs_max)
    (hm : bs_max % bs_div = 0) :
    ∃ B p p0, finetuneBlockSize rows bs_max bs_div = some B ∧ B % bs_div = 0 ∧ B ≤ bs_max
      ∧ penalty rows B = some p ∧ penalty rows bs_max = some p0 ∧ p ≤ p0 := by
  obtain ⟨q, hq⟩ := Nat.dvd_of_mod_eq_zero hm
  rw [Nat.mul_comm] at hq
  subst hq
  have hq0 : 0 < q := Nat.pos_of_ne_zero (fun h => by rw [h, Nat.zero_mul] at hpos; omega)
  obtain ⟨kb, hB, hkb, hall⟩ := finetune_loop rows bs_div q hd hq0
  obtain ⟨a, _, hp⟩ := penalty_of_pos rows ((q - kb) * bs_div) (Nat.mul_pos (by omega) hd)
  obtain ⟨a0, _, hp0⟩ := penalty_of_pos rows (q * bs_div) hpos
  refine ⟨_, _, _, hB, Nat.mul_mod_left _ _, Nat.mul_le_mul_right _ (Nat.sub_le _ _), hp, hp0, ?_⟩
  have h := (hall 0 (Or.inl rfl)).1
  rw [Nat.sub_zero, hp, hp0] at h
  exact h

theorem finetune_conformant_witness :
    ∃ B p p0, finetuneBlockSize 10 8 2 = some B ∧ B % 2 = 0 ∧ B ≤ 8
      ∧ penalty 10 B = some p ∧ penalty 10 8 = some p0 ∧ p ≤ p0 :=
  finetune_conformant 10 8 2 (by decide) (by decide) (by decide)

/-- C13: for every `rows`, `bs_div ≥ 1` and `bs_max` a multiple of `bs_div` with
`bs_max > bs_div`, `finetuneBlockSize(rows, bs_max, bs_div)` returns a member of
the candidate set (`bs_max - k * bs_div`, above `bs_div`, divisible by
`bs_div`) whose padding `alignTo(rows, ccand) - rows` is minimal over that set,
and every candidate with the same padding is at most the returned one. -/
theorem finetune_optimal (rows bs_max bs_div : Nat) (hd : 1 ≤ bs_div)
    (hm : bs_max % bs_div = 0) (hgt : bs_div < bs_max) :
    ∃ B p, finetuneBlockSize rows bs_max bs_div = some B ∧ penalty rows B = some p
      ∧ (∃ k, B = bs_max - k * bs_div) ∧ bs_div < B ∧ B % bs_div = 0
      ∧ ∀ k, bs_div < bs_max - k * bs_div → (bs_max - k * bs_div) % bs_div = 0 →
          ∃ pc, penalty rows (bs_max - k * bs_div) = some pc ∧ p ≤ pc
            ∧ (pc = p → bs_max - k * bs_div ≤ B) := by
  obtain ⟨q, hq⟩ := Nat.dvd_of_mod_eq_zero hm
  rw [Nat.mul_comm] at hq
  subst hq
  have hq2 : 2 ≤ q := by
    by_contra h
    have h1 : q * bs_div ≤ 1 * bs_div := Nat.mul_le_mul_right _ (by omega)
    omega
  obtain ⟨kb, hB, hkb, hall⟩ := finetune_loop rows bs_div q hd (by omega)
  obtain ⟨a, _, hp⟩ := penalty_of_pos rows ((q - kb) * bs_div) (Nat.mul_pos (by omega) hd)
  have hbig : bs_div < (q - kb) * bs_div := by
    have h1 : 2 * bs_div ≤ (q - kb) * bs_div := Nat.mul_le_mul_right _ (by omega)
    omega
  refine ⟨_, _, hB, hp, ⟨kb, Nat.sub_mul q kb bs_div⟩, hbig, Nat.mul_mod_left _ _, ?_⟩
  intro k hk _
  rw [← Nat.sub_mul] at hk ⊢
  have hk2 : k < q - 1 := by
    by_contra h
    have h1 : (q - k) * bs_div ≤ 1 * bs_div := Nat.mul_le_mul_right _ (by omega)
    omega
  obtain ⟨c, _, hpc⟩ := penalty_of_pos rows ((q - k) * bs_div) (by omega)
  have h := hall k (Or.inr hk2)
  rw [hp, hpc] at h
  exact ⟨_, hpc, h.1, fun he => Nat.mul_le_mul_right _ (by have := h.2 he; omega)⟩

theorem finetune_optimal_witness :
    ∃ B p, finetuneBlockSize 10 8 2 = some B ∧ penalty 10 B = some p
      ∧ (∃ k, B = 8 - k * 2) ∧ 2 < B ∧ B % 2 = 0
      ∧ ∀ k, 2 < 8 - k * 2 → (8 - k * 2) % 2 = 0 →
          ∃ pc, penalty 10 (8 - k * 2) = some pc ∧ p ≤ pc ∧ (pc = p → 8 - k * 2 ≤ B) :=
  finetune_optimal 10 8 2 (by decide) (by decide) (by decide)

/-! ## Linearity in the bit-planes -/

/-- C14 (counterexample): in the wide scenario (33-bit LHS, 1-bit RHS, invariants
satisfied, zero-initialised path) the call for the pair `(32, 0)` shifts by 32
and gets `alpha = 1`, which is not `2^32` modulo `2^32`; the driver leaves 1 in
cell 0 and leaves 0 once LHS plane 32 is zeroed, while the kernel run on a zero
accumulator with `alpha = 2^32` (as an `int32_t`, 0) leaves 0. -/
theorem linearity_fails_for_wide_shift :
    scenarioWide.Invariants ∧ scenarioWide.mixedBipolar = false
      ∧ planeAlpha scenarioWide 32 0 = 1
      ∧ ¬ (planeAlpha scenarioWide 32 0 ≡ 2 ^ (32 + 0) [ZMOD 4294967296])
      ∧ (gemmBitSerial_generic_usingBinary scenarioWide).map (fun res => res 0) = some 1
      ∧ (gemmBitSerial_generic_usingBinary (scenarioWide.zeroLhsPlane 32)).map
          (fun res => res 0) = some 0
      ∧ (gemmBinary_generic_L1_tile2x1x2 (scenarioWide.lhs.bitplaneptr 32)
          (scenarioWide.rhs.bitplaneptr 0) (fun _ => 0) (toInt32 (2 ^ (32 + 0)))
          scenarioWide.lhs.nrows_a scenarioWide.lhs.wordsPerRow scenarioWide.rhs.nrows_a
          scenarioWide.lhs.nrows scenarioWide.rhs.nrows scenarioWide.lhsBlock
          scenarioWide.rhsBlock).map (fun K => K 0) = some 0
      ∧ ¬ ((1 : Int) - 0 ≡ 0 [ZMOD 4294967296]) := by
  refine ⟨by decide, by decide, by decide, by decide, ?_, ?_, by decide, by decide⟩
  · set_option maxRecDepth 100000 in decide
  · set_option maxRecDepth 100000 in decide

/-- C14 (amended): for every context satisfying the invariants on the
zero-initialised accumulator path whose bit widths sum to at most 32 (every
shift `1 << (lbit + rbit)` is then by at most 30), `gemmBitSerial` returns, and
(1) for every LHS plane `b < lhs.nbits` the result minus the result with LHS
plane `b` zeroed is, cell by cell modulo `2^32`, the sum over
`rbit < rhs.nbits` of the output of the binary kernel on a zero accumulator
for LHS plane `b` against RHS plane `rbit`; (2) the same holds for every RHS
plane, summed over the LHS planes; (3) the `alpha` of the call for
`(lbit, rbit)` is `2^(lbit + rbit)` modulo `2^32`, negated exactly when
`(lhs.issigned and lbit == lhs.nbits - 1)` XOR
`(rhs.issigned and rbit == rhs.nbits - 1)`; (4) visiting the pairs
`(lbit, rbit)` in any other order gives the same logical cells. -/
theorem bitplane_linearity (ctx : GEMMContext) (hinv : ctx.Invariants)
    (hmix : ctx.mixedBipolar = false) (hbits : ctx.lhs.nbits + ctx.rhs.nbits ≤ 32) :
    ∃ res, gemmBitSerial_generic_usingBinary ctx = some res
      ∧ (∀ b, b < ctx.lhs.nbits → ∃ (res0 : Nat → Int) (K : Nat → Nat → Int),
          gemmBitSerial_generic_usingBinary (ctx.zeroLhsPlane b) = some res0
          ∧ (∀ rbit, rbit < ctx.rhs.nbits →
              planeStep ctx b rbit (fun _ => 0) = some (K rbit))
          ∧ ∀ i, i < ctx.rhs.nrows → ∀ j, j < ctx.lhs.nrows →
              res (i * ctx.lhs.nrows + j) - res0 (i * ctx.lhs.nrows + j)
                ≡ ∑ rbit ∈ Finset.range ctx.rhs.nbits, K rbit (i * ctx.lhs.nrows + j)
                  [ZMOD 4294967296])
      ∧ (∀ b, b < ctx.rhs.nbits → ∃ (res0 : Nat → Int) (K : Nat → Nat → Int),
          gemmBitSerial_generic_usingBinary (ctx.zeroRhsPlane b) = some res0
          ∧ (∀ lbit, lbit < ctx.lhs.nbits →
              planeStep ctx lbit b (fun _ => 0) = some (K lbit))
          ∧ ∀ i, i < ctx.rhs.nrows → ∀ j, j < ctx.lhs.nrows →
              res (i * ctx.lhs.nrows + j) - res0 (i * ctx.lhs.nrows + j)
                ≡ ∑ lbit ∈ Finset.range ctx.lhs.nbits, K lbit (i * ctx.lhs.nrows + j)
                  [ZMOD 4294967296])
      ∧ (∀ lbit, lbit < ctx.lhs.nbits → ∀ rbit, rbit < ctx.rhs.nbits →
          planeAlpha ctx lbit rbit
            ≡ (if xor (ctx.lhs.issigned && (lbit == ctx.lhs.nbits - 1))
                  (ctx.rhs.issigned && (rbit == ctx.rhs.nbits - 1))
                then -(2 ^ (lbit + rbit)) else 2 ^ (lbit + rbit)) [ZMOD 4294967296])
      ∧ ∀ order : List (Nat × Nat), order.Perm (planePairs ctx.lhs.nbits ctx.rhs.nbits) →
          ∃ res2, gemmBitSerial_usingBinary_inOrder ctx order = some res2
            ∧ ∀ i, i < ctx.rhs.nrows → ∀ j, j < ctx.lhs.nrows →
                res2 (i * ctx.lhs.nrows + j) = res (i * ctx.lhs.nrows + j) := by
  have hbits2 : ctx.lhs.nbits + ctx.rhs.nbits ≤ 33 := by omega
  obtain ⟨res, hres, _⟩ := usingBinary_cells ctx hinv hmix hbits2
  refine ⟨res, hres, ?_, ?_, ?_, ?_⟩
  · intro b hb
    obtain ⟨r, res0, K, h1, h2, h3, h4⟩ := lhs_plane_linear ctx hinv hmix hbits2 b hb
    have hr : r = res := by
      rw [hres] at h1
      injection h1 with h1
      exact h1.symm
    subst hr
    exact ⟨res0, K, h2, h3, h4⟩
  · intro b hb
    obtain ⟨r, res0, K, h1, h2, h3, h4⟩ := rhs_plane_linear ctx hinv hmix hbits2 b hb
    have hr : r = res := by
      rw [hres] at h1
      injection h1 with h1
      exact h1.symm
    subst hr
    exact ⟨res0, K, h2, h3, h4⟩
  · intro lbit hl rbit hr
    have hs : lbit + rbit < 32 := by omega
    unfold planeAlpha
    dsimp only
    rw [Bool.xor_comm]
    split
    · exact Int.ModEq.trans (toInt32_modEq _) (Int.ModEq.neg (shl32_modEq _ hs))
    · exact shl32_modEq _ hs
  · intro order hp
    obtain ⟨res2, h1, h2⟩ := inOrder_perm ctx hinv res hres order hp
    refine ⟨res2, h1, ?_⟩
    intro i hi j hj
    apply h2 i hi j hj
    have hcell : i * ctx.lhs.nrows + j < ctx.lhs.nrows * ctx.rhs.nrows := by
      rw [Nat.mul_comm ctx.lhs.nrows]; exact index_lt_of_row_lt hi hj
    unfold prepareAccumulators
    unfold GEMMContext.mixedBipolar at hmix
    rw [hmix]
    simp only [Bool.false_eq_true, if_false]
    rw [if_pos hcell]
    exact toInt32_zero

theorem bitplane_linearity_witness :
    ∃ res res0 K0 K1, gemmBitSerial_generic_usingBinary scenarioSigned = some res
      ∧ gemmBitSerial_generic_usingBinary (scenarioSigned.zeroLhsPlane 2) = some res0
      ∧ planeStep scenarioSigned 2 0 (fun _ => 0) = some K0
      ∧ planeStep scenarioSigned 2 1 (fun _ => 0) = some K1
      ∧ res (1 * 3 + 2) - res0 (1 * 3 + 2) ≡ K0 (1 * 3 + 2) + K1 (1 * 3 + 2)
          [ZMOD 4294967296] := by
  obtain ⟨res, h1, hl, _⟩ := bitplane_linearity scenarioSigned (by decide) (by decide)
    (by decide)
  obtain ⟨res0, K, h2, h3, h4⟩ := hl 2 (by decide)
  refine ⟨res, res0, K 0, K 1, h1, h2, h3 0 (by decide), h3 1 (by decide), ?_⟩
  have h := h4 1 (by decide) 2 (by decide)
  have e : (∑ rbit ∈ Finset.range scenarioSigned.rhs.nbits,
      K rbit (1 * scenarioSigned.lhs.nrows + 2))
      = K 0 (1 * 3 + 2) + K 1 (1 * 3 + 2) := by
    show (∑ rbit ∈ Finset.range 2, K rbit (1 * 3 + 2)) = _
    rw [Finset.sum_range_succ, Finset.sum_range_succ, Finset.sum_range_zero, zero_add]
  rw [e] at h
  exact h

/-! ## When the planner aborts -/

/-- C15 (counterexample): with register multiples 2 and 2 and
`cacheBits = dBits = 64` the budget is not smaller than a row, yet
`computeBlockSize` aborts: `a = 16`, `b = 256`, the assertion `discr > 0`
passes with `discr = sqrt 69632`, about 263.9, the larger quotient
`(-256 + discr) / 32` is about 0.246, its floor is 0 and the assertion `x > 0`
fails. -/
theorem planner_aborts_with_row_budget :
    64 ≥ 64 ∧ computeBlockSizeF32 2 2 64 64 = none
      ∧ ((planCoefficientsF32 2 2 64 64).bind
          (fun co => discrF32 co.2.2.1 co.2.2.2.1 co.2.2.2.2)).isSome = true
      ∧ ((planCoefficientsF32 2 2 64 64).bind
          (fun co => (discrF32 co.2.2.1 co.2.2.2.1 co.2.2.2.2).map
            (fun discr => rootF32 co.2.2.1 co.2.2.2.1 discr))) = some none := by
  refine ⟨by decide, ?_, ?_, ?_⟩
  · set_option maxRecDepth 100000 in decide
  · set_option maxRecDepth 100000 in decide
  · set_option maxRecDepth 100000 in decide

/-- C15 (amended): write `a = 4 * lhsMult * rhsMult` and
`b = dBits * (lhsMult + rhsMult)` for the coefficients that `computeBlockSize`
computes, and let `lhsMult` and `rhsMult` be positive, `b + 2a < 2^24` and
`cacheBits < 2^64`.  Then `computeBlockSize`, run in single precision as the
source runs it, returns with `lhsBlock ≥ lhsMult` and `rhsBlock ≥ rhsMult` when
`a * cacheBits ≥ a * (a + b + 2) + b`, that is when the budget is at least
`a + b + 2 + b / a`, and aborts when `a * (cacheBits + 3) + 2 * b ≤ a * (a + b)`,
that is when the budget is at most `a + b - 3 - 2 * b / a`. -/
theorem planner_abort_condition (lhsMult rhsMult cacheBits dBits : Nat)
    (hl : 0 < lhsMult) (hr : 0 < rhsMult)
    (hS : dBits * (lhsMult + rhsMult) + 2 * (4 * lhsMult * rhsMult) < 2 ^ 24)
    (hc : cacheBits < 2 ^ 64) :
    (4 * lhsMult * rhsMult * (4 * lhsMult * rhsMult + dBits * (lhsMult + rhsMult) + 2)
          + dBits * (lhsMult + rhsMult) ≤ 4 * lhsMult * rhsMult * cacheBits →
        ∃ lhsBlock rhsBlock,
          computeBlockSizeF32 lhsMult rhsMult cacheBits dBits = some (lhsBlock, rhsBlock)
            ∧ lhsMult ≤ lhsBlock ∧ rhsMult ≤ rhsBlock)
      ∧ (4 * lhsMult * rhsMult * (cacheBits + 3) + 2 * (dBits * (lhsMult + rhsMult))
            ≤ 4 * lhsMult * rhsMult * (4 * lhsMult * rhsMult + dBits * (lhsMult + rhsMult)) →
          computeBlockSizeF32 lhsMult rhsMult cacheBits dBits = none) :=
  ⟨computeBlockSizeF32_returns lhsMult rhsMult cacheBits dBits hl hr hS hc,
    computeBlockSizeF32_aborts lhsMult rhsMult cacheBits dBits hl hr hS hc⟩

theorem planner_abort_condition_witness :
    (∃ lhsBlock rhsBlock, computeBlockSizeF32 2 2 262144 64 = some (lhsBlock, rhsBlock)
        ∧ 2 ≤ lhsBlock ∧ 2 ≤ rhsBlock)
      ∧ computeBlockSizeF32 2 2 64 64 = none :=
  ⟨(planner_abort_condition 2 2 262144 64 (by decide) (by decide) (by decide)
      (by decide)).1 (by decide),
    (planner_abort_condition 2 2 64 64 (by decide) (by decide) (by decide)
      (by decide)).2 (by decide)⟩

/-! ## Index safety of the cache-blocked kernel -/

/-- C16: for every call of `gemmBinary_generic_L1_tile2x1x2` satisfying its
assertions with positive blocks, with `A` holding `rowsA * depth_words` words,
`BT` holding `rowsBT * depth_words` words and `CT` holding
`rowsA_orig * rowsBT_orig` cells, no index read from `A` (the second tile row
`Aptr[d + depth_words]` included) or from `BT` and no index read or written in
`CT` is out of range: the kernel with every access checked returns, and
returns what the kernel returns. -/
theorem kernel_index_safety (A BT : Nat → Nat) (CT : Nat → Int) (alpha : Int)
    (rowsA depth_words rowsBT rowsA_orig rowsBT_orig lhsBlock rhsBlock : Nat)
    (hl0 : 0 < lhsBlock) (hr0 : 0 < rhsBlock)
    (h1 : rowsBT % rhsBlock = 0) (h2 : rowsA % lhsBlock = 0)
    (h3 : lhsBlock % 2 = 0) (h4 : rhsBlock % 2 = 0) :
    ∃ CT2, gemmBinary_generic_L1_tile2x1x2_checked (rowsA * depth_words)
          (rowsBT * depth_words) (rowsA_orig * rowsBT_orig) A BT CT alpha rowsA depth_words
          rowsBT rowsA_orig rowsBT_orig lhsBlock rhsBlock = some CT2
      ∧ gemmBinary_generic_L1_tile2x1x2 A BT CT alpha rowsA depth_words rowsBT rowsA_orig
          rowsBT_orig lhsBlock rhsBlock = some CT2 := by
  have hs := L1_eq_addRect A BT CT alpha rowsA depth_words rowsBT rowsA_orig rowsBT_orig
    lhsBlock rhsBlock hl0 hr0 h1 h2 h3 h4
  refine ⟨_, ?_, hs⟩
  rw [L1_checked A BT CT alpha rowsA depth_words rowsBT rowsA_orig rowsBT_orig lhsBlock
    rhsBlock hl0 hr0 h1 h2 h3 h4]
  exact hs

theorem kernel_index_safety_witness :
    ∃ CT2, gemmBinary_generic_L1_tile2x1x2_checked (4 * 1) (2 * 1) (3 * 1)
          (fun i => [5, 3, 6, 9].getD i 0) (fun i => [12, 7].getD i 0) (fun i => 10 * i) (-2)
          4 1 2 3 1 2 2 = some CT2
      ∧ gemmBinary_generic_L1_tile2x1x2 (fun i => [5, 3, 6, 9].getD i 0)
          (fun i => [12, 7].getD i 0) (fun i => 10 * i) (-2) 4 1 2 3 1 2 2 = some CT2 :=
  kernel_index_safety (fun i => [5, 3, 6, 9].getD i 0) (fun i => [12, 7].getD i 0)
    (fun i => 10 * i) (-2) 4 1 2 3 1 2 2 (by decide) (by decide) (by decide) (by decide)
    (by decide) (by decide)

/-! ## Import keeps the low bits -/

/-- C17: for every `BitSerialMatrix` satisfying the data-model invariants with 1 to
8 bits, every prior buffer content and every dense input `M` of arbitrary
integers, `importRegular` followed by `exportRegular` yields
`M[r][c] mod 2^nbits` at each `(r, c)`; the result is the same for every prior
content of the matrix buffer and of the target; and the row-major import of
`M` is the same matrix as the column-major import of the transposed storage
of `M`. -/
theorem import_keeps_low_bits (m : BitSerialMatrix) (hwf : m.WF)
    (hn : 1 ≤ m.nbits ∧ m.nbits ≤ 8) (M out0 : Nat → Int) :
    (∀ r, r < m.nrows → ∀ c, c < m.ncols →
        (m.importRegular M false).exportRegular out0 (r * m.ncols + c)
          = M (r * m.ncols + c) % 2 ^ m.nbits)
      ∧ (∀ m2 : BitSerialMatrix, m.SameShape m2 → ∀ out2 : Nat → Int,
          ∀ r, r < m.nrows → ∀ c, c < m.ncols →
            (m2.importRegular M false).exportRegular out2 (r * m.ncols + c)
              = (m.importRegular M false).exportRegular out0 (r * m.ncols + c))
      ∧ ∀ MT : Nat → Int,
          (∀ r, r < m.nrows → ∀ c, c < m.ncols → MT (c * m.nrows + r) = M (r * m.ncols + c)) →
          m.importRegular MT true = m.importRegular M false := by
  have hcell : ∀ (t : BitSerialMatrix), t.WF → t.nbits = m.nbits → t.ncols = m.ncols →
      t.nrows = m.nrows → ∀ o : Nat → Int, ∀ r, r < m.nrows → ∀ c, c < m.ncols →
      (t.importRegular M false).exportRegular o (r * m.ncols + c)
        = M (r * m.ncols + c) % 2 ^ m.nbits := by
    intro t ht e1 e2 e3 o r hr c hc
    have h := exportRegular_importRegular t M false o ht (r := r) (c := c)
      (by rw [e3]; exact hr) (by rw [e2]; exact hc)
    rw [e2] at h
    have hmin : min t.nbits 8 = m.nbits := by rw [e1]; omega
    rw [h, hmin, sourceElem_rowMajor, e2]
    exact toUInt8_mod _ _ hn.2
  refine ⟨hcell m hwf rfl rfl rfl out0, ?_, ?_⟩
  · intro m2 hs out2 r hr c hc
    obtain ⟨_, s2, s3, s4, s5, s6⟩ := hs
    have hwf2 : m2.WF := by
      unfold BitSerialMatrix.WF
      rw [s3, s4, s5, s6]
      exact hwf
    rw [hcell m2 hwf2 s2 s4 s3 out2 r hr c hc, hcell m hwf rfl rfl rfl out0 r hr c hc]
  · intro MT hMT
    rw [importRegular_eq, importRegular_eq]
    apply loop_congr
    intro r hr t
    apply loop_congr
    intro c hc t2
    have he : m.sourceElem MT true r c = m.sourceElem M false r c := by
      unfold BitSerialMatrix.sourceElem
      simp only [Bool.not_true, Bool.not_false, Bool.false_eq_true, if_false, if_true]
      rw [hMT r hr c hc]
    rw [he]

theorem import_keeps_low_bits_witness :
    ((⟨true, 3, 2, 2, 2, 64, fun i => i⟩ : BitSerialMatrix).importRegular
        (fun i => [-1, 300, 12, -129].getD i 0) false).exportRegular (fun _ => 0) (0 * 2 + 0) = 7
    ∧ ((⟨true, 3, 2, 2, 2, 64, fun i => i⟩ : BitSerialMatrix).importRegular
        (fun i => [-1, 300, 12, -129].getD i 0) false).exportRegular (fun _ => 0) (0 * 2 + 1) = 4
    ∧ ((⟨true, 3, 2, 2, 2, 64, fun i => i⟩ : BitSerialMatrix).importRegular
        (fun i => [-1, 300, 12, -129].getD i 0) false).exportRegular (fun _ => 0) (1 * 2 + 1) = 7 :=
  have h := (import_keeps_low_bits ⟨true, 3, 2, 2, 2, 64, fun i => i⟩ (by decide) (by decide)
    (fun i => [-1, 300, 12, -129].getD i 0) (fun _ => 0)).1
  ⟨(h 0 (by decide) 0 (by decide)).trans (by decide),
    (h 0 (by decide) 1 (by decide)).trans (by decide),
    (h 1 (by decide) 1 (by decide)).trans (by decide)⟩

/-! ## Bit accessors and alignment -/

/-- C18: for every `BitSerialMatrix` whose `ncols_a` is a multiple of 64, every
buffer content and every in-range coordinate (`b < nbits`, `r < nrows_a`,
`c < ncols_a`): the addressed word index
`b * wordsPerBitplane + r * wordsPerRow + (c >> 6)` is below
`nbits * wordsPerBitplane`; `get` after `set(b, r, c)` is true; `get` after
`unset(b, r, c)` is false; and `set` and `unset` leave `get(b2, r2, c2)`
unchanged at every other in-range coordinate. -/
theorem accessors_exact_and_framed (m : BitSerialMatrix) (h64 : m.ncols_a % 64 = 0)
    (b r c : Nat) (hb : b < m.nbits) (hr : r < m.nrows_a) (hc : c < m.ncols_a) :
    m.wordIndex b r c = b * m.wordsPerBitplane + r * m.wordsPerRow + (c >>> 6)
      ∧ m.wordIndex b r c < m.nbits * m.wordsPerBitplane
      ∧ (m.set b r c).get b r c = true
      ∧ (m.unset b r c).get b r c = false
      ∧ ∀ b2 r2 c2, b2 < m.nbits → r2 < m.nrows_a → c2 < m.ncols_a →
          ¬ (b2 = b ∧ r2 = r ∧ c2 = c) →
          (m.set b r c).get b2 r2 c2 = m.get b2 r2 c2
            ∧ (m.unset b r c).get b2 r2 c2 = m.get b2 r2 c2 := by
  refine ⟨rfl, wordIndex_lt m h64 hb hr hc, ?_, ?_, ?_⟩
  · exact (get_set m h64 hr hc hr hc).2 (Or.inr ⟨rfl, rfl, rfl⟩)
  · rw [Bool.eq_false_iff]
    intro h
    exact ((get_unset m h64 hr hc hr hc).1 h).2 ⟨rfl, rfl, rfl⟩
  · intro b2 r2 c2 _ hr2 hc2 hne
    constructor
    · rw [Bool.eq_iff_iff, get_set m h64 hr2 hc2 hr hc]
      exact ⟨fun h => h.elim id (fun h2 => absurd h2 hne), Or.inl⟩
    · rw [Bool.eq_iff_iff, get_unset m h64 hr2 hc2 hr hc]
      exact ⟨fun h => h.1, fun h => ⟨h, hne⟩⟩

theorem accessors_exact_and_framed_witness :
    (⟨false, 2, 3, 100, 4, 128, fun i => 5 * i + 3⟩ : BitSerialMatrix).wordIndex 1 2 70
        < 2 * (⟨false, 2, 3, 100, 4, 128, fun i => 5 * i + 3⟩ : BitSerialMatrix).wordsPerBitplane
      ∧ ((⟨false, 2, 3, 100, 4, 128, fun i => 5 * i + 3⟩ : BitSerialMatrix).set 1 2 70).get 1 2 70
          = true
      ∧ ((⟨false, 2, 3, 100, 4, 128, fun i => 5 * i + 3⟩ : BitSerialMatrix).unset 1 2 70).get
          1 2 70 = false
      ∧ ((⟨false, 2, 3, 100, 4, 128, fun i => 5 * i + 3⟩ : BitSerialMatrix).unset 1 2 70).get
          1 2 66 = true :=
  have h := accessors_exact_and_framed ⟨false, 2, 3, 100, 4, 128, fun i => 5 * i + 3⟩
    (by decide) 1 2 70 (by decide) (by decide) (by decide)
  ⟨h.2.1, h.2.2.1, h.2.2.2.1,
    (h.2.2.2.2 1 2 66 (by decide) (by decide) (by decide) (by decide)).2.trans (by decide)⟩

/-- C19: for every `in` and every `af ≥ 1` whose sum `in + af` does not overflow 64
bits, `alignTo(in, af)` returns a multiple of `af` with
`in ≤ alignTo(in, af) < in + af`, which is the least multiple of `af` that is
at least `in`; it equals `in` exactly when `af` divides `in`; and `alignTo` is
idempotent. -/
theorem alignTo_rounds_up (i af : Nat) (haf : 1 ≤ af) (hnw : i + af < 2 ^ 64) :
    ∃ r, alignTo i af = some r
      ∧ r % af = 0 ∧ i ≤ r ∧ r < i + af
      ∧ (∀ m, m % af = 0 → i ≤ m → r ≤ m)
      ∧ (r = i ↔ i % af = 0)
      ∧ alignTo r af = some r := by
  have hsome : ∃ r, alignTo i af = some r := by
    unfold alignTo
    rw [if_neg (by omega)]
    by_cases hm : i % af ≠ 0
    · rw [if_pos hm]; exact ⟨_, rfl⟩
    · rw [if_neg hm]; exact ⟨_, rfl⟩
  obtain ⟨r, hr⟩ := hsome
  obtain ⟨h1, h2, h3⟩ := alignTo_spec hr (Nat.le_of_lt hnw)
  refine ⟨r, hr, h1, h2, h3, ?_, ?_, ?_⟩
  · intro m hm him
    by_contra hlt
    have hlt2 : m < r := by omega
    obtain ⟨q, hq⟩ := Nat.dvd_of_mod_eq_zero h1
    obtain ⟨q2, hq2⟩ := Nat.dvd_of_mod_eq_zero hm
    rw [hq, hq2] at hlt2
    have hq12 : q2 < q := Nat.lt_of_mul_lt_mul_left hlt2
    have : af * (q2 + 1) ≤ af * q := Nat.mul_le_mul_left af hq12
    rw [Nat.mul_add, Nat.mul_one] at this
    omega
  · constructor
    · intro h; rw [← h]; exact h1
    · intro h
      unfold alignTo at hr
      rw [if_neg (by omega), if_neg (by omega)] at hr
      injection hr with hr
      exact hr.symm
  · unfold alignTo
    rw [if_neg (by omega), if_neg (by omega)]

theorem alignTo_rounds_up_witness :
    ∃ r, alignTo 250 240 = some r
      ∧ r % 240 = 0 ∧ 250 ≤ r ∧ r < 250 + 240
      ∧ (∀ m, m % 240 = 0 → 250 ≤ m → r ≤ m)
      ∧ (r = 250 ↔ 250 % 240 = 0)
      ∧ alignTo r 240 = some r :=
  alignTo_rounds_up 250 240 (by decide) (by decide)

/-! ## Concrete runs -/

/-- C3 (counterexample): with `nbits = 9` the element `256` lies in `[0, 2^9)`, yet
a 1x1 matrix holding it is exported as `0`: the element is read through
`uint8_t`. -/
theorem roundtrip_fails_nine_bits :
    ((BitSerialMatrix.alloc 9 1 1 false 1 64 (fun _ => 0)).map
      (fun m => (m.importRegular (fun _ => 256) false).exportRegular (fun _ => 0) 0))
      = some 0
    ∧ (0 : Int) ≤ 256 ∧ (256 : Int) < 2 ^ 9 ∧ (0 : Int) ≠ 256 := by
  decide

/-- C4 (failing input): on the context allocated for a 1-bit signed LHS `[[1, 0]]`
and a 2-bit unsigned transposed RHS `[[1, 2]]`, with the accumulator cell
holding 5 beforehand, the tiled kernel leaves `5 - 1 = 4` and the naive kernel
leaves `-1`. -/
theorem tiled_naive_differ_mixed_bipolar :
    (allocGEMMContext_generic (fun _ _ _ _ => 120) 1 2 1 1 2 true false
        (fun _ => 0) (fun _ => 0) (fun _ => 5)).map
      (fun ctx =>
        let loaded : GEMMContext :=
          ⟨ctx.lhs.importRegular (fun i => [1, 0].getD i 0) false,
           ctx.rhs.importRegular (fun i => [1, 2].getD i 0) false,
           ctx.lhsBlock, ctx.rhsBlock, ctx.res⟩
        ((gemmBitSerial_generic_usingBinary loaded).map (fun r => r 0),
         (gemmBitSerial_generic_naive loaded).map (fun r => r 0)))
      = some (some 4, some (-1)) := by
  decide

/-- C7 (failing input): scenario S2.  On the context allocated for
`(lhsRows, depth, rhsRows) = (1, 2, 1)`, 1 bit and signed on both sides, with
the LHS bits `[[1, 0]]` and the transposed RHS bits `[[0, 1]]`, the kernel
leaves 0 in the only accumulator cell. -/
theorem S2_bipolar_leaves_zero :
    (allocGEMMContext_generic (fun _ _ _ _ => 120) 1 2 1 1 1 true true
        (fun _ => 0) (fun _ => 0) (fun _ => 7)).map
      (fun ctx =>
        (gemmBitSerial_generic_usingBinary
          ⟨ctx.lhs.importRegular (fun i => [1, 0].getD i 0) false,
           ctx.rhs.importRegular (fun i => [0, 1].getD i 0) false,
           ctx.lhsBlock, ctx.rhsBlock, ctx.res⟩).map (fun r => r 0))
      = some (some 0) := by
  decide

/-- C8 (counterexample): for `lhsRows = 2^64 - 2`, `rhsRows = 2^63`, `depth = 64`,
1 and 2 bits, with the planner root 120 (the root for `depth = 64`), the planner
keeps the block 240, rounding `lhsRows` up to it wraps around to 224, and
allocation returns a context with `lhs.nrows_a % lhsBlock = 224`.  The three
buffer sizes, computed in 64-bit arithmetic like the row counts, are 224 words,
224 words and 0 cells, so the three `new` expressions succeed. -/
theorem alloc_wraps_rows :
    (allocGEMMContext_generic (fun _ _ _ _ => 120) (2 ^ 64 - 2) 64 (2 ^ 63) 1 2 false false
        (fun _ => 0) (fun _ => 0) (fun _ => 0)).map
      (fun ctx => (ctx.lhsBlock, ctx.lhs.nrows_a, ctx.lhs.nrows_a % ctx.lhsBlock,
        decide (ctx.lhs.nrows_a % ctx.lhsBlock = 0)))
      = some (240, 224, 224, false)
    ∧ (allocGEMMContext_generic (fun _ _ _ _ => 120) (2 ^ 64 - 2) 64 (2 ^ 63) 1 2 false false
        (fun _ => 0) (fun _ => 0) (fun _ => 0)).map
      (fun ctx => [(ctx.lhs.nbits * ctx.lhs.wordsPerBitplane) % 2 ^ 64,
        (ctx.rhs.nbits * ctx.rhs.wordsPerBitplane) % 2 ^ 64,
        (ctx.lhs.nrows * ctx.rhs.nrows) % 2 ^ 64])
      = some [224, 224, 0] := by
  decide

/-- C9 (failing input): the context for a 1-bit signed LHS and a 2-bit unsigned
RHS is allocated, and `prepareAccumulators` hands back whatever the accumulator
cell held: 5 when it held 5, 6 when it held 6. -/
theorem prepareAccumulators_mixed_keeps_content :
    ((allocGEMMContext_generic (fun _ _ _ _ => 120) 1 2 1 1 2 true false
        (fun _ => 0) (fun _ => 0) (fun _ => 5)).map (fun ctx => prepareAccumulators ctx 0),
     (allocGEMMContext_generic (fun _ _ _ _ => 120) 1 2 1 1 2 true false
        (fun _ => 0) (fun _ => 0) (fun _ => 6)).map (fun ctx => prepareAccumulators ctx 0))
      = (some 5, some 6) := by
  decide

/-- C10 (failing input): for `depth = 64` the quadratic of the source,
`16 x^2 + 256 x - 262144`, has the root floor 120; `computeBlockSize` returns
the blocks `(240, 240)`, which with 240 rows on both sides a context keeps
(neither block exceeds its row count, and no row is padding), and their working
set `64 * (240 + 240) + 32 * 240 * 240 = 1873920` exceeds
`cacheBits = 262144`. -/
theorem working_set_exceeds_cache :
    rootExact 2 2 (32 * 1024 * 8) 64 = some 120
    ∧ computeBlockSize (fun _ _ _ _ => 120) 2 2 (32 * 1024 * 8) 64 = some (240, 240)
    ∧ (allocGEMMContext_generic (fun _ _ _ _ => 120) 240 64 240 1 1 false false
        (fun _ => 0) (fun _ => 0) (fun _ => 0)).map
      (fun ctx => (ctx.lhsBlock, ctx.rhsBlock, ctx.lhs.ncols_a,
        ctx.lhs.ncols_a * (ctx.lhsBlock + ctx.rhsBlock) + 32 * ctx.lhsBlock * ctx.rhsBlock,
        decide (ctx.lhs.ncols_a * (ctx.lhsBlock + ctx.rhsBlock)
          + 32 * ctx.lhsBlock * ctx.rhsBlock ≤ 32 * 1024 * 8)))
      = some (240, 240, 64, 1873920, false) := by
  refine ⟨?_, by decide, by decide⟩
  have h : Nat.sqrt 16842752 = 4103 := by
    symm; rw [Nat.eq_sqrt]; decide
  have hD : (((64 : Nat) : Int) * ((2 : Nat) + (2 : Nat)) * (((64 : Nat) : Int)
      * ((2 : Nat) + (2 : Nat))) - 4 * (4 * ((2 : Nat) : Int) * (2 : Nat))
      * -(((32 * 1024 * 8 : Nat)) : Int)).toNat = 16842752 := by decide
  simp only [rootExact, hD, h]
  decide

/-- Runs of the planner in single precision.  The generic configuration at depth
64 gives the blocks `(240, 240)` of the exact root 120.  At `dBits = 65536` the
budget 262144 is below `a + b = 262160`, and the function still returns
`(2, 2)`: the root of `2^36 + 2^24` is rounded up to 262176, and the quotient is
1.  At `dBits = 2^28` the budget `a + b = 2^30 + 16` is rounded to `2^30`,
`discr` is rounded to `b`, and the function aborts. -/
theorem computeBlockSizeF32_runs :
    computeBlockSizeF32 2 2 (32 * 1024 * 8) 64 = some (240, 240)
    ∧ computeBlockSizeF32 2 2 262144 65536 = some (2, 2)
    ∧ computeBlockSizeF32 2 2 1073741840 268435456 = none := by
  refine ⟨?_, ?_, ?_⟩
  · set_option maxRecDepth 100000 in decide
  · set_option maxRecDepth 100000 in decide
  · set_option maxRecDepth 100000 in decide

/-- The checks of the checked kernel are live: one word less in `A`, one word less
in `BT`, or one cell less in `CT` than the kernel needs, and the run fails. -/
theorem checked_kernel_detects_short_arrays :
    (gemmBinary_generic_L1_tile2x1x2_checked 3 2 3
        (fun i => [5, 3, 6, 9].getD i 0) (fun i => [12, 7].getD i 0) (fun i => 10 * i) (-2)
        4 1 2 3 1 2 2).isNone = true
    ∧ (gemmBinary_generic_L1_tile2x1x2_checked 4 1 3
        (fun i => [5, 3, 6, 9].getD i 0) (fun i => [12, 7].getD i 0) (fun i => 10 * i) (-2)
        4 1 2 3 1 2 2).isNone = true
    ∧ (gemmBinary_generic_L1_tile2x1x2_checked 4 2 2
        (fun i => [5, 3, 6, 9].getD i 0) (fun i => [12, 7].getD i 0) (fun i => 10 * i) (-2)
        4 1 2 3 1 2 2).isNone = true := by
  decide

/-- The search of `finetuneBlockSize` for 10 rows from block 8 in steps of 2: the
paddings of 8, 6 and 4 are 6, 2 and 2, and the larger of the two best is
returned. -/
theorem finetune_run :
    finetuneBlockSize 10 8 2 = some 6
      ∧ (penalty 10 8, penalty 10 6, penalty 10 4) = (some 6, some 2, some 2) := by
  decide

end gemmbitserial
